import Mathlib

/-!
# pcapmux: merging several pcap streams into one

A shallow embedding of `main.go`.  Byte streams are lists of `UInt8`, the
standard output is a `Writer` that records the bytes it accepted, the log is a
list of lines, and the goroutines of the program are threads of a small-step
system (`Sys`) scheduled by an arbitrary list of thread ids.
-/

namespace Pcapmux

/-! ## Go runtime pieces used by the program -/

/-- Go `error` values.  The program only tells `io.EOF` apart from the rest;
`io.ReadFull` also produces `io.ErrUnexpectedEOF`. -/
inductive GoError where
  | EOF
  | ErrUnexpectedEOF
  | other (msg : String)
  deriving DecidableEq, Repr

/-- The method `Error()` of an `error`. -/
def GoError.Error : GoError → String
  | .EOF => "EOF"
  | .ErrUnexpectedEOF => "unexpected EOF"
  | .other msg => msg

/-- An `io.Reader` over a finite stream: `data` is what is still to be read and
`err` is what `Read` returns once `data` is used up (`io.EOF` for a stream that
simply ends, another error for a stream that fails). -/
structure Reader where
  data : List UInt8
  err : GoError
  deriving DecidableEq, Repr

/-- `io.ReadFull(r, buf)`: reads exactly `len(buf)` bytes into `buf`.  Returns
the reader, the buffer contents afterwards and the error.  The error is `EOF`
only if no byte was read; an `EOF` after some but not all bytes becomes
`ErrUnexpectedEOF`.  With `len(buf) = 0` no `Read` is issued and the result is
`nil`. -/
def ReadFull (r : Reader) (buf : List UInt8) : Reader × List UInt8 × Option GoError :=
  if buf.length = 0 then (r, buf, none)
  else if buf.length ≤ r.data.length then
    ({ r with data := r.data.drop buf.length }, r.data.take buf.length, none)
  else if r.data.length = 0 then (r, buf, some r.err)
  else ({ r with data := [] }, r.data ++ buf.drop r.data.length,
        some (if r.err = .EOF then .ErrUnexpectedEOF else r.err))

/-- `binary.LittleEndian.Uint32(b)` for a slice of (at least) four bytes. -/
def LittleEndian.Uint32 (b : List UInt8) : Nat :=
  (b.getD 0 0).toNat + (b.getD 1 0).toNat * 2 ^ 8 + (b.getD 2 0).toNat * 2 ^ 16
    + (b.getD 3 0).toNat * 2 ^ 24

/-- The Go slice expression `b[lo:hi]` (within bounds). -/
def slice (b : List UInt8) (lo hi : Nat) : List UInt8 := (b.drop lo).take (hi - lo)

/-- `os.Stdout` as an `io.Writer`: `out` is every byte accepted so far, and
`faults` scripts the coming `Write` calls, one entry per call: `none` accepts
the whole slice, `some (k, e)` accepts the first `k` bytes and returns `e`.
Once the script is used up every `Write` succeeds. -/
structure Writer where
  out : List UInt8
  faults : List (Option (Nat × GoError))
  deriving DecidableEq, Repr

/-- `w.Write(p)`: the writer afterwards, the number of bytes written, the error. -/
def Write (w : Writer) (p : List UInt8) : Writer × Nat × Option GoError :=
  match w.faults with
  | [] => ({ w with out := w.out ++ p }, p.length, none)
  | none :: rest => ({ out := w.out ++ p, faults := rest }, p.length, none)
  | some (k, e) :: rest => ({ out := w.out ++ p.take k, faults := rest }, (p.take k).length, some e)

/-- `log.Printf`: one more line on the log. -/
def logPrintf (log : List String) (line : String) : List String := log ++ [line]

/-! ## wrapStream -/

/-- `cap(packetBuf)`, from `make([]byte, 65536)`. -/
def packetBufSize : Nat := 65536

/-- The local variables of `wrapStream`: the source stream and the two buffers
that are allocated once and reused by every iteration. -/
structure Locals where
  stream : Reader
  header : List UInt8
  packetBuf : List UInt8
  deriving DecidableEq, Repr

/-- The locals at entry of `wrapStream`. -/
def Locals.init (stream : Reader) : Locals :=
  { stream := stream, header := List.replicate 16 0, packetBuf := List.replicate packetBufSize 0 }

/-- What the reading half of one loop iteration ends with. -/
inductive Fetched where
  /-- `header` and `packet = packetBuf[:inclLen]` are filled -/
  | record (inclLen : Nat)
  /-- a `break` -/
  | stop
  /-- `packetBuf[:inclLen]` with `inclLen > cap(packetBuf)`: the runtime panics -/
  | fault
  deriving DecidableEq, Repr

/-- Lines 115-129 of `wrapStream`: read the 16-byte record header, decode
`inclLen`, take `packet := packetBuf[:inclLen]` and fill it. -/
def readRecord (desc : String) (l : Locals) (log : List String) :
    Locals × List String × Fetched :=
  match ReadFull l.stream l.header with
  | (stream, header, some err) =>
    ({ l with stream := stream, header := header },
     if err ≠ .EOF then
       logPrintf log ("[" ++ desc ++ "] Error reading packet header: " ++ err.Error)
     else log,
     .stop)
  | (stream, header, none) =>
    let inclLen := LittleEndian.Uint32 (slice header 8 12)
    if inclLen > packetBufSize then
      ({ l with stream := stream, header := header }, log, .fault)
    else
      match ReadFull stream (l.packetBuf.take inclLen) with
      | (stream, packet, some err) =>
        ({ stream := stream, header := header, packetBuf := packet ++ l.packetBuf.drop inclLen },
         if err ≠ .EOF then
           logPrintf log ("[" ++ desc ++ "] Error reading packet data: " ++ err.Error)
         else log,
         .stop)
      | (stream, packet, none) =>
        ({ stream := stream, header := header, packetBuf := packet ++ l.packetBuf.drop inclLen },
         log, .record inclLen)

/-- Lines 136-147 of `wrapStream`: the checks on `err1` and `err2` after the
lock is released.  The result is the log and whether the loop goes on. -/
def checkWrites (desc : String) (err1 err2 : Option GoError) (log : List String) :
    List String × Bool :=
  match err1 with
  | some e1 =>
    (if e1 ≠ .EOF then
       logPrintf log ("[" ++ desc ++ "] Error writing packet header: " ++ e1.Error)
     else log, false)
  | none =>
    match err2 with
    | some e2 =>
      (if e2 ≠ .EOF then
         logPrintf log ("[" ++ desc ++ "] Error writing packet body: " ++ e2.Error)
       else log, false)
    | none => (log, true)

/-- The part of the process a single `wrapStream` call acts on. -/
structure World where
  stdout : Writer
  log : List String
  deriving DecidableEq, Repr

/-- How one iteration of the `for` loop of `wrapStream` ends. -/
inductive Flow where
  | again
  | done
  | panicked
  deriving DecidableEq, Repr

/-- One iteration of the `for` loop of `wrapStream` (lines 115-147), run with
no other goroutine in between: read a record, then under `outLock` write the
header and the packet, then look at the two write errors. -/
def wrapStreamIter (desc : String) (l : Locals) (w : World) : Locals × World × Flow :=
  match readRecord desc l w.log with
  | (l1, log, .stop) => (l1, { w with log := log }, .done)
  | (l1, log, .fault) => (l1, { w with log := log }, .panicked)
  | (l1, log, .record inclLen) =>
    let packet := l1.packetBuf.take inclLen
    match Write w.stdout l1.header with
    | (out1, _, err1) =>
      match Write out1 packet with
      | (out2, _, err2) =>
        match checkWrites desc err1 err2 log with
        | (log2, true) => (l1, { stdout := out2, log := log2 }, .again)
        | (log2, false) => (l1, { stdout := out2, log := log2 }, .done)

/-- What a finished `wrapStream` call leaves: the world, whether it returned or
panicked, and how many times the loop body ran. -/
structure Finished where
  world : World
  panicked : Bool
  iterations : Nat
  deriving DecidableEq, Repr

/-- The `for` loop of `wrapStream`, with a bound on the number of iterations
(`none` when the bound is reached before the loop stops). -/
def wrapStreamLoop (desc : String) : Nat → Locals → World → Option Finished
  | 0, _, _ => none
  | fuel + 1, l, w =>
    match wrapStreamIter desc l w with
    | (_, w1, .done) => some { world := w1, panicked := false, iterations := 1 }
    | (_, w1, .panicked) => some { world := w1, panicked := true, iterations := 1 }
    | (l1, w1, .again) =>
      (wrapStreamLoop desc fuel l1 w1).map fun f => { f with iterations := f.iterations + 1 }

/-- `wrapStream(desc, stream)`.  The loop is given one iteration per byte of
the stream and one more. -/
def wrapStream (desc : String) (stream : Reader) (w : World) : Option Finished :=
  wrapStreamLoop desc (stream.data.length + 1) (Locals.init stream) w

/-! ## Packet records -/

/-- The `captured_length` field of a 16-byte record header: `header[8:12]`
read as a little-endian 32-bit number. -/
def capLen (header : List UInt8) : Nat := LittleEndian.Uint32 (slice header 8 12)

/-- A packet record as the source emits it. -/
structure Record where
  header : List UInt8
  payload : List UInt8
  deriving DecidableEq, Repr

/-- The bytes of a record on the wire. -/
def Record.bytes (r : Record) : List UInt8 := r.header ++ r.payload

/-- A well-formed record that fits the packet buffer: a 16-byte header, then
exactly `captured_length` bytes, with `captured_length ≤ 65536`. -/
def Record.wf (r : Record) : Prop :=
  r.header.length = 16 ∧ r.payload.length = capLen r.header ∧ capLen r.header ≤ packetBufSize

instance (r : Record) : Decidable r.wf := by
  unfold Record.wf; infer_instance

/-- The concatenation of the records of a stream. -/
def encode : List Record → List UInt8
  | [] => []
  | r :: rs => r.bytes ++ encode rs

/-- Every coming `Write` succeeds. -/
def Writer.reliable (w : Writer) : Prop := ∀ x ∈ w.faults, x = none

instance (w : Writer) : Decidable w.reliable := by
  unfold Writer.reliable; infer_instance

/-- The two buffers of `wrapStream` have the sizes they were made with. -/
def Locals.sized (l : Locals) : Prop :=
  l.header.length = 16 ∧ l.packetBuf.length = packetBufSize

/-! ## main: the command line -/

/-- One call `wrapCommand(&wg, desc, command, args...)`. -/
structure Job where
  desc : String
  command : String
  args : List String
  deriving DecidableEq, Repr

/-- The two lines `usageExit` logs before `os.Exit(1)`; `os.Args[0]` is the
name of the program (`os.Args` is not empty). -/
def usageLines (osArgs : List String) : List String :=
  ["Usage: " ++ osArgs.headD "" ++ " ssh host [host..] -- <tcpdump command>",
   "Usage: " ++ osArgs.headD "" ++ " run 'tcpdump -i en0 -U -w -' 'tcpdump -i en1 -U -w -'"]

/-- Lines 34-40 of `main`: `sep` is the index of the first `"--"` among `args`
(counted from `i`), or `-1`. -/
def findSep : List String → Nat → Int
  | [], _ => -1
  | a :: rest, i => if a = "--" then (i : Int) else findSep rest (i + 1)

/-- Lines 26-61 of `main` up to the calls of `wrapCommand`: from `os.Args`,
either the lines logged before `os.Exit(1)`, or the `wrapCommand` calls that the
two `for` loops make, in order. -/
def mainJobs (osArgs : List String) : Except (List String) (List Job) :=
  if osArgs.length < 3 then .error (usageLines osArgs)
  else
    let cmd := osArgs.getD 1 ""
    if cmd = "ssh" then
      let args := osArgs.drop 2
      let sep := findSep args 0
      if sep = -1 ∨ sep = (args.length : Int) - 1 then
        .error ["Missing '--' or tcpdump command"]
      else
        let hosts := args.take sep.toNat
        let command := " ".intercalate (args.drop (sep.toNat + 1))
        .ok (hosts.map fun host => { desc := host, command := "ssh", args := [host, command] })
    else if cmd = "run" then
      .ok ((osArgs.drop 2).map fun subcmd =>
        { desc := subcmd, command := "sh", args := ["-c", subcmd] })
    else .error (usageLines osArgs)

/-! ## wrapCommand -/

/-- What `exec.Command(command, args...)` gives when it is run: the error of
`cmd.StdoutPipe()`, the error of `cmd.Start()`, and the standard output of the
child process. -/
structure Child where
  pipeErr : Option GoError
  startErr : Option GoError
  stdout : Reader
  deriving DecidableEq, Repr

/-- The world outside the program: the child of the `n`-th `exec.Command` call
of the process, given the command and its arguments. -/
abbrev Spawner := Nat → String → List String → Child

/-- Lines 67-90 of `wrapCommand`: log the start, make the pipe, start the
command and read the 24-byte global header into `localHeader`.  The result is
the log and either the error that `wrapCommand` returns or the pipe and
`localHeader`. -/
def wrapCommandOpen (child : Child) (j : Job) (log : List String) :
    List String × Except GoError (Reader × List UInt8) :=
  let log := logPrintf log ("[" ++ j.desc ++ "] start")
  match child.pipeErr with
  | some err =>
    (logPrintf log ("[" ++ j.desc ++ "] Failed to get stdout: " ++ err.Error), .error err)
  | none =>
    match child.startErr with
    | some err =>
      (logPrintf log ("[" ++ j.desc ++ "] [" ++ " ".intercalate j.args ++ "] failed: "
        ++ err.Error), .error err)
    | none =>
      match ReadFull child.stdout (List.replicate 24 0) with
      | (_, _, some err) =>
        (if err ≠ .EOF then
           logPrintf log ("[" ++ j.desc ++ "] Failed to read global header: " ++ err.Error)
         else log, .error err)
      | (stdout, localHeader, none) => (log, .ok (stdout, localHeader))

/-! ## The process: the main goroutine and one goroutine per source -/

/-- Thread ids: the main goroutine and the goroutines `go func() { wrapStream ... }`,
numbered in the order in which they are started. -/
inductive Tid where
  | main
  | worker (i : Nat)
  deriving DecidableEq, Repr

/-- Where the main goroutine stands. -/
inductive MainPc where
  /-- at the entry of `main` (line 26) -/
  | start
  /-- at the top of the `for` loop (line 48 or 54), with the calls of
  `wrapCommand` still to make; with none left, at `wg.Wait()` (line 62) -/
  | loop (todo : List Job)
  /-- in `wrapCommand`, at `once.Do` (line 93), with the pipe `stdout` and the
  `localHeader` just read -/
  | once (j : Job) (stdout : Reader) (localHeader : List UInt8) (todo : List Job)
  /-- in the function given to `once.Do`, holding `outLock`, at
  `os.Stdout.Write(localHeader)` (line 96) -/
  | onceWrite (j : Job) (stdout : Reader) (localHeader : List UInt8) (todo : List Job)
  /-- in the function given to `once.Do`, at the deferred `outLock.Unlock()`
  (line 95) -/
  | onceUnlock (j : Job) (stdout : Reader) (todo : List Job)
  /-- in `wrapCommand`, at `wg.Add(1)` and the `go` statement (lines 102-106) -/
  | spawn (j : Job) (stdout : Reader) (todo : List Job)
  /-- `main` has returned (line 64) -/
  | returned
  deriving DecidableEq, Repr

/-- Where a `wrapStream` goroutine stands. -/
inductive WorkerPc where
  /-- at the top of the `for` loop (line 114) -/
  | top
  /-- at `outLock.Lock()` (line 132), with `packet = packetBuf[:inclLen]` -/
  | lock (inclLen : Nat)
  /-- holding `outLock`, at `os.Stdout.Write(header)` (line 133) -/
  | writeHeader (inclLen : Nat)
  /-- holding `outLock`, at `os.Stdout.Write(packet)` (line 134) -/
  | writePacket (inclLen : Nat) (err1 : Option GoError)
  /-- holding `outLock`, at `outLock.Unlock()` (line 135) -/
  | unlock (err1 err2 : Option GoError)
  /-- at the checks of `err1` and `err2` (lines 136-147) -/
  | check (err1 err2 : Option GoError)
  /-- out of the loop, `wrapStream` returns, at `wg.Done()` (line 105) -/
  | finish
  /-- the goroutine has ended -/
  | closed
  deriving DecidableEq, Repr

/-- A `wrapStream(desc, stdout)` goroutine. -/
structure Worker where
  desc : String
  l : Locals
  pc : WorkerPc
  deriving DecidableEq, Repr

/-- How the process ended: `os.Exit(code)` or the return of `main` (code 0), or
a runtime panic in some goroutine. -/
inductive Halt where
  | exit (code : Nat)
  | crashed
  deriving DecidableEq, Repr

/-- The state of the process.  `trace` is a record of the `Write` calls on
`os.Stdout`: who called, and the bytes that were accepted. -/
structure Sys where
  osArgs : List String
  stdout : Writer
  log : List String
  once : Bool
  outLock : Option Tid
  wg : Nat
  started : Nat
  main : MainPc
  workers : List Worker
  halted : Option Halt
  trace : List (Tid × List UInt8)
  deriving DecidableEq, Repr

/-- The process at its start, with `os.Args` and the standard output given. -/
def Sys.init (osArgs : List String) (stdout : Writer) : Sys :=
  { osArgs := osArgs, stdout := stdout, log := [], once := false, outLock := none, wg := 0,
    started := 0, main := .start, workers := [], halted := none, trace := [] }

/-- One step of the main goroutine: `main` and, inlined in its loops, the calls
of `wrapCommand`.  A call of `wrapCommand` that returns an error is followed by
`os.Exit(1)` (lines 49-51, 55-57).  A step that has to wait (`outLock.Lock()`
while the lock is held, `wg.Wait()` while the counter is not zero) leaves the
state as it is. -/
def stepMain (env : Spawner) (s : Sys) : Sys :=
  match s.main with
  | .start =>
    match mainJobs s.osArgs with
    | .error lines => { s with log := s.log ++ lines, halted := some (.exit 1) }
    | .ok jobs => { s with main := .loop jobs }
  | .loop [] =>
    if s.wg = 0 then
      { s with log := logPrintf s.log "[pcapmux exiting]", main := .returned,
               halted := some (.exit 0) }
    else s
  | .loop (j :: todo) =>
    match wrapCommandOpen (env s.started j.command j.args) j s.log with
    | (log, .error _) =>
      { s with log := log, started := s.started + 1, halted := some (.exit 1) }
    | (log, .ok (stdout, localHeader)) =>
      { s with log := log, started := s.started + 1, main := .once j stdout localHeader todo }
  | .once j stdout localHeader todo =>
    if s.once then { s with main := .spawn j stdout todo }
    else if s.outLock = none then
      { s with outLock := some .main, main := .onceWrite j stdout localHeader todo }
    else s
  | .onceWrite j stdout localHeader todo =>
    match Write s.stdout localHeader with
    | (out, n, err) =>
      { s with
        stdout := out
        trace := s.trace ++ [(.main, localHeader.take n)]
        log :=
          match err with
          | some e =>
            if e ≠ .EOF then
              logPrintf s.log ("[" ++ j.desc ++ "] Error writing global header: " ++ e.Error)
            else s.log
          | none => s.log
        main := .onceUnlock j stdout todo }
  | .onceUnlock j stdout todo =>
    { s with outLock := none, once := true, main := .spawn j stdout todo }
  | .spawn j stdout todo =>
    { s with
      wg := s.wg + 1
      workers := s.workers ++ [{ desc := j.desc, l := Locals.init stdout, pc := .top }]
      main := .loop todo }
  | .returned => s

/-- One step of the goroutine `i`, which is `wk`: `wrapStream` cut at the
operations on what the goroutines share (the lock, the output, the log, the
wait group).  The pieces are those of `wrapStreamIter`. -/
def stepWorker (s : Sys) (i : Nat) (wk : Worker) : Sys :=
  match wk.pc with
  | .top =>
    match readRecord wk.desc wk.l s.log with
    | (l1, log, .stop) =>
      { s with log := log, workers := s.workers.set i { wk with l := l1, pc := .finish } }
    | (l1, log, .fault) =>
      { s with log := log, workers := s.workers.set i { wk with l := l1 },
               halted := some .crashed }
    | (l1, log, .record inclLen) =>
      { s with log := log, workers := s.workers.set i { wk with l := l1, pc := .lock inclLen } }
  | .lock inclLen =>
    if s.outLock = none then
      { s with outLock := some (.worker i),
               workers := s.workers.set i { wk with pc := .writeHeader inclLen } }
    else s
  | .writeHeader inclLen =>
    match Write s.stdout wk.l.header with
    | (out, n, err1) =>
      { s with stdout := out, trace := s.trace ++ [(.worker i, wk.l.header.take n)],
               workers := s.workers.set i { wk with pc := .writePacket inclLen err1 } }
  | .writePacket inclLen err1 =>
    match Write s.stdout (wk.l.packetBuf.take inclLen) with
    | (out, n, err2) =>
      { s with stdout := out,
               trace := s.trace ++ [(.worker i, (wk.l.packetBuf.take inclLen).take n)],
               workers := s.workers.set i { wk with pc := .unlock err1 err2 } }
  | .unlock err1 err2 =>
    { s with outLock := none, workers := s.workers.set i { wk with pc := .check err1 err2 } }
  | .check err1 err2 =>
    match checkWrites wk.desc err1 err2 s.log with
    | (log, true) => { s with log := log, workers := s.workers.set i { wk with pc := .top } }
    | (log, false) => { s with log := log, workers := s.workers.set i { wk with pc := .finish } }
  | .finish =>
    { s with wg := s.wg - 1, workers := s.workers.set i { wk with pc := .closed } }
  | .closed => s

/-- One step of the process, taken by the thread `t`.  Nothing moves once the
process has ended, and a thread that does not exist does nothing. -/
def step (env : Spawner) (s : Sys) (t : Tid) : Sys :=
  match s.halted with
  | some _ => s
  | none =>
    match t with
    | .main => stepMain env s
    | .worker i =>
      match s.workers[i]? with
      | some wk => stepWorker s i wk
      | none => s

/-- The process run under a schedule: the list of the threads that take the
successive steps. -/
def run (env : Spawner) (s : Sys) (sched : List Tid) : Sys := sched.foldl (step env) s

/-- The bytes of a trace, in order. -/
def traceBytes : List (Tid × List UInt8) → List UInt8
  | [] => []
  | (_, b) :: rest => b ++ traceBytes rest

/-- The two writes of one record by the goroutine `i`. -/
def unitWrites (u : Nat × Record) : List (Tid × List UInt8) :=
  [(.worker u.1, u.2.header), (.worker u.1, u.2.payload)]

/-- The writes of a sequence of whole records, each tagged with its goroutine. -/
def unitsWrites : List (Nat × Record) → List (Tid × List UInt8)
  | [] => []
  | u :: us => unitWrites u ++ unitsWrites us

/-- The record header that the holder of `outLock` has written and not yet
followed by its payload, if there is one. -/
def pendingWrites (s : Sys) : List (Tid × List UInt8) :=
  match s.outLock with
  | some (.worker i) =>
    match s.workers[i]? with
    | some wk =>
      match wk.pc with
      | .writePacket _ _ => [(.worker i, wk.l.header)]
      | _ => []
    | none => []
  | _ => []

/-! ## Invariants of the process -/

/-- The goroutine is in the section of `wrapStream` that holds `outLock`. -/
def WorkerPc.holds : WorkerPc → Bool
  | .writeHeader _ => true
  | .writePacket _ _ => true
  | .unlock _ _ => true
  | _ => false

/-- The main goroutine is in the section of `once.Do` that holds `outLock`. -/
def MainPc.holds : MainPc → Bool
  | .onceWrite _ _ _ _ => true
  | .onceUnlock _ _ _ => true
  | _ => false

/-- The goroutine has not ended. -/
def Worker.live (wk : Worker) : Bool := decide (wk.pc ≠ .closed)

/-- The locals of a goroutine fit where it stands: the buffers have their
sizes, and between the reads and the second write `inclLen` is the length
declared by `header`. -/
def Worker.ok (wk : Worker) : Prop :=
  wk.l.sized ∧
  match wk.pc with
  | .lock n => n = capLen wk.l.header ∧ n ≤ packetBufSize
  | .writeHeader n => n = capLen wk.l.header ∧ n ≤ packetBufSize
  | .writePacket n _ => n = capLen wk.l.header ∧ n ≤ packetBufSize
  | _ => True

/-- Every unit is a whole record: a 16-byte header and the payload it declares. -/
def unitsOK (us : List (Nat × Record)) : Prop :=
  ∀ u ∈ us, u.2.header.length = 16 ∧ u.2.payload.length = capLen u.2.header

/-- From the global header on: the writes are the 24-byte global header by the
main goroutine, then whole records, then the open header of the lock holder. -/
def Phase2 (s : Sys) : Prop :=
  ∃ gh us, gh.length = 24 ∧ unitsOK us ∧
    s.trace = (.main, gh) :: (unitsWrites us ++ pendingWrites s)

/-- The trace before the global header is complete: nothing, or at the
deferred unlock the global header alone. -/
def P1Trace (s : Sys) : Prop :=
  match s.main with
  | .onceUnlock _ _ _ => ∃ gh, gh.length = 24 ∧ s.trace = [(.main, gh)]
  | _ => s.trace = []

/-- What the main goroutine carries fits where it stands: `localHeader` has 24
bytes, and `once.Do` has run when the goroutine is about to be started. -/
def MainPc.ok (pc : MainPc) (once : Bool) : Prop :=
  match pc with
  | .once _ _ hdr _ => hdr.length = 24
  | .onceWrite _ _ hdr _ => hdr.length = 24
  | .spawn _ _ _ => once = true
  | _ => True

/-- The invariant of the process started with `out0` already on the output. -/
structure Inv (out0 : List UInt8) (s : Sys) : Prop where
  reliable : s.stdout.reliable
  mainLock : s.main.holds = true ↔ s.outLock = some .main
  workerLock : ∀ i, s.outLock = some (.worker i) ↔
    ∃ wk, s.workers[i]? = some wk ∧ wk.pc.holds = true
  workersOk : ∀ wk ∈ s.workers, wk.ok
  mainOk : s.main.ok s.once
  phase : if s.once = true then Phase2 s ∧ s.main.holds = false
          else s.workers = [] ∧ P1Trace s
  out : s.stdout.out = out0 ++ traceBytes s.trace
  wg : s.wg = s.workers.countP Worker.live
  returned : s.main = .returned → ∀ wk ∈ s.workers, wk.pc = .closed

/-- The trace before `once.Do` has run: nothing, or at the deferred unlock the
one write of the main goroutine. -/
def EarlyTrace (s : Sys) : Prop :=
  match s.main with
  | .onceUnlock _ _ _ => ∃ g, s.trace = [(.main, g)]
  | _ => s.trace = []

/-- The invariant of the process that holds whatever the `Write` calls return:
who holds `outLock`, the sizes of the buffers, and the order of events around
`once.Do`. -/
structure Core (s : Sys) : Prop where
  mainLock : s.main.holds = true ↔ s.outLock = some .main
  workerLock : ∀ i, s.outLock = some (.worker i) ↔
    ∃ wk, s.workers[i]? = some wk ∧ wk.pc.holds = true
  workersOk : ∀ wk ∈ s.workers, wk.ok
  mainOk : s.main.ok s.once
  early : s.once = false → s.workers = [] ∧ EarlyTrace s
  late : s.once = true → s.main.holds = false ∧ s.trace ≠ [] ∧
    (s.workers = [] → ∃ j so td, s.main = .spawn j so td)
  wg : s.wg = s.workers.countP Worker.live
  returned : s.main = .returned → ∀ wk ∈ s.workers, wk.pc = .closed

/-- The child starts and its output holds a complete 24-byte global header. -/
def Child.delivers (c : Child) : Prop :=
  c.pipeErr = none ∧ c.startErr = none ∧ 24 ≤ c.stdout.data.length

instance (c : Child) : Decidable c.delivers := by
  unfold Child.delivers; infer_instance

/-- The calls of `wrapCommand` that have not yet led to a goroutine. -/
def MainPc.todo (pc : MainPc) (jobs : List Job) : List Job :=
  match pc with
  | .start => jobs
  | .loop todo => todo
  | .once j _ _ todo => j :: todo
  | .onceWrite j _ _ todo => j :: todo
  | .onceUnlock j _ todo => j :: todo
  | .spawn j _ todo => j :: todo
  | .returned => []

/-- The main goroutine is inside `wrapCommand`, past the reading of the global
header. -/
def MainPc.opened : MainPc → Bool
  | .once _ _ _ _ => true
  | .onceWrite _ _ _ _ => true
  | .onceUnlock _ _ _ => true
  | .spawn _ _ _ => true
  | _ => false

/-- The global header of the first source: the first 24 bytes that the child
of the first `wrapCommand` call puts out. -/
def firstHeader (env : Spawner) (jobs : List Job) : List UInt8 :=
  match jobs with
  | [] => []
  | j :: _ => (env 0 j.command j.args).stdout.data.take 24

/-- The progress of the main goroutine through the calls `jobs` that the
command line asks for. -/
structure MainInv (env : Spawner) (jobs : List Job) (s : Sys) : Prop where
  args : mainJobs s.osArgs = .ok jobs
  prog : ∃ done, jobs = done ++ s.main.todo jobs ∧
    done.map Job.desc = s.workers.map Worker.desc
  cnt : s.halted = none →
    s.started = s.workers.length + (if s.main.opened = true then 1 else 0)
  all : ∀ k jk, k < s.workers.length + (if s.main.opened = true then 1 else 0) →
    jobs[k]? = some jk → (env k jk.command jk.args).delivers
  hdr : match s.main with
    | .once j _ lh _ => lh = (env s.workers.length j.command j.args).stdout.data.take 24
    | .onceWrite j _ lh _ => lh = (env s.workers.length j.command j.args).stdout.data.take 24
    | _ => True
  head : s.trace = [] ∨ ∃ n, s.trace.head? = some (.main, (firstHeader env jobs).take n)
  fin : s.halted = some (.exit 0) ↔ s.main = .returned
  began : s.once = true → s.main.opened = true ∨ s.workers ≠ []

/-- The write is by the main goroutine or by one of the first `n` goroutines. -/
def Tagged (n : Nat) (x : Tid × List UInt8) : Prop :=
  x.1 = .main ∨ ∃ i, x.1 = .worker i ∧ i < n

/-- How far the main goroutine is on its way to the first `once.Do`: the
number of its steps so far, up to five. -/
def stage (s : Sys) : Nat :=
  if s.once = true then 5
  else
    match s.main with
    | .loop _ => 1
    | .once _ _ _ _ => 2
    | .onceWrite _ _ _ _ => 3
    | .onceUnlock _ _ _ => 4
    | _ => 0

/-- The bytes that the goroutine `k` has written, in order. -/
def written (k : Nat) (tr : List (Tid × List UInt8)) : List UInt8 :=
  traceBytes (tr.filter fun x => decide (x.1 = .worker k))

/-- The bytes that a goroutine has read off its stream and not yet written. -/
def inflight (wk : Worker) : List UInt8 :=
  match wk.pc with
  | .lock n => wk.l.header ++ wk.l.packetBuf.take n
  | .writeHeader n => wk.l.header ++ wk.l.packetBuf.take n
  | .writePacket n _ => wk.l.packetBuf.take n
  | _ => []

/-- The goroutine is still in the loop of `wrapStream`. -/
def WorkerPc.active : WorkerPc → Bool
  | .finish => false
  | .closed => false
  | _ => true

/-- The stream of the source `k` after its global header: what the child of
the `k`-th `wrapCommand` call, `j`, puts out after the first 24 bytes. -/
def sourceRecords (env : Spawner) (k : Nat) (j : Job) : List UInt8 :=
  (env k j.command j.args).stdout.data.drop 24

/-- Where the bytes on the output come from: each goroutine has written a
prefix of the stream of its source after the global header, and while it is in
its loop and the process runs, what it has written, what it holds and what is
left of its stream make up that stream. -/
structure Prov (env : Spawner) (jobs : List Job) (s : Sys) : Prop where
  src : match s.main with
    | .once j so _ _ => so.data = sourceRecords env s.workers.length j
    | .onceWrite j so _ _ => so.data = sourceRecords env s.workers.length j
    | .onceUnlock j so _ => so.data = sourceRecords env s.workers.length j
    | .spawn j so _ => so.data = sourceRecords env s.workers.length j
    | _ => True
  pre : ∀ k wk j, s.workers[k]? = some wk → jobs[k]? = some j →
    written k s.trace <+: sourceRecords env k j
  eq : s.halted = none → ∀ k wk j, s.workers[k]? = some wk → jobs[k]? = some j →
    wk.pc.active = true →
    written k s.trace ++ inflight wk ++ wk.l.stream.data = sourceRecords env k j
  tags : ∀ x ∈ s.trace, Tagged s.workers.length x

/-- After its first 24 bytes the stream of the source is a concatenation of
well-formed records. -/
def Child.recordsOK (c : Child) : Prop :=
  ∃ rs : List Record, (∀ r ∈ rs, r.wf) ∧ c.stdout.data.drop 24 = encode rs

/-- The source delivers its global header and then well-formed records. -/
def Child.wellFormed (c : Child) : Prop := c.delivers ∧ c.recordsOK

/-- No goroutine has panicked, and what is left of the stream of every goroutine
still in its loop is a concatenation of well-formed records. -/
structure WellFed (s : Sys) : Prop where
  alive : s.halted ≠ some .crashed
  fed : ∀ (k : Nat) (wk : Worker), s.workers[k]? = some wk → wk.pc.active = true →
    ∃ rs : List Record, (∀ r ∈ rs, r.wf) ∧ wk.l.stream.data = encode rs

/-- The pipe that the main goroutine carries from the reading of the global
header to the `go` statement holds the stream of the source after its first 24
bytes. -/
def MainSrc (env : Spawner) (s : Sys) : Prop :=
  match s.main with
  | .once j so _ _ => so.data = sourceRecords env s.workers.length j
  | .onceWrite j so _ _ => so.data = sourceRecords env s.workers.length j
  | .onceUnlock j so _ => so.data = sourceRecords env s.workers.length j
  | .spawn j so _ => so.data = sourceRecords env s.workers.length j
  | _ => True

/-- How the process can have ended by `os.Exit`: with status 0 or 1, and with
status 1 only at a call of `wrapCommand` whose source does not deliver its
global header; that call is the last `exec.Command` of the process. -/
structure ExitInv (env : Spawner) (jobs : List Job) (s : Sys) : Prop where
  calls : s.started ≤ s.workers.length + 1
  code : ∀ c, s.halted = some (.exit c) → c = 0 ∨ c = 1
  failed : s.halted = some (.exit 1) →
    ∃ jk, jobs[s.workers.length]? = some jk ∧
      ¬ (env s.workers.length jk.command jk.args).delivers ∧
      s.started = s.workers.length + 1

/-- The number of steps that the main goroutine has taken when it stands where
it stands: one step to the loop, five steps for the first call of `wrapCommand`
(which runs `once.Do`), three for every later one. -/
def ticks (s : Sys) : Nat :=
  match s.main with
  | .start => 0
  | .loop _ => if s.workers.length = 0 then 1 else 3 * s.workers.length + 3
  | .once _ _ _ _ => if s.workers.length = 0 then 2 else 3 * s.workers.length + 4
  | .onceWrite _ _ _ _ => 3
  | .onceUnlock _ _ _ => 4
  | .spawn _ _ _ => 3 * s.workers.length + 5
  | .returned => 0

/-- The main goroutine has taken `n` steps, unless the process has ended or the
main goroutine waits in `wg.Wait()`. -/
def Moving (n : Nat) (s : Sys) : Prop :=
  s.halted ≠ none ∨ s.main = .loop [] ∨
    (ticks s = n ∧ (s.main = .start → s.workers = []) ∧ s.main ≠ .returned)

/-- Every unit is what `Write` accepted of the two chunks of one whole record:
a part of its 16-byte header, then a part of the payload that the header
declares. -/
def unitsPart (us : List (Nat × Record)) : Prop :=
  ∀ u ∈ us, ∃ r : Record, r.header.length = 16 ∧ r.payload.length = capLen r.header ∧
    u.2.header <+: r.header ∧ u.2.payload <+: r.payload

/-- The write `pend` is what the holder of `outLock` has got onto the output of
the header of the record it is writing, while the `Write` of the payload is
still to come; there is no such write otherwise. -/
def OpenHeader (s : Sys) (pend : List (Tid × List UInt8)) : Prop :=
  match s.outLock with
  | some (.worker i) =>
    match s.workers[i]? with
    | some wk =>
      match wk.pc with
      | .writePacket _ _ => ∃ hd, hd <+: wk.l.header ∧ pend = [(.worker i, hd)]
      | _ => pend = []
    | none => pend = []
  | _ => pend = []

/-- The writes on the output, whatever the `Write` calls return: before
`once.Do` has run, at most the one write of the main goroutine; from then on
that write, then for each record the two writes of its goroutine next to each
other, then the open header of the lock holder. -/
structure Shape (out0 : List UInt8) (s : Sys) : Prop where
  out : s.stdout.out = out0 ++ traceBytes s.trace
  first : s.once = false → ∀ x ∈ s.trace, x.2.length ≤ 24
  units : s.once = true → ∃ g us pend, g.length ≤ 24 ∧ unitsPart us ∧ OpenHeader s pend ∧
    s.trace = (.main, g) :: (unitsWrites us ++ pend)

/-! ## Sample worlds -/

/-- Two sources: the first puts out a global header of 24 bytes `aa` and one
record of four payload bytes, every other one a global header of 24 bytes `bb`
and one record of two payload bytes. -/
def twoSources : Spawner := fun n _ _ =>
  match n with
  | 0 => ⟨none, none,
      ⟨List.replicate 24 0xaa ++
        [1, 2, 3, 4, 5, 6, 7, 8, 4, 0, 0, 0, 4, 0, 0, 0, 0xde, 0xad, 0xbe, 0xef], .EOF⟩⟩
  | _ => ⟨none, none,
      ⟨List.replicate 24 0xbb ++ [1, 2, 3, 4, 5, 6, 7, 8, 2, 0, 0, 0, 2, 0, 0, 0, 0xca, 0xfe],
       .EOF⟩⟩

/-- The first source ends before it has put out a byte; every other source
puts out a global header and one record. -/
def deadFirstSource : Spawner := fun n _ _ =>
  match n with
  | 0 => ⟨none, none, ⟨[], .EOF⟩⟩
  | _ => ⟨none, none,
      ⟨List.replicate 24 0xbb ++ [1, 2, 3, 4, 5, 6, 7, 8, 2, 0, 0, 0, 2, 0, 0, 0, 0xca, 0xfe],
       .EOF⟩⟩

/-- The first source puts out a global header and a record header that
declares 65537 payload bytes; every other source puts out a global header and
one record of two payload bytes. -/
def oversizeFirstSource : Spawner := fun n _ _ =>
  match n with
  | 0 => ⟨none, none,
      ⟨List.replicate 24 0xaa ++ [1, 2, 3, 4, 5, 6, 7, 8, 1, 0, 1, 0, 1, 0, 1, 0, 0xde, 0xad],
       .EOF⟩⟩
  | _ => ⟨none, none,
      ⟨List.replicate 24 0xbb ++ [1, 2, 3, 4, 5, 6, 7, 8, 2, 0, 0, 0, 2, 0, 0, 0, 0xca, 0xfe],
       .EOF⟩⟩

/-- A run of `pcapmux run a b` on `twoSources`: the main goroutine starts both
sources, then the two goroutines take turns. -/
def twoSourcesRun : Sys :=
  run twoSources (Sys.init ["pcapmux", "run", "a", "b"] ⟨[], []⟩)
    (List.replicate 9 .main ++ [.worker 0, .worker 1, .worker 1, .worker 0, .worker 1])

/-- A run of `pcapmux run a b` on `twoSources` to its end: both goroutines write
their record, the second one first, and `main` returns. -/
def twoSourcesDone : Sys :=
  run twoSources (Sys.init ["pcapmux", "run", "a", "b"] ⟨[], []⟩)
    (List.replicate 9 .main ++
      [.worker 0, .worker 1, .worker 1, .worker 0, .worker 1, .worker 1, .worker 1] ++
      List.replicate 8 (.worker 0) ++ List.replicate 4 (.worker 1) ++ [.main])

/-- A run of `pcapmux run a b` on `deadFirstSource`. -/
def deadFirstRun : Sys :=
  run deadFirstSource (Sys.init ["pcapmux", "run", "a", "b"] ⟨[], []⟩)
    [.main, .main, .worker 0, .worker 1, .main, .main, .worker 1, .main]

/-- A run of `pcapmux run a b` on `oversizeFirstSource`: the main goroutine
starts both sources, the first goroutine takes a step, then the second one and
the main goroutine are given their turns. -/
def oversizeFirstRun : Sys :=
  run oversizeFirstSource (Sys.init ["pcapmux", "run", "a", "b"] ⟨[], []⟩)
    (List.replicate 9 .main ++
      [.worker 0, .worker 1, .worker 1, .worker 1, .worker 1, .worker 1, .worker 1, .main])

/-- The first source puts out a global header and one record of four payload
bytes; every other source ends before it has put out a byte. -/
def deadSecondSource : Spawner := fun n _ _ =>
  match n with
  | 0 => ⟨none, none,
      ⟨List.replicate 24 0xaa ++
        [1, 2, 3, 4, 5, 6, 7, 8, 4, 0, 0, 0, 4, 0, 0, 0, 0xde, 0xad, 0xbe, 0xef], .EOF⟩⟩
  | _ => ⟨none, none, ⟨[], .EOF⟩⟩

/-- A run of `pcapmux run a b c` on `deadSecondSource`, with a standard output
that takes three bytes of the global header and fails: the main goroutine
starts `a`, the goroutine of `a` reads its record, takes the lock and writes the
record header, then the main goroutine comes to `b`. -/
def deadSecondRun : Sys :=
  run deadSecondSource
    (Sys.init ["pcapmux", "run", "a", "b", "c"]
      ⟨[], [some (3, .other "resource temporarily unavailable")]⟩)
    (List.replicate 6 .main ++ [.worker 0, .worker 0, .worker 0, .main])

/-- The run `deadSecondRun` before the last step of the main goroutine. -/
def deadSecondBefore : Sys :=
  run deadSecondSource
    (Sys.init ["pcapmux", "run", "a", "b", "c"]
      ⟨[], [some (3, .other "resource temporarily unavailable")]⟩)
    (List.replicate 6 .main ++ [.worker 0, .worker 0, .worker 0])

/-- A run of `pcapmux run a b` on `twoSources` with a standard output that
takes one byte of the payload of the first record and fails: the main goroutine
starts both sources, then the first goroutine goes once through its loop, then
the second one. -/
def partialPayloadRun : Sys :=
  run twoSources
    (Sys.init ["pcapmux", "run", "a", "b"]
      ⟨[], [none, none, some (1, .other "resource temporarily unavailable")]⟩)
    (List.replicate 9 .main ++ List.replicate 6 (.worker 0) ++ List.replicate 6 (.worker 1))

/-- The same run with a standard output that fails the `Write` of the first
record header with no byte taken, and takes every later `Write`. -/
def failedHeaderRun : Sys :=
  run twoSources
    (Sys.init ["pcapmux", "run", "a", "b"]
      ⟨[], [none, some (0, .other "resource temporarily unavailable")]⟩)
    (List.replicate 9 .main ++ List.replicate 6 (.worker 0) ++ List.replicate 6 (.worker 1))

/-- A run of `pcapmux ssh h1 h2 -- tcpdump -w -` on `deadFirstSource`. -/
def sshDeadRun : Sys :=
  run deadFirstSource
    (Sys.init ["pcapmux", "ssh", "h1", "h2", "--", "tcpdump", "-w", "-"] ⟨[], []⟩)
    (List.replicate 9 .main ++ [.worker 0, .worker 1])

/-- A run of `pcapmux ssh h1 h2 -- tcpdump -w -` on `twoSources`: nine steps of
the main goroutine, then one of each goroutine. -/
def sshTwoRun : Sys :=
  run twoSources
    (Sys.init ["pcapmux", "ssh", "h1", "h2", "--", "tcpdump", "-w", "-"] ⟨[], []⟩)
    (List.replicate 9 .main ++ [.worker 0, .worker 1])

/-! # Theorems -/

/-! ## Lemmas on the runtime pieces -/

theorem ReadFull_enough (r : Reader) (buf : List UInt8) (h : buf.length ≤ r.data.length) :
    ReadFull r buf = ({ r with data := r.data.drop buf.length }, r.data.take buf.length, none) := by
  unfold ReadFull
  by_cases h0 : buf.length = 0
  · have : buf = [] := List.length_eq_zero.mp h0
    subst this
    simp
  · simp [h0, h]

theorem ReadFull_short (r : Reader) (buf : List UInt8) (h : r.data.length < buf.length) :
    ReadFull r buf =
      (if r.data.length = 0 then (r, buf, some r.err)
       else ({ r with data := [] }, r.data ++ buf.drop r.data.length,
             some (if r.err = .EOF then .ErrUnexpectedEOF else r.err))) := by
  unfold ReadFull
  have h0 : buf.length ≠ 0 := by omega
  have h1 : ¬ buf.length ≤ r.data.length := by omega
  simp [h0, h1]

theorem Write_reliable (w : Writer) (p : List UInt8) (h : w.reliable) :
    Write w p = ({ out := w.out ++ p, faults := w.faults.tail }, p.length, none) := by
  unfold Write
  cases hf : w.faults with
  | nil => cases w; simp_all
  | cons x rest =>
    have : x = none := h x (by simp [hf])
    subst this
    simp

theorem reliable_tail (w : Writer) (out : List UInt8) (h : w.reliable) :
    Writer.reliable { out := out, faults := w.faults.tail } := by
  intro x hx
  exact h x (List.mem_of_mem_tail hx)

/-! ## Lemmas on one loop iteration -/

theorem readRecord_short_header (desc : String) (l : Locals) (log : List String)
    (hl : l.header.length = 16) (h : l.stream.data.length < 16) :
    (readRecord desc l log).2.2 = .stop ∧
    (readRecord desc l log).2.1 =
      (if l.stream.data = [] ∧ l.stream.err = .EOF then log
       else logPrintf log ("[" ++ desc ++ "] Error reading packet header: " ++
         (if l.stream.data = [] then l.stream.err
          else if l.stream.err = .EOF then .ErrUnexpectedEOF else l.stream.err).Error)) := by
  unfold readRecord
  rw [ReadFull_short _ _ (by omega)]
  by_cases h0 : l.stream.data = []
  · by_cases he : l.stream.err = .EOF <;> simp [h0, he]
  · have : l.stream.data.length ≠ 0 := fun hh => h0 (List.length_eq_zero.mp hh)
    by_cases he : l.stream.err = .EOF <;> simp [h0, he, this]

theorem readRecord_oversize (desc : String) (l : Locals) (log : List String)
    (hdr rest : List UInt8) (e : GoError)
    (hl : l.header.length = 16) (hs : l.stream = ⟨hdr ++ rest, e⟩)
    (hh : hdr.length = 16) (hc : packetBufSize < capLen hdr) :
    readRecord desc l log = ({ l with stream := ⟨rest, e⟩, header := hdr }, log, .fault) := by
  unfold readRecord
  rw [ReadFull_enough _ _ (by simp [hs, hl, hh])]
  simp only [hs, hl, ← hh, List.drop_left, List.take_left]
  have : packetBufSize < LittleEndian.Uint32 (slice hdr 8 12) := hc
  simp [this]

theorem readRecord_record (desc : String) (l : Locals) (log : List String)
    (r : Record) (rest : List UInt8) (e : GoError)
    (hl : l.sized) (hs : l.stream = ⟨r.bytes ++ rest, e⟩) (hr : r.wf) :
    readRecord desc l log =
      ({ stream := ⟨rest, e⟩, header := r.header,
         packetBuf := r.payload ++ l.packetBuf.drop (capLen r.header) }, log,
       .record (capLen r.header)) := by
  obtain ⟨hh, hp, hc⟩ := hr
  obtain ⟨hl1, hl2⟩ := hl
  unfold readRecord
  rw [ReadFull_enough _ _ (by simp [hs, hl1, hh, Record.bytes])]
  simp only [hs, hl1, Record.bytes, List.append_assoc, ← hh, List.drop_left, List.take_left]
  have hc2 : ¬ packetBufSize < capLen r.header := by omega
  have hlen : (List.take (capLen r.header) l.packetBuf).length = r.payload.length := by
    rw [List.length_take, hl2, hp]; omega
  have hcap : LittleEndian.Uint32 (slice r.header 8 12) = capLen r.header := rfl
  simp only [gt_iff_lt, hcap, hc2, if_false]
  rw [ReadFull_enough _ _ (by rw [hlen]; simp)]
  simp only [hlen, List.drop_left, List.take_left]

theorem readRecord_truncated (desc : String) (l : Locals) (log : List String)
    (hdr rest : List UInt8) (e : GoError)
    (hl : l.sized) (hs : l.stream = ⟨hdr ++ rest, e⟩)
    (hh : hdr.length = 16) (hc : capLen hdr ≤ packetBufSize) (ht : rest.length < capLen hdr) :
    (readRecord desc l log).2.2 = .stop ∧
    (readRecord desc l log).2.1 =
      (if rest = [] ∧ e = .EOF then log
       else logPrintf log ("[" ++ desc ++ "] Error reading packet data: " ++
         (if rest = [] then e else if e = .EOF then .ErrUnexpectedEOF else e).Error)) := by
  obtain ⟨hl1, hl2⟩ := hl
  unfold readRecord
  rw [ReadFull_enough _ _ (by simp [hs, hl1, hh])]
  simp only [hs, hl1, ← hh, List.drop_left, List.take_left]
  have hc2 : ¬ packetBufSize < capLen hdr := by omega
  have hcap : LittleEndian.Uint32 (slice hdr 8 12) = capLen hdr := rfl
  have hlen : (List.take (capLen hdr) l.packetBuf).length = capLen hdr := by
    rw [List.length_take, hl2]; omega
  simp only [gt_iff_lt, hcap, hc2, if_false]
  rw [ReadFull_short _ _ (by rw [hlen]; exact ht)]
  by_cases h0 : rest = []
  · by_cases he : e = .EOF <;> simp [h0, he]
  · have : rest.length ≠ 0 := fun hx => h0 (List.length_eq_zero.mp hx)
    by_cases he : e = .EOF <;> simp [h0, he, this]

theorem ReadFull_short_some (r : Reader) (buf : List UInt8) (h : r.data.length < buf.length) :
    ∃ r1 b1 e1, ReadFull r buf = (r1, b1, some e1) := by
  rw [ReadFull_short r buf h]
  split <;> exact ⟨_, _, _, rfl⟩

/-- What a successful `readRecord` has done: it took one whole record off the
stream into the two buffers. -/
theorem readRecord_spec (desc : String) (l l1 : Locals) (log log1 : List String) (n : Nat)
    (hl : l.sized) (h : readRecord desc l log = (l1, log1, .record n)) :
    l1.sized ∧ log1 = log ∧ n = capLen l1.header ∧ n ≤ packetBufSize ∧
    l.stream.data = l1.header ++ l1.packetBuf.take n ++ l1.stream.data ∧
    l1.stream.err = l.stream.err := by
  obtain ⟨hl1, hl2⟩ := hl
  unfold readRecord at h
  by_cases h16 : l.header.length ≤ l.stream.data.length
  · rw [ReadFull_enough _ _ h16] at h
    simp only [gt_iff_lt] at h
    split at h
    · simp at h
    · rename_i hle
      have hcap : LittleEndian.Uint32 (slice (List.take l.header.length l.stream.data) 8 12)
          = capLen (List.take l.header.length l.stream.data) := rfl
      rw [hcap] at h hle
      generalize hn : capLen (List.take l.header.length l.stream.data) = m at h hle
      have hlen : (List.take m l.packetBuf).length = m := by
        rw [List.length_take, hl2]; omega
      by_cases hm : m ≤ (List.drop l.header.length l.stream.data).length
      · rw [ReadFull_enough _ _ (by rw [hlen]; exact hm)] at h
        simp only [hlen, Prod.mk.injEq, Fetched.record.injEq] at h
        obtain ⟨h1, h2, h3⟩ := h
        subst h1 h2 h3
        simp only
        have htl : (List.take m (List.drop l.header.length l.stream.data)).length = m := by
          rw [List.length_take]; omega
        refine ⟨⟨?_, ?_⟩, trivial, hn.symm, by omega, ?_, trivial⟩
        · rw [List.length_take]; omega
        · rw [List.length_append, htl, List.length_drop, hl2]; omega
        · rw [List.take_left' htl, List.append_assoc, List.take_append_drop, List.take_append_drop]
      · obtain ⟨r1, b1, e1, hrf⟩ := ReadFull_short_some
          ⟨List.drop l.header.length l.stream.data, l.stream.err⟩ (List.take m l.packetBuf)
          (by rw [hlen]; simpa using hm)
        rw [hrf] at h
        simp at h
  · obtain ⟨r1, b1, e1, hrf⟩ := ReadFull_short_some l.stream l.header (by omega)
    rw [hrf] at h
    simp at h

theorem wrapStreamIter_record (desc : String) (l : Locals) (w : World)
    (r : Record) (rest : List UInt8) (e : GoError)
    (hl : l.sized) (hs : l.stream = ⟨r.bytes ++ rest, e⟩) (hr : r.wf) (hw : w.stdout.reliable) :
    wrapStreamIter desc l w =
      ({ stream := ⟨rest, e⟩, header := r.header,
         packetBuf := r.payload ++ l.packetBuf.drop (capLen r.header) },
       { stdout := { out := w.stdout.out ++ r.bytes, faults := w.stdout.faults.tail.tail },
         log := w.log }, .again) := by
  unfold wrapStreamIter
  rw [readRecord_record desc l w.log r rest e hl hs hr]
  simp only
  rw [Write_reliable _ _ hw]
  simp only
  rw [Write_reliable _ _ (reliable_tail _ _ hw)]
  simp only [checkWrites, List.take_left' hr.2.1, Record.bytes, List.append_assoc]

theorem sized_after_record (l : Locals) (r : Record) (s : Reader) (hl : l.sized) (hr : r.wf) :
    Locals.sized { stream := s, header := r.header,
                   packetBuf := r.payload ++ l.packetBuf.drop (capLen r.header) } := by
  obtain ⟨hh, hp, hc⟩ := hr
  refine ⟨hh, ?_⟩
  simp only [List.length_append, List.length_drop, hl.2, hp]
  omega

theorem sized_init (stream : Reader) : (Locals.init stream).sized := by
  simp [Locals.sized, Locals.init]

/-- An iteration that goes on has taken at least the 16 header bytes off the
stream, and leaves the buffers with their sizes. -/
theorem wrapStreamIter_again (desc : String) (l l1 : Locals) (w w1 : World)
    (hl : l.sized) (h : wrapStreamIter desc l w = (l1, w1, .again)) :
    l1.sized ∧ l1.stream.data.length + 16 ≤ l.stream.data.length := by
  unfold wrapStreamIter at h
  split at h
  · simp at h
  · simp at h
  · rename_i l2 log2 n hrd
    have hspec := readRecord_spec desc l l2 w.log log2 n hl hrd
    have hl2 : l2 = l1 := by
      simp only at h
      split at h <;> simp at h
      exact h.1
    subst hl2
    refine ⟨hspec.1, ?_⟩
    have := congrArg List.length hspec.2.2.2.2.1
    simp only [List.length_append, hspec.1.1] at this
    omega

/-! ## Lemmas on the loop -/

theorem wrapStreamIter_stop (desc : String) (l : Locals) (w : World)
    (h : (readRecord desc l w.log).2.2 = .stop) :
    wrapStreamIter desc l w =
      ((readRecord desc l w.log).1, { w with log := (readRecord desc l w.log).2.1 }, .done) := by
  unfold wrapStreamIter
  rcases hrd : readRecord desc l w.log with ⟨l1, log1, fl⟩
  rw [hrd] at h
  simp only at h
  subst h
  rfl

theorem wrapStreamLoop_mono (desc : String) (k : Nat) :
    ∀ (fuel : Nat) (l : Locals) (w : World) (f : Finished),
      wrapStreamLoop desc fuel l w = some f → wrapStreamLoop desc (fuel + k) l w = some f := by
  intro fuel
  induction fuel with
  | zero => intro l w f h; simp [wrapStreamLoop] at h
  | succ n ih =>
    intro l w f h
    rw [Nat.add_right_comm]
    unfold wrapStreamLoop at h ⊢
    rcases hit : wrapStreamIter desc l w with ⟨l1, w1, fl⟩
    rw [hit] at h
    cases fl with
    | done => simpa using h
    | panicked => simpa using h
    | again =>
      simp only [Option.map_eq_some'] at h ⊢
      obtain ⟨g, hg, hgf⟩ := h
      exact ⟨g, ih l1 w1 g hg, hgf⟩

theorem wrapStreamLoop_terminates (desc : String) :
    ∀ (fuel : Nat) (l : Locals) (w : World), l.sized → l.stream.data.length / 16 + 1 ≤ fuel →
      ∃ f, wrapStreamLoop desc fuel l w = some f ∧ f.iterations ≤ l.stream.data.length / 16 + 1 := by
  intro fuel
  induction fuel with
  | zero => intro l w _ h; omega
  | succ n ih =>
    intro l w hl hf
    unfold wrapStreamLoop
    rcases hit : wrapStreamIter desc l w with ⟨l1, w1, fl⟩
    cases fl with
    | done => exact ⟨_, rfl, by simp⟩
    | panicked => exact ⟨_, rfl, by simp⟩
    | again =>
      obtain ⟨hl1, hlen⟩ := wrapStreamIter_again desc l l1 w w1 hl hit
      obtain ⟨g, hg, hgi⟩ := ih l1 w1 hl1 (by omega)
      refine ⟨{ g with iterations := g.iterations + 1 }, by simp [hg], ?_⟩
      simp only
      omega

theorem encode_length (rs : List Record) (h : ∀ r ∈ rs, r.wf) :
    rs.length ≤ (encode rs).length := by
  induction rs with
  | nil => simp
  | cons r rs ih =>
    have hr := (h r (by simp)).1
    have := ih (fun x hx => h x (by simp [hx]))
    simp only [encode, Record.bytes, List.length_append, List.length_cons, hr]
    omega

/-- Running the loop over a stream that starts with the well-formed records
`rs`: after `rs.length` iterations the output has grown by exactly the bytes of
`rs`, the log is unchanged and the loop stands before the rest of the stream. -/
theorem wrapStreamLoop_records (desc : String) (rest : List UInt8) (e : GoError) (fuel : Nat) :
    ∀ (rs : List Record) (l : Locals) (w : World), l.sized →
      l.stream = ⟨encode rs ++ rest, e⟩ → (∀ r ∈ rs, r.wf) → w.stdout.reliable →
      ∃ l1 fs, l1.sized ∧ l1.stream = ⟨rest, e⟩ ∧
        Writer.reliable { out := w.stdout.out ++ encode rs, faults := fs } ∧
        wrapStreamLoop desc (fuel + rs.length) l w =
          (wrapStreamLoop desc fuel l1
            { stdout := { out := w.stdout.out ++ encode rs, faults := fs }, log := w.log }).map
            fun f => { f with iterations := f.iterations + rs.length } := by
  intro rs
  induction rs with
  | nil =>
    intro l w hl hs _ hw
    refine ⟨l, w.stdout.faults, hl, by simpa [encode] using hs, ?_, ?_⟩
    · simpa [encode, Writer.reliable] using hw
    · cases w with
      | mk so lg =>
        cases so
        simp [encode]
  | cons r rs ih =>
    intro l w hl hs hrs hw
    have hr : r.wf := hrs r (by simp)
    have hit := wrapStreamIter_record desc l w r (encode rs ++ rest) e hl
      (by simpa [encode, List.append_assoc] using hs) hr hw
    obtain ⟨l1, fs, hl1, hs1, hrel, hloop⟩ := ih
      { stream := ⟨encode rs ++ rest, e⟩, header := r.header,
        packetBuf := r.payload ++ l.packetBuf.drop (capLen r.header) }
      { stdout := { out := w.stdout.out ++ r.bytes, faults := w.stdout.faults.tail.tail },
        log := w.log }
      (sized_after_record l r _ hl hr) rfl (fun x hx => hrs x (by simp [hx]))
      (reliable_tail _ _ (reliable_tail _ w.stdout.out hw))
    refine ⟨l1, fs, hl1, hs1, ?_, ?_⟩
    · simpa [encode, List.append_assoc] using hrel
    · rw [List.length_cons, ← Nat.add_assoc]
      conv_lhs => unfold wrapStreamLoop
      rw [hit]
      simp only [hloop, Option.map_map, encode, List.append_assoc]
      congr 1

/-! ## The claims on `wrapStream` -/

theorem wrapStream_records_then (desc : String) (rs : List Record) (rest : List UInt8)
    (e : GoError) (w : World) (hrs : ∀ r ∈ rs, r.wf) (hw : w.stdout.reliable) :
    ∃ l1 fs, l1.sized ∧ l1.stream = ⟨rest, e⟩ ∧
      Writer.reliable { out := w.stdout.out ++ encode rs, faults := fs } ∧
      wrapStream desc ⟨encode rs ++ rest, e⟩ w =
        (wrapStreamLoop desc (rest.length + 1 + ((encode rs).length - rs.length)) l1
          { stdout := { out := w.stdout.out ++ encode rs, faults := fs }, log := w.log }).map
          fun f => { f with iterations := f.iterations + rs.length } := by
  have hlen := encode_length rs hrs
  obtain ⟨l1, fs, h1, h2, h3, h4⟩ := wrapStreamLoop_records desc rest e
    (rest.length + 1 + ((encode rs).length - rs.length)) rs
    (Locals.init ⟨encode rs ++ rest, e⟩) w (sized_init _) rfl hrs hw
  refine ⟨l1, fs, h1, h2, h3, ?_⟩
  rw [← h4]
  unfold wrapStream
  congr 1
  simp only [List.length_append]
  omega

theorem wrapStreamLoop_stop (desc : String) (k : Nat) (l : Locals) (w : World)
    (h : (readRecord desc l w.log).2.2 = .stop) :
    wrapStreamLoop desc (k + 1) l w =
      some { world := { w with log := (readRecord desc l w.log).2.1 },
             panicked := false, iterations := 1 } := by
  unfold wrapStreamLoop
  rw [wrapStreamIter_stop desc l w h]

theorem wrapStreamLoop_fault (desc : String) (k : Nat) (l l1 : Locals) (w : World)
    (h : readRecord desc l w.log = (l1, w.log, .fault)) :
    wrapStreamLoop desc (k + 1) l w = some { world := w, panicked := true, iterations := 1 } := by
  unfold wrapStreamLoop wrapStreamIter
  rw [h]

/-- C1: a stream that is a concatenation of well-formed records (16-byte header,
`captured_length ≤ 65536` payload bytes) is forwarded verbatim when every write
succeeds: `wrapStream` returns, and the output has grown by exactly the bytes of
the stream, in order, one loop iteration per record and one for the end. -/
theorem wrapStream_forwards_records (desc : String) (rs : List Record) (e : GoError) (w : World)
    (hrs : ∀ r ∈ rs, r.wf) (hw : w.stdout.reliable) :
    ∃ f, wrapStream desc ⟨encode rs, e⟩ w = some f ∧
      f.world.stdout.out = w.stdout.out ++ encode rs ∧
      f.panicked = false ∧ f.iterations = rs.length + 1 := by
  obtain ⟨l1, fs, h1, h2, _, h4⟩ := wrapStream_records_then desc rs [] e w hrs hw
  rw [List.append_nil] at h4
  rw [h4]
  have hstop := readRecord_short_header desc l1 w.log h1.1 (by simp [h2])
  rw [List.length_nil, Nat.zero_add, Nat.add_comm 1,
    wrapStreamLoop_stop desc _ l1 ⟨⟨w.stdout.out ++ encode rs, fs⟩, w.log⟩ hstop.1]
  refine ⟨_, rfl, rfl, rfl, ?_⟩
  simp only
  omega

theorem wrapStream_forwards_records_witness :
    ∃ f, wrapStream "en0"
        ⟨encode [⟨[1, 2, 3, 4, 5, 6, 7, 8, 3, 0, 0, 0, 3, 0, 0, 0], [0xde, 0xad, 0xbe]⟩,
                 ⟨[1, 2, 3, 4, 5, 6, 7, 9, 0, 0, 0, 0, 0, 0, 0, 0], []⟩,
                 ⟨[1, 2, 3, 4, 5, 6, 7, 9, 1, 0, 0, 0, 1, 0, 0, 0], [0xef]⟩], .EOF⟩
        ⟨⟨[0xaa], []⟩, []⟩ = some f ∧
      f.world.stdout.out = [0xaa] ++
        encode [⟨[1, 2, 3, 4, 5, 6, 7, 8, 3, 0, 0, 0, 3, 0, 0, 0], [0xde, 0xad, 0xbe]⟩,
                ⟨[1, 2, 3, 4, 5, 6, 7, 9, 0, 0, 0, 0, 0, 0, 0, 0], []⟩,
                ⟨[1, 2, 3, 4, 5, 6, 7, 9, 1, 0, 0, 0, 1, 0, 0, 0], [0xef]⟩] ∧
      f.panicked = false ∧ f.iterations = 3 + 1 :=
  wrapStream_forwards_records "en0" _ .EOF ⟨⟨[0xaa], []⟩, []⟩ (by decide) (by decide)

/-- C3: a stream that ends after a complete 16-byte record header but before
the `captured_length` payload bytes of that header are all there gives no
further output: with the writes succeeding, the output is exactly the bytes of
the complete records before the truncated one. -/
theorem wrapStream_truncated_payload (desc : String) (rs : List Record)
    (hdr rest : List UInt8) (e : GoError) (w : World)
    (hrs : ∀ r ∈ rs, r.wf) (hw : w.stdout.reliable)
    (hh : hdr.length = 16) (ht : rest.length < capLen hdr) :
    ∃ f, wrapStream desc ⟨encode rs ++ (hdr ++ rest), e⟩ w = some f ∧
      f.world.stdout.out = w.stdout.out ++ encode rs ∧ f.iterations = rs.length + 1 := by
  obtain ⟨l1, fs, h1, h2, _, h4⟩ := wrapStream_records_then desc rs (hdr ++ rest) e w hrs hw
  rw [h4, Nat.add_assoc, Nat.add_comm 1, ← Nat.add_assoc]
  by_cases hc : capLen hdr ≤ packetBufSize
  · have hstop := readRecord_truncated desc l1 w.log hdr rest e h1 h2 hh hc ht
    rw [wrapStreamLoop_stop desc _ l1 ⟨⟨w.stdout.out ++ encode rs, fs⟩, w.log⟩ hstop.1]
    refine ⟨_, rfl, rfl, ?_⟩
    simp only
    omega
  · have hfault := readRecord_oversize desc l1 w.log hdr rest e h1.1 h2 hh (by omega)
    rw [wrapStreamLoop_fault desc _ l1 _ ⟨⟨w.stdout.out ++ encode rs, fs⟩, w.log⟩ hfault]
    refine ⟨_, rfl, rfl, ?_⟩
    simp only
    omega

theorem wrapStream_truncated_payload_witness :
    ∃ f, wrapStream "en0"
        ⟨encode [⟨[1, 2, 3, 4, 5, 6, 7, 8, 2, 0, 0, 0, 2, 0, 0, 0], [0xde, 0xad]⟩] ++
          ([1, 2, 3, 4, 5, 6, 7, 9, 4, 0, 0, 0, 4, 0, 0, 0] ++ [0xbe, 0xef]), .EOF⟩
        ⟨⟨[], []⟩, []⟩ = some f ∧
      f.world.stdout.out = [] ++
        encode [⟨[1, 2, 3, 4, 5, 6, 7, 8, 2, 0, 0, 0, 2, 0, 0, 0], [0xde, 0xad]⟩] ∧
      f.iterations = 1 + 1 :=
  wrapStream_truncated_payload "en0" _ _ _ .EOF ⟨⟨[], []⟩, []⟩ (by decide) (by decide)
    (by decide) (by decide)

/-- C6 (evaluation at the failing input): the `Write` of the record header
fails, and the payload is handed to `Write` all the same before `err1` is looked
at: the payload bytes `de ad` reach the output after the failed header.  Only
then does the worker log the error and leave the loop; the record that follows
in the stream is not written. -/
theorem wrapStream_writes_payload_after_failed_header :
    wrapStream "en0"
        ⟨[1, 2, 3, 4, 5, 6, 7, 8, 2, 0, 0, 0, 2, 0, 0, 0] ++ [0xde, 0xad] ++
          ([1, 2, 3, 4, 5, 6, 7, 9, 1, 0, 0, 0, 1, 0, 0, 0] ++ [0xef]), .EOF⟩
        ⟨⟨[], [some (0, .other "resource temporarily unavailable")]⟩, []⟩ =
      some { world := ⟨⟨[0xde, 0xad], []⟩,
                       ["[en0] Error writing packet header: resource temporarily unavailable"]⟩,
             panicked := false, iterations := 1 } := by
  decide

/-- C7 (counterexample): the stream ends right after a complete record header
that declares four payload bytes, none of which is delivered; `io.ReadFull`
returns `io.EOF`, and nothing is reported. -/
theorem wrapStream_silent_when_payload_missing :
    ([1, 2, 3, 4, 5, 6, 7, 8, 4, 0, 0, 0, 4, 0, 0, 0] : List UInt8).length = 16 ∧
    capLen [1, 2, 3, 4, 5, 6, 7, 8, 4, 0, 0, 0, 4, 0, 0, 0] = 4 ∧
    wrapStream "en0" ⟨[1, 2, 3, 4, 5, 6, 7, 8, 4, 0, 0, 0, 4, 0, 0, 0], .EOF⟩ ⟨⟨[], []⟩, []⟩ =
      some { world := ⟨⟨[], []⟩, []⟩, panicked := false, iterations := 1 } := by
  decide

/-- C7 (amended): after well-formed records whose writes succeed, (1) a stream
that ends at a record-header boundary reports nothing; (2) a stream that ends
after a complete header with `captured_length ≤ 65536` and at least one but not
all of the payload bytes reports `Error reading packet data: unexpected EOF`,
and the worker returns; (3) a stream that ends right after a complete header
with `0 < captured_length ≤ 65536`, with no payload byte at all, reports
nothing, and the worker returns; (4) after a complete header with
`captured_length > 65536`, whatever follows, `wrapStream` reports nothing and
panics. -/
theorem wrapStream_reports_truncation (desc : String) (rs : List Record) (w : World)
    (hrs : ∀ r ∈ rs, r.wf) (hw : w.stdout.reliable) :
    (∃ f, wrapStream desc ⟨encode rs, .EOF⟩ w = some f ∧ f.world.log = w.log ∧
      f.panicked = false) ∧
    (∀ hdr rest : List UInt8, hdr.length = 16 → capLen hdr ≤ packetBufSize → rest ≠ [] →
      rest.length < capLen hdr →
      ∃ f, wrapStream desc ⟨encode rs ++ (hdr ++ rest), .EOF⟩ w = some f ∧
        f.world.log =
          w.log ++ ["[" ++ desc ++ "] Error reading packet data: " ++ "unexpected EOF"] ∧
        f.panicked = false) ∧
    (∀ hdr : List UInt8, hdr.length = 16 → 0 < capLen hdr → capLen hdr ≤ packetBufSize →
      ∃ f, wrapStream desc ⟨encode rs ++ hdr, .EOF⟩ w = some f ∧ f.world.log = w.log ∧
        f.panicked = false) ∧
    (∀ hdr rest : List UInt8, hdr.length = 16 → packetBufSize < capLen hdr →
      ∃ f, wrapStream desc ⟨encode rs ++ (hdr ++ rest), .EOF⟩ w = some f ∧
        f.world.log = w.log ∧ f.panicked = true) := by
  refine ⟨?_, ?_, ?_, ?_⟩
  · obtain ⟨l1, fs, h1, h2, _, h4⟩ := wrapStream_records_then desc rs [] .EOF w hrs hw
    rw [List.append_nil] at h4
    have hstop := readRecord_short_header desc l1 w.log h1.1 (by simp [h2])
    rw [h4, List.length_nil, Nat.zero_add, Nat.add_comm 1,
      wrapStreamLoop_stop desc _ l1 ⟨⟨w.stdout.out ++ encode rs, fs⟩, w.log⟩ hstop.1]
    refine ⟨_, rfl, ?_, rfl⟩
    simp only [Option.map_some']
    rw [hstop.2]
    simp [h2]
  · intro hdr rest hh hc hp ht
    obtain ⟨l1, fs, h1, h2, _, h4⟩ := wrapStream_records_then desc rs (hdr ++ rest) .EOF w hrs hw
    have hstop := readRecord_truncated desc l1 w.log hdr rest .EOF h1 h2 hh hc ht
    rw [h4, Nat.add_assoc, Nat.add_comm 1, ← Nat.add_assoc,
      wrapStreamLoop_stop desc _ l1 ⟨⟨w.stdout.out ++ encode rs, fs⟩, w.log⟩ hstop.1]
    refine ⟨_, rfl, ?_, rfl⟩
    simp only [Option.map_some']
    rw [hstop.2]
    simp [hp, logPrintf, GoError.Error]
  · intro hdr hh h0 hc
    obtain ⟨l1, fs, h1, h2, _, h4⟩ := wrapStream_records_then desc rs hdr .EOF w hrs hw
    have hstop := readRecord_truncated desc l1 w.log hdr [] .EOF h1
      (by rw [List.append_nil]; exact h2) hh hc (by simpa using h0)
    rw [h4, Nat.add_assoc, Nat.add_comm 1, ← Nat.add_assoc,
      wrapStreamLoop_stop desc _ l1 ⟨⟨w.stdout.out ++ encode rs, fs⟩, w.log⟩ hstop.1]
    refine ⟨_, rfl, ?_, rfl⟩
    simp only [Option.map_some']
    rw [hstop.2]
    simp
  · intro hdr rest hh hc
    obtain ⟨l1, fs, h1, h2, _, h4⟩ := wrapStream_records_then desc rs (hdr ++ rest) .EOF w hrs hw
    have hfault := readRecord_oversize desc l1 w.log hdr rest .EOF h1.1 h2 hh hc
    rw [h4, Nat.add_assoc, Nat.add_comm 1, ← Nat.add_assoc,
      wrapStreamLoop_fault desc _ l1 _ ⟨⟨w.stdout.out ++ encode rs, fs⟩, w.log⟩ hfault]
    exact ⟨_, rfl, rfl, rfl⟩

theorem wrapStream_reports_truncation_witness :
    (∃ f, wrapStream "en0"
        ⟨encode [⟨[1, 2, 3, 4, 5, 6, 7, 8, 2, 0, 0, 0, 2, 0, 0, 0], [0xde, 0xad]⟩], .EOF⟩
        ⟨⟨[], []⟩, []⟩ = some f ∧ f.world.log = [] ∧ f.panicked = false) ∧
    (∃ f, wrapStream "en0"
        ⟨encode [⟨[1, 2, 3, 4, 5, 6, 7, 8, 2, 0, 0, 0, 2, 0, 0, 0], [0xde, 0xad]⟩] ++
          ([1, 2, 3, 4, 5, 6, 7, 9, 4, 0, 0, 0, 4, 0, 0, 0] ++ [0xbe]), .EOF⟩
        ⟨⟨[], []⟩, []⟩ = some f ∧
      f.world.log = [] ++ ["[" ++ "en0" ++ "] Error reading packet data: " ++ "unexpected EOF"] ∧
      f.panicked = false) ∧
    (∃ f, wrapStream "en0"
        ⟨encode [⟨[1, 2, 3, 4, 5, 6, 7, 8, 2, 0, 0, 0, 2, 0, 0, 0], [0xde, 0xad]⟩] ++
          [1, 2, 3, 4, 5, 6, 7, 9, 1, 0, 0, 0, 1, 0, 0, 0], .EOF⟩
        ⟨⟨[], []⟩, []⟩ = some f ∧ f.world.log = [] ∧ f.panicked = false) ∧
    (∃ f, wrapStream "en0"
        ⟨encode [⟨[1, 2, 3, 4, 5, 6, 7, 8, 2, 0, 0, 0, 2, 0, 0, 0], [0xde, 0xad]⟩] ++
          ([1, 2, 3, 4, 5, 6, 7, 9, 1, 0, 1, 0, 1, 0, 1, 0] ++ [0xbe, 0xef]), .EOF⟩
        ⟨⟨[], []⟩, []⟩ = some f ∧ f.world.log = [] ∧ f.panicked = true) :=
  have h := wrapStream_reports_truncation "en0"
    [⟨[1, 2, 3, 4, 5, 6, 7, 8, 2, 0, 0, 0, 2, 0, 0, 0], [0xde, 0xad]⟩] ⟨⟨[], []⟩, []⟩
    (by decide) (by decide)
  ⟨h.1,
   h.2.1 [1, 2, 3, 4, 5, 6, 7, 9, 4, 0, 0, 0, 4, 0, 0, 0] [0xbe] (by decide) (by decide)
     (by decide) (by decide),
   h.2.2.1 [1, 2, 3, 4, 5, 6, 7, 9, 1, 0, 0, 0, 1, 0, 0, 0] (by decide) (by decide) (by decide),
   h.2.2.2 [1, 2, 3, 4, 5, 6, 7, 9, 1, 0, 1, 0, 1, 0, 1, 0] [0xbe, 0xef] (by decide)
     (by decide)⟩

/-- C9: the loop of `wrapStream` terminates on every finite stream, whatever
its bytes: `wrapStream` yields a result, the loop body has run at most
`len / 16 + 1` times, any iteration bound of at least `len / 16 + 1` gives the
same result, and an iteration that does not stop the loop has taken at least 16
bytes off the stream. -/
theorem wrapStream_terminates (desc : String) (stream : Reader) (w : World) :
    ∃ f, wrapStream desc stream w = some f ∧
      f.iterations ≤ stream.data.length / 16 + 1 ∧
      (∀ fuel, stream.data.length / 16 + 1 ≤ fuel →
        wrapStreamLoop desc fuel (Locals.init stream) w = some f) ∧
      (∀ (l l1 : Locals) (w0 w1 : World), l.sized →
        wrapStreamIter desc l w0 = (l1, w1, .again) →
        l1.stream.data.length + 16 ≤ l.stream.data.length) := by
  obtain ⟨f, hf, hi⟩ := wrapStreamLoop_terminates desc (stream.data.length / 16 + 1)
    (Locals.init stream) w (sized_init _) (Nat.le_refl _)
  have hmono : ∀ fuel, stream.data.length / 16 + 1 ≤ fuel →
      wrapStreamLoop desc fuel (Locals.init stream) w = some f := by
    intro fuel hfuel
    have := wrapStreamLoop_mono desc (fuel - (stream.data.length / 16 + 1)) _ _ _ _ hf
    rwa [Nat.add_sub_cancel' hfuel] at this
  refine ⟨f, hmono _ ?_, hi, hmono, ?_⟩
  · have := Nat.div_le_self stream.data.length 16
    omega
  · intro l l1 w0 w1 hl h
    exact (wrapStreamIter_again desc l l1 w0 w1 hl h).2

theorem wrapStream_terminates_witness :
    ∃ f, wrapStream "en0"
        ⟨[1, 2, 3, 4, 5, 6, 7, 8, 0, 0, 0, 0, 0, 0, 0, 0,
          1, 2, 3, 4, 5, 6, 7, 8, 0, 0, 0, 0, 0, 0, 0, 0], .EOF⟩ ⟨⟨[], []⟩, []⟩ = some f ∧
      f.iterations ≤ 3 := by
  obtain ⟨f, h1, h2, _⟩ := wrapStream_terminates "en0"
    ⟨[1, 2, 3, 4, 5, 6, 7, 8, 0, 0, 0, 0, 0, 0, 0, 0,
      1, 2, 3, 4, 5, 6, 7, 8, 0, 0, 0, 0, 0, 0, 0, 0], .EOF⟩ ⟨⟨[], []⟩, []⟩
  exact ⟨f, h1, h2⟩

/-! ## The invariant of the process -/

theorem inv_init (osArgs : List String) (w : Writer) (hw : w.reliable) :
    Inv w.out (Sys.init osArgs w) := by
  refine ⟨hw, ?_, ?_, ?_, ?_, ?_, ?_, ?_, ?_⟩ <;>
    simp [Sys.init, MainPc.holds, MainPc.ok, P1Trace, traceBytes]

theorem pendingWrites_congr (s t : Sys) (h1 : t.outLock = s.outLock)
    (h2 : ∀ i, s.outLock = some (.worker i) → t.workers[i]? = s.workers[i]?) :
    pendingWrites t = pendingWrites s := by
  unfold pendingWrites
  rw [h1]
  cases hl : s.outLock with
  | none => rfl
  | some t0 =>
    cases t0 with
    | main => rfl
    | worker i => simp only [h2 i hl]

theorem phase2_congr (s t : Sys) (h : Phase2 s) (h0 : t.trace = s.trace)
    (h1 : t.outLock = s.outLock)
    (h2 : ∀ i, s.outLock = some (.worker i) → t.workers[i]? = s.workers[i]?) : Phase2 t := by
  obtain ⟨gh, us, a, b, c⟩ := h
  exact ⟨gh, us, a, b, by rw [h0, pendingWrites_congr s t h1 h2]; exact c⟩

theorem traceBytes_append (a b : List (Tid × List UInt8)) :
    traceBytes (a ++ b) = traceBytes a ++ traceBytes b := by
  induction a with
  | nil => rfl
  | cons x xs ih =>
    obtain ⟨t, bs⟩ := x
    simp [traceBytes, ih]

theorem unitsWrites_append (a b : List (Nat × Record)) :
    unitsWrites (a ++ b) = unitsWrites a ++ unitsWrites b := by
  induction a with
  | nil => rfl
  | cons x xs ih => simp [unitsWrites, ih]

theorem wrapCommandOpen_ok (child : Child) (j : Job) (log log1 : List String)
    (so : Reader) (lh : List UInt8)
    (h : wrapCommandOpen child j log = (log1, .ok (so, lh))) :
    child.pipeErr = none ∧ child.startErr = none ∧ 24 ≤ child.stdout.data.length ∧
    lh = child.stdout.data.take 24 ∧ so = ⟨child.stdout.data.drop 24, child.stdout.err⟩ ∧
    log1 = logPrintf log ("[" ++ j.desc ++ "] start") := by
  unfold wrapCommandOpen at h
  cases hp : child.pipeErr with
  | some e => simp [hp] at h
  | none =>
    cases hs : child.startErr with
    | some e => simp [hp, hs] at h
    | none =>
      simp only [hp, hs] at h
      by_cases h24 : 24 ≤ child.stdout.data.length
      · rw [ReadFull_enough _ _ (by simpa using h24)] at h
        simp only [List.length_replicate, Prod.mk.injEq, Except.ok.injEq] at h
        obtain ⟨h1, h2, h3⟩ := h
        exact ⟨rfl, rfl, h24, h3.symm, h2.symm, h1.symm⟩
      · obtain ⟨r1, b1, e1, hrf⟩ := ReadFull_short_some child.stdout (List.replicate 24 0)
          (by simpa using h24)
        rw [hrf] at h
        simp at h

theorem inv_stepMain (env : Spawner) (out0 : List UInt8) (s : Sys) (h : Inv out0 s) :
    Inv out0 (stepMain env s) := by
  obtain ⟨hr, hml, hwl, hok, hmo, hph, hout, hwg, hret⟩ := h
  obtain ⟨osArgs, stdout, log, once, outLock, wg, started, main, workers, halted, trace⟩ := s
  simp only at hr hml hwl hok hmo hph hout hwg hret
  unfold stepMain
  cases main with
  | start =>
    simp only
    cases hj : mainJobs osArgs with
    | error lines =>
      exact ⟨hr, hml, hwl, hok, hmo, hph, hout, hwg, hret⟩
    | ok jobs =>
      refine ⟨hr, ?_, hwl, hok, ?_, ?_, hout, hwg, ?_⟩
      · simpa [MainPc.holds] using hml
      · simp [MainPc.ok]
      · simpa [Phase2, P1Trace, MainPc.holds, pendingWrites] using hph
      · simp
  | loop todo =>
    cases todo with
    | nil =>
      simp only
      split
      · rename_i hz
        refine ⟨hr, ?_, hwl, hok, ?_, ?_, hout, hwg, ?_⟩
        · simpa [MainPc.holds] using hml
        · simp [MainPc.ok]
        · simpa [Phase2, P1Trace, MainPc.holds, pendingWrites] using hph
        · intro _ wk hwk
          subst hz
          have := (List.countP_eq_zero.mp hwg.symm) wk hwk
          simpa [Worker.live] using this
      · exact ⟨hr, hml, hwl, hok, hmo, hph, hout, hwg, hret⟩
    | cons j todo =>
      simp only
      rcases hopen : wrapCommandOpen (env started j.command j.args) j log with ⟨log1, res⟩
      cases res with
      | error e =>
        refine ⟨hr, ?_, hwl, hok, ?_, ?_, hout, hwg, ?_⟩
        · simpa [MainPc.holds] using hml
        · simp [MainPc.ok]
        · simpa [Phase2, P1Trace, MainPc.holds, pendingWrites] using hph
        · simp
      | ok v =>
        obtain ⟨so, lh⟩ := v
        have hlen : lh.length = 24 := by
          obtain ⟨_, _, h24, hlh, _⟩ := wrapCommandOpen_ok _ _ _ _ _ _ hopen
          rw [hlh, List.length_take]
          omega
        refine ⟨hr, ?_, hwl, hok, ?_, ?_, hout, hwg, ?_⟩
        · simpa [MainPc.holds] using hml
        · simpa [MainPc.ok] using hlen
        · simpa [Phase2, P1Trace, MainPc.holds, pendingWrites] using hph
        · simp
  | once j so lh todo =>
    simp only
    cases once with
    | true =>
      refine ⟨hr, ?_, hwl, hok, ?_, ?_, hout, hwg, ?_⟩
      · simpa [MainPc.holds] using hml
      · simp [MainPc.ok]
      · simpa [Phase2, P1Trace, MainPc.holds, pendingWrites] using hph
      · simp
    | false =>
      simp only [Bool.false_eq_true, if_false]
      split
      · rename_i hfree
        subst hfree
        refine ⟨hr, ?_, ?_, hok, ?_, ?_, hout, hwg, ?_⟩
        · simp [MainPc.holds]
        · intro i
          have := hwl i
          simp only [reduceCtorEq, false_iff] at this
          simp only [Option.some.injEq, reduceCtorEq, false_iff]
          exact this
        · simpa [MainPc.ok] using hmo
        · simpa [Phase2, P1Trace, MainPc.holds, pendingWrites] using hph
        · simp
      · exact ⟨hr, hml, hwl, hok, hmo, hph, hout, hwg, hret⟩
  | onceWrite j so lh todo =>
    simp only
    rw [Write_reliable _ _ hr]
    simp only
    have hof : once = false := by
      cases once with
      | false => rfl
      | true => simp [MainPc.holds] at hph
    subst hof
    simp only [Bool.false_eq_true, if_false, P1Trace] at hph
    obtain ⟨hw0, ht0⟩ := hph
    subst hw0 ht0
    refine ⟨reliable_tail _ _ hr, ?_, hwl, hok, ?_, ?_, ?_, hwg, ?_⟩
    · simpa [MainPc.holds] using hml
    · simp [MainPc.ok]
    · simp only [Bool.false_eq_true, if_false, P1Trace, true_and]
      refine ⟨lh, by simpa [MainPc.ok] using hmo, by simp⟩
    · simp only [hout, traceBytes_append, List.take_length, traceBytes, List.append_nil]
    · simp
  | onceUnlock j so todo =>
    simp only
    have hof : once = false := by
      cases once with
      | false => rfl
      | true => simp [MainPc.holds] at hph
    subst hof
    simp only [Bool.false_eq_true, if_false, P1Trace] at hph
    obtain ⟨hw0, gh, hgh, ht0⟩ := hph
    subst hw0 ht0
    refine ⟨hr, ?_, ?_, hok, ?_, ?_, hout, hwg, ?_⟩
    · simp [MainPc.holds]
    · intro i; simp
    · simp [MainPc.ok]
    · simp only [if_true]
      exact ⟨⟨gh, [], hgh, by simp [unitsOK], by simp [unitsWrites, pendingWrites]⟩,
        by simp [MainPc.holds]⟩
    · simp
  | spawn j so todo =>
    simp only
    have hon : once = true := by simpa [MainPc.ok] using hmo
    subst hon
    simp only [if_true] at hph
    have hidx : ∀ i, outLock = some (.worker i) → i < workers.length := by
      intro i hi
      obtain ⟨wk, hwk, _⟩ := (hwl i).mp hi
      exact (List.getElem?_eq_some.mp hwk).1
    refine ⟨hr, ?_, ?_, ?_, ?_, ?_, hout, ?_, ?_⟩
    · simpa [MainPc.holds] using hml
    · intro i
      rw [hwl i]
      by_cases hi : i < workers.length
      · rw [List.getElem?_append_left hi]
      · have h1 : workers[i]? = none := List.getElem?_eq_none (by omega)
        rw [h1, List.getElem?_append_right (by omega)]
        constructor
        · rintro ⟨wk, hwk, _⟩; simp at hwk
        · rintro ⟨wk, hwk, hh⟩
          cases hk : i - workers.length with
          | zero =>
            rw [hk] at hwk
            simp only [List.getElem?_cons_zero, Option.some.injEq] at hwk
            subst hwk
            simp [WorkerPc.holds] at hh
          | succ k => rw [hk] at hwk; simp at hwk
    · intro wk hwk
      rcases List.mem_append.mp hwk with h1 | h1
      · exact hok wk h1
      · simp only [List.mem_singleton] at h1
        subst h1
        exact ⟨sized_init _, trivial⟩
    · simp [MainPc.ok]
    · simp only [if_true]
      refine ⟨phase2_congr _ _ hph.1 rfl rfl ?_, by simp [MainPc.holds]⟩
      intro i hi
      exact List.getElem?_append_left (hidx i hi)
    · simp [hwg, List.countP_append, Worker.live]
    · simp
  | returned => exact ⟨hr, hml, hwl, hok, hmo, hph, hout, hwg, hret⟩

theorem getElem?_set_worker (workers : List Worker) (i j : Nat) (wk wk1 : Worker)
    (hwk : workers[i]? = some wk) :
    (workers.set i wk1)[j]? = if i = j then some wk1 else workers[j]? := by
  have hi := (List.getElem?_eq_some.mp hwk).1
  rw [List.getElem?_set]
  simp [hi]

theorem workerLock_set (workers : List Worker) (i : Nat) (wk wk1 : Worker)
    (lockOld lockNew : Option Tid) (hwk : workers[i]? = some wk)
    (hold : ∀ j, lockOld = some (.worker j) ↔ ∃ w, workers[j]? = some w ∧ w.pc.holds = true)
    (hi : lockNew = some (.worker i) ↔ wk1.pc.holds = true)
    (hother : ∀ j, j ≠ i → (lockNew = some (.worker j) ↔ lockOld = some (.worker j))) :
    ∀ j, lockNew = some (.worker j) ↔
      ∃ w, (workers.set i wk1)[j]? = some w ∧ w.pc.holds = true := by
  intro j
  rw [getElem?_set_worker workers i j wk wk1 hwk]
  by_cases hij : i = j
  · subst hij
    simp [hi]
  · simp only [hij, if_false]
    rw [hother j (fun h => hij h.symm)]
    exact hold j

theorem workersOk_set (workers : List Worker) (i : Nat) (wk1 : Worker)
    (hok : ∀ w ∈ workers, w.ok) (h1 : wk1.ok) : ∀ w ∈ workers.set i wk1, w.ok := by
  intro w hw
  rcases List.mem_or_eq_of_mem_set hw with h | h
  · exact hok w h
  · exact h ▸ h1

theorem mem_of_getElem?_some (workers : List Worker) (i : Nat) (wk : Worker)
    (hwk : workers[i]? = some wk) : wk ∈ workers := by
  obtain ⟨hi, hget⟩ := List.getElem?_eq_some.mp hwk
  exact hget ▸ List.getElem_mem hi

theorem countP_live_pos (workers : List Worker) (i : Nat) (wk : Worker)
    (hwk : workers[i]? = some wk) (h1 : wk.live = true) :
    0 < workers.countP Worker.live :=
  List.countP_pos_iff.mpr ⟨wk, mem_of_getElem?_some workers i wk hwk, h1⟩

theorem countP_set_worker (workers : List Worker) (i : Nat) (wk wk1 : Worker)
    (hwk : workers[i]? = some wk) (h1 : wk.live = true) :
    (workers.set i wk1).countP Worker.live =
      workers.countP Worker.live - 1 + (if wk1.live = true then 1 else 0) := by
  obtain ⟨hi, hget⟩ := List.getElem?_eq_some.mp hwk
  rw [List.countP_set _ _ _ _ hi, hget]
  simp [h1]

theorem ReadFull_length (r : Reader) (buf : List UInt8) :
    (ReadFull r buf).2.1.length = buf.length := by
  by_cases h : buf.length ≤ r.data.length
  · rw [ReadFull_enough r buf h]
    simp [List.length_take, h]
  · rw [ReadFull_short r buf (by omega)]
    split
    · rfl
    · simp only [List.length_append, List.length_drop]
      omega

theorem readRecord_sized (desc : String) (l : Locals) (log : List String) (hl : l.sized) :
    (readRecord desc l log).1.sized := by
  obtain ⟨hl1, hl2⟩ := hl
  unfold readRecord
  have h1 := ReadFull_length l.stream l.header
  rcases hrf : ReadFull l.stream l.header with ⟨r1, b1, e1⟩
  rw [hrf] at h1
  simp only at h1
  cases e1 with
  | some e => exact ⟨by simp only; omega, hl2⟩
  | none =>
    simp only
    split
    · exact ⟨by simp only; omega, hl2⟩
    · rename_i hle
      generalize LittleEndian.Uint32 (slice b1 8 12) = n at hle
      have h2 := ReadFull_length r1 (List.take n l.packetBuf)
      rcases hrf2 : ReadFull r1 (List.take n l.packetBuf) with ⟨r2, b2, e2⟩
      rw [hrf2] at h2
      simp only [List.length_take] at h2
      cases e2 with
      | some e =>
        refine ⟨by simp only; omega, ?_⟩
        simp only [List.length_append, List.length_drop, h2, hl2]
        omega
      | none =>
        refine ⟨by simp only; omega, ?_⟩
        simp only [List.length_append, List.length_drop, h2, hl2]
        omega

/-- A step of the goroutine `i` outside the locked section, which touches
neither the lock nor the output, keeps the invariant. -/
theorem inv_local (out0 : List UInt8) (s t : Sys) (i : Nat) (wk wk1 : Worker)
    (h : Inv out0 s) (hwk : s.workers[i]? = some wk) (hlive : wk.live = true)
    (hh : wk.pc.holds = false) (hh1 : wk1.pc.holds = false) (hok1 : wk1.ok)
    (e1 : t.stdout = s.stdout) (e2 : t.once = s.once) (e3 : t.outLock = s.outLock)
    (e4 : t.main = s.main) (e5 : t.trace = s.trace) (e6 : t.workers = s.workers.set i wk1)
    (e7 : t.wg + 1 = s.wg + (if wk1.live = true then 1 else 0)) : Inv out0 t := by
  obtain ⟨hr, hml, hwl, hok, hmo, hph, hout, hwg, hret⟩ := h
  have hmem := mem_of_getElem?_some _ _ _ hwk
  have hni : s.outLock ≠ some (.worker i) := by
    intro hc
    obtain ⟨w, hw, hhw⟩ := (hwl i).mp hc
    rw [hwk] at hw
    cases hw
    rw [hh] at hhw
    cases hhw
  have hon : s.once = true := by
    cases ho : s.once with
    | true => rfl
    | false =>
      rw [ho] at hph
      simp only [Bool.false_eq_true, if_false] at hph
      rw [hph.1] at hwk
      simp at hwk
  rw [hon] at hph
  simp only [if_true] at hph
  refine ⟨e1 ▸ hr, by rw [e4, e3]; exact hml, ?_, ?_, by rw [e4, e2]; exact hmo, ?_,
    by rw [e1, e5]; exact hout, ?_, ?_⟩
  · rw [e6, e3]
    refine workerLock_set _ i wk wk1 _ _ hwk hwl ?_ (fun j _ => Iff.rfl)
    simp [hni, hh1]
  · rw [e6]
    exact workersOk_set _ i wk1 hok hok1
  · rw [e2, hon]
    simp only [if_true]
    refine ⟨phase2_congr s t hph.1 e5 e3 ?_, by rw [e4]; exact hph.2⟩
    intro j hj
    rw [e6, getElem?_set_worker _ i j wk wk1 hwk]
    have : i ≠ j := fun hc => hni (hc ▸ hj)
    simp [this]
  · have := countP_live_pos _ i wk hwk hlive
    rw [e6, countP_set_worker _ i wk wk1 hwk hlive]
    omega
  · intro hm
    rw [e4] at hm
    have := hret hm wk hmem
    simp [Worker.live, this] at hlive

theorem pendingWrites_holder (s : Sys) (i : Nat) (wk : Worker)
    (hl : s.outLock = some (.worker i)) (hwk : s.workers[i]? = some wk) :
    pendingWrites s =
      match wk.pc with
      | .writePacket _ _ => [(.worker i, wk.l.header)]
      | _ => [] := by
  unfold pendingWrites
  rw [hl]
  simp only [hwk]

theorem inv_stepWorker (out0 : List UInt8) (s : Sys) (i : Nat) (wk : Worker)
    (h : Inv out0 s) (hwk : s.workers[i]? = some wk) : Inv out0 (stepWorker s i wk) := by
  have hmem := mem_of_getElem?_some _ _ _ hwk
  have hokw : wk.ok := h.workersOk wk hmem
  have hlk := h.workerLock i
  rw [hwk] at hlk
  simp only [Option.some.injEq, exists_eq_left'] at hlk
  have hon : s.once = true := by
    cases ho : s.once with
    | true => rfl
    | false =>
      have hph := h.phase
      rw [ho] at hph
      simp only [Bool.false_eq_true, if_false] at hph
      rw [hph.1] at hwk
      simp at hwk
  have hph := h.phase
  rw [hon] at hph
  simp only [if_true] at hph
  obtain ⟨⟨gh, us, hgh, hus, htr⟩, hmh⟩ := hph
  have hnm : s.outLock ≠ some .main := by
    intro hc
    have := h.mainLock.mpr hc
    rw [hmh] at this
    cases this
  unfold stepWorker
  obtain ⟨desc, l, pc⟩ := wk
  cases pc with
  | top =>
    simp only
    have hsz := readRecord_sized desc l s.log hokw.1
    rcases hrd : readRecord desc l s.log with ⟨l1, log1, f⟩
    rw [hrd] at hsz
    simp only at hsz
    cases f with
    | stop =>
      exact inv_local out0 s _ i _ ⟨desc, l1, .finish⟩ h hwk (by simp [Worker.live]) rfl rfl
        ⟨hsz, trivial⟩ rfl rfl rfl rfl rfl rfl (by simp [Worker.live])
    | fault =>
      exact inv_local out0 s _ i _ ⟨desc, l1, .top⟩ h hwk (by simp [Worker.live]) rfl rfl
        ⟨hsz, trivial⟩ rfl rfl rfl rfl rfl rfl (by simp [Worker.live])
    | record n =>
      have hsp := readRecord_spec desc l l1 s.log log1 n hokw.1 hrd
      exact inv_local out0 s _ i _ ⟨desc, l1, .lock n⟩ h hwk (by simp [Worker.live]) rfl rfl
        ⟨hsz, hsp.2.2.1, hsp.2.2.2.1⟩ rfl rfl rfl rfl rfl rfl (by simp [Worker.live])
  | check e1 e2 =>
    simp only
    rcases hcw : checkWrites desc e1 e2 s.log with ⟨log1, b⟩
    cases b with
    | true =>
      exact inv_local out0 s _ i _ ⟨desc, l, .top⟩ h hwk (by simp [Worker.live]) rfl rfl
        ⟨hokw.1, trivial⟩ rfl rfl rfl rfl rfl rfl (by simp [Worker.live])
    | false =>
      exact inv_local out0 s _ i _ ⟨desc, l, .finish⟩ h hwk (by simp [Worker.live]) rfl rfl
        ⟨hokw.1, trivial⟩ rfl rfl rfl rfl rfl rfl (by simp [Worker.live])
  | finish =>
    have hpos := countP_live_pos _ i _ hwk (by simp [Worker.live])
    have hwg := h.wg
    exact inv_local out0 s _ i _ ⟨desc, l, .closed⟩ h hwk (by simp [Worker.live]) rfl rfl
      ⟨hokw.1, trivial⟩ rfl rfl rfl rfl rfl rfl (by simp only [Worker.live]; simp; omega)
  | closed => exact h
  | lock n =>
    simp only
    split
    · rename_i hfree
      have hp0 : pendingWrites s = [] := by simp [pendingWrites, hfree]
      rw [hp0] at htr
      refine ⟨h.reliable, ?_, ?_, ?_, h.mainOk, ?_, h.out, ?_, ?_⟩
      · simp [hmh]
      · refine workerLock_set _ i _ _ _ _ hwk h.workerLock (by simp [WorkerPc.holds]) ?_
        intro j hj
        simp only [hfree, reduceCtorEq, iff_false, Option.some.injEq, Tid.worker.injEq]
        exact fun hc => hj hc.symm
      · exact workersOk_set _ i _ h.workersOk ⟨hokw.1, hokw.2⟩
      · rw [hon]
        simp only [if_true]
        refine ⟨⟨gh, us, hgh, hus, ?_⟩, hmh⟩
        simp only [pendingWrites, getElem?_set_worker _ i i _ _ hwk, if_true, htr]
      · have := countP_live_pos _ i _ hwk (by simp [Worker.live])
        simp only
        rw [countP_set_worker _ i _ _ hwk (by simp [Worker.live]), h.wg]
        simp only [Worker.live]
        simp
        omega
      · intro hm
        have := h.returned hm _ hmem
        simp at this
    · exact h
  | writeHeader n =>
    have hl : s.outLock = some (.worker i) := hlk.mpr rfl
    have hp0 : pendingWrites s = [] := by
      rw [pendingWrites_holder s i _ hl hwk]
    rw [hp0] at htr
    simp only
    rw [Write_reliable _ _ h.reliable]
    simp only [List.take_length]
    refine ⟨reliable_tail _ _ h.reliable, ?_, ?_, ?_, h.mainOk, ?_, ?_, ?_, ?_⟩
    · exact h.mainLock
    · exact workerLock_set _ i _ _ _ _ hwk h.workerLock (by simp [WorkerPc.holds, hl])
        (fun j _ => Iff.rfl)
    · exact workersOk_set _ i _ h.workersOk ⟨hokw.1, hokw.2⟩
    · rw [hon]
      simp only [if_true]
      refine ⟨⟨gh, us, hgh, hus, ?_⟩, hmh⟩
      simp only [pendingWrites, hl, getElem?_set_worker _ i i _ _ hwk, if_true, htr,
        List.append_nil, List.cons_append]
    · simp only [h.out, traceBytes_append, traceBytes, List.append_nil, List.append_assoc]
    · have := countP_live_pos _ i _ hwk (by simp [Worker.live])
      simp only
      rw [countP_set_worker _ i _ _ hwk (by simp [Worker.live]), h.wg]
      simp only [Worker.live]
      simp
      omega
    · intro hm
      have := h.returned hm _ hmem
      simp at this
  | writePacket n e1 =>
    have hl : s.outLock = some (.worker i) := hlk.mpr rfl
    have hp0 : pendingWrites s = [(.worker i, l.header)] := by
      rw [pendingWrites_holder s i _ hl hwk]
    rw [hp0] at htr
    simp only
    rw [Write_reliable _ _ h.reliable]
    simp only [List.take_length]
    refine ⟨reliable_tail _ _ h.reliable, ?_, ?_, ?_, h.mainOk, ?_, ?_, ?_, ?_⟩
    · exact h.mainLock
    · exact workerLock_set _ i _ _ _ _ hwk h.workerLock (by simp [WorkerPc.holds, hl])
        (fun j _ => Iff.rfl)
    · exact workersOk_set _ i _ h.workersOk ⟨hokw.1, trivial⟩
    · rw [hon]
      simp only [if_true]
      refine ⟨⟨gh, us ++ [(i, ⟨l.header, l.packetBuf.take n⟩)], hgh, ?_, ?_⟩, hmh⟩
      · intro u hu
        rcases List.mem_append.mp hu with h1 | h1
        · exact hus u h1
        · simp only [List.mem_singleton] at h1
          subst h1
          have h2 := hokw.2
          simp only at h2
          refine ⟨hokw.1.1, ?_⟩
          simp only [List.length_take, hokw.1.2]
          omega
      · simp only [pendingWrites, hl, getElem?_set_worker _ i i _ _ hwk, if_true, htr,
          unitsWrites_append, unitsWrites, unitWrites, List.append_nil,
          List.cons_append, List.append_assoc, List.nil_append]
    · simp only [h.out, traceBytes_append, traceBytes, List.append_nil, List.append_assoc]
    · have := countP_live_pos _ i _ hwk (by simp [Worker.live])
      simp only
      rw [countP_set_worker _ i _ _ hwk (by simp [Worker.live]), h.wg]
      simp only [Worker.live]
      simp
      omega
    · intro hm
      have := h.returned hm _ hmem
      simp at this
  | unlock e1 e2 =>
    have hl : s.outLock = some (.worker i) := hlk.mpr rfl
    have hp0 : pendingWrites s = [] := by
      rw [pendingWrites_holder s i _ hl hwk]
    rw [hp0] at htr
    simp only
    refine ⟨h.reliable, ?_, ?_, ?_, h.mainOk, ?_, h.out, ?_, ?_⟩
    · simp [hmh]
    · refine workerLock_set _ i _ _ _ _ hwk h.workerLock (by simp [WorkerPc.holds]) ?_
      intro j hj
      simp only [reduceCtorEq, hl, Option.some.injEq, Tid.worker.injEq, false_iff]
      exact fun hc => hj hc.symm
    · exact workersOk_set _ i _ h.workersOk ⟨hokw.1, trivial⟩
    · rw [hon]
      simp only [if_true]
      refine ⟨⟨gh, us, hgh, hus, ?_⟩, hmh⟩
      simp only [pendingWrites, htr]
    · have := countP_live_pos _ i _ hwk (by simp [Worker.live])
      simp only
      rw [countP_set_worker _ i _ _ hwk (by simp [Worker.live]), h.wg]
      simp only [Worker.live]
      simp
      omega
    · intro hm
      have := h.returned hm _ hmem
      simp at this

theorem inv_step (env : Spawner) (out0 : List UInt8) (s : Sys) (t : Tid) (h : Inv out0 s) :
    Inv out0 (step env s t) := by
  unfold step
  split
  · exact h
  · cases t with
    | main => exact inv_stepMain env out0 s h
    | worker i =>
      simp only
      split
      · rename_i wk hwk
        exact inv_stepWorker out0 s i wk h hwk
      · exact h

theorem inv_run (env : Spawner) (out0 : List UInt8) (sched : List Tid) :
    ∀ s, Inv out0 s → Inv out0 (run env s sched) := by
  induction sched with
  | nil => intro s h; exact h
  | cons t ts ih => intro s h; exact ih _ (inv_step env out0 s t h)

/-! ## The invariant that does not depend on the writes -/

theorem core_init (osArgs : List String) (w : Writer) : Core (Sys.init osArgs w) := by
  refine ⟨?_, ?_, ?_, ?_, ?_, ?_, ?_, ?_⟩ <;>
    simp [Sys.init, MainPc.holds, MainPc.ok, EarlyTrace]

theorem core_stepMain (env : Spawner) (s : Sys) (h : Core s) : Core (stepMain env s) := by
  obtain ⟨hml, hwl, hok, hmo, hea, hla, hwg, hret⟩ := h
  obtain ⟨osArgs, stdout, log, once, outLock, wg, started, main, workers, halted, trace⟩ := s
  simp only at hml hwl hok hmo hea hla hwg hret
  unfold stepMain
  cases main with
  | start =>
    simp only
    cases hj : mainJobs osArgs with
    | error lines => exact ⟨hml, hwl, hok, hmo, hea, hla, hwg, hret⟩
    | ok jobs =>
      refine ⟨?_, hwl, hok, ?_, ?_, ?_, hwg, ?_⟩
      · simpa [MainPc.holds] using hml
      · simp [MainPc.ok]
      · simpa [EarlyTrace] using hea
      · intro ho
        obtain ⟨_, b, c⟩ := hla ho
        refine ⟨rfl, b, fun hw => ?_⟩
        obtain ⟨_, _, _, hx⟩ := c hw
        cases hx
      · simp
  | loop todo =>
    cases todo with
    | nil =>
      simp only
      split
      · rename_i hz
        refine ⟨?_, hwl, hok, ?_, ?_, ?_, hwg, ?_⟩
        · simpa [MainPc.holds] using hml
        · simp [MainPc.ok]
        · simpa [EarlyTrace] using hea
        · intro ho
          obtain ⟨_, b, c⟩ := hla ho
          refine ⟨rfl, b, fun hw => ?_⟩
          obtain ⟨_, _, _, hx⟩ := c hw
          cases hx
        · intro _ wk hwk
          subst hz
          have := (List.countP_eq_zero.mp hwg.symm) wk hwk
          simpa [Worker.live] using this
      · exact ⟨hml, hwl, hok, hmo, hea, hla, hwg, hret⟩
    | cons j todo =>
      simp only
      rcases hopen : wrapCommandOpen (env started j.command j.args) j log with ⟨log1, res⟩
      cases res with
      | error e =>
        refine ⟨?_, hwl, hok, ?_, ?_, ?_, hwg, ?_⟩
        · simpa [MainPc.holds] using hml
        · simp [MainPc.ok]
        · simpa [EarlyTrace] using hea
        · intro ho
          obtain ⟨_, b, c⟩ := hla ho
          refine ⟨rfl, b, fun hw => ?_⟩
          obtain ⟨_, _, _, hx⟩ := c hw
          cases hx
        · simp
      | ok v =>
        obtain ⟨so, lh⟩ := v
        have hlen : lh.length = 24 := by
          obtain ⟨_, _, h24, hlh, _⟩ := wrapCommandOpen_ok _ _ _ _ _ _ hopen
          rw [hlh, List.length_take]
          omega
        refine ⟨?_, hwl, hok, ?_, ?_, ?_, hwg, ?_⟩
        · simpa [MainPc.holds] using hml
        · simpa [MainPc.ok] using hlen
        · simpa [EarlyTrace] using hea
        · intro ho
          obtain ⟨_, b, c⟩ := hla ho
          refine ⟨rfl, b, fun hw => ?_⟩
          obtain ⟨_, _, _, hx⟩ := c hw
          cases hx
        · simp
  | once j so lh todo =>
    simp only
    cases once with
    | true =>
      simp only [if_true]
      obtain ⟨_, b, c⟩ := hla rfl
      refine ⟨?_, hwl, hok, ?_, ?_, ?_, hwg, ?_⟩
      · simpa [MainPc.holds] using hml
      · simp [MainPc.ok]
      · simp
      · intro _
        refine ⟨rfl, b, fun hw => ?_⟩
        obtain ⟨_, _, _, hx⟩ := c hw
        cases hx
      · simp
    | false =>
      simp only [Bool.false_eq_true, if_false]
      split
      · rename_i hfree
        subst hfree
        refine ⟨?_, ?_, hok, ?_, ?_, ?_, hwg, ?_⟩
        · simp [MainPc.holds]
        · intro i
          have := hwl i
          simp only [reduceCtorEq, false_iff] at this
          simp only [Option.some.injEq, reduceCtorEq, false_iff]
          exact this
        · simpa [MainPc.ok] using hmo
        · simpa [EarlyTrace] using hea
        · simp
        · simp
      · exact ⟨hml, hwl, hok, hmo, hea, hla, hwg, hret⟩
  | onceWrite j so lh todo =>
    simp only
    rcases hw : Write stdout lh with ⟨out, n, err⟩
    simp only
    have hof : once = false := by
      cases once with
      | false => rfl
      | true => simpa [MainPc.holds] using (hla rfl).1
    subst hof
    obtain ⟨hw0, ht0⟩ := hea rfl
    simp only [EarlyTrace] at ht0
    subst hw0 ht0
    refine ⟨?_, hwl, hok, ?_, ?_, ?_, hwg, ?_⟩
    · simpa [MainPc.holds] using hml
    · simp [MainPc.ok]
    · intro _
      exact ⟨rfl, ⟨lh.take n, by simp⟩⟩
    · simp
    · simp
  | onceUnlock j so todo =>
    simp only
    have hof : once = false := by
      cases once with
      | false => rfl
      | true => simpa [MainPc.holds] using (hla rfl).1
    subst hof
    obtain ⟨hw0, g, ht0⟩ := hea rfl
    subst hw0 ht0
    refine ⟨?_, ?_, hok, ?_, ?_, ?_, hwg, ?_⟩
    · simp [MainPc.holds]
    · intro i; simp
    · simp [MainPc.ok]
    · simp
    · intro _
      exact ⟨rfl, by simp, fun _ => ⟨j, so, todo, rfl⟩⟩
    · simp
  | spawn j so todo =>
    simp only
    have hon : once = true := by simpa [MainPc.ok] using hmo
    subst hon
    obtain ⟨_, b, _⟩ := hla rfl
    have hidx : ∀ i, outLock = some (.worker i) → i < workers.length := by
      intro i hi
      obtain ⟨wk, hwk, _⟩ := (hwl i).mp hi
      exact (List.getElem?_eq_some.mp hwk).1
    refine ⟨?_, ?_, ?_, ?_, ?_, ?_, ?_, ?_⟩
    · simpa [MainPc.holds] using hml
    · intro i
      rw [hwl i]
      by_cases hi : i < workers.length
      · rw [List.getElem?_append_left hi]
      · have h1 : workers[i]? = none := List.getElem?_eq_none (by omega)
        rw [h1, List.getElem?_append_right (by omega)]
        constructor
        · rintro ⟨wk, hwk, _⟩; simp at hwk
        · rintro ⟨wk, hwk, hh⟩
          cases hk : i - workers.length with
          | zero =>
            rw [hk] at hwk
            simp only [List.getElem?_cons_zero, Option.some.injEq] at hwk
            subst hwk
            simp [WorkerPc.holds] at hh
          | succ k => rw [hk] at hwk; simp at hwk
    · intro wk hwk
      rcases List.mem_append.mp hwk with h1 | h1
      · exact hok wk h1
      · simp only [List.mem_singleton] at h1
        subst h1
        exact ⟨sized_init _, trivial⟩
    · simp [MainPc.ok]
    · simp
    · intro _
      exact ⟨rfl, b, by simp⟩
    · simp [hwg, List.countP_append, Worker.live]
    · simp
  | returned => exact ⟨hml, hwl, hok, hmo, hea, hla, hwg, hret⟩

/-- A step of the goroutine `i` keeps the invariant: it stays outside the
locked section or inside it, or takes the free lock, or releases it. -/
theorem core_worker (s t : Sys) (i : Nat) (wk wk1 : Worker) (extra : List (Tid × List UInt8))
    (h : Core s) (hwk : s.workers[i]? = some wk) (hlive : wk.live = true) (hok1 : wk1.ok)
    (e2 : t.once = s.once) (e4 : t.main = s.main) (e5 : t.trace = s.trace ++ extra)
    (e6 : t.workers = s.workers.set i wk1)
    (e7 : t.wg + 1 = s.wg + (if wk1.live = true then 1 else 0))
    (hlock : (t.outLock = s.outLock ∧ wk1.pc.holds = wk.pc.holds) ∨
      (s.outLock = none ∧ t.outLock = some (.worker i) ∧ wk1.pc.holds = true) ∨
      (s.outLock = some (.worker i) ∧ t.outLock = none ∧ wk1.pc.holds = false)) : Core t := by
  obtain ⟨hml, hwl, hok, hmo, hea, hla, hwg, hret⟩ := h
  have hmem := mem_of_getElem?_some _ _ _ hwk
  have hi := (List.getElem?_eq_some.mp hwk).1
  have hlk := hwl i
  rw [hwk] at hlk
  simp only [Option.some.injEq, exists_eq_left'] at hlk
  have hon : s.once = true := by
    cases ho : s.once with
    | true => rfl
    | false =>
      rw [(hea ho).1] at hwk
      simp at hwk
  obtain ⟨hmh, htr, _⟩ := hla hon
  have hne : t.workers ≠ [] := by
    intro hc
    have := congrArg List.length hc
    rw [e6, List.length_set] at this
    simp only [List.length_nil] at this
    omega
  refine ⟨?_, ?_, ?_, by rw [e4, e2]; exact hmo, ?_, ?_, ?_, ?_⟩
  · rw [e4]
    rcases hlock with ⟨h1, _⟩ | ⟨h1, h2, _⟩ | ⟨h1, h2, _⟩
    · rw [h1]; exact hml
    · simp [h2, hmh]
    · simp [h2, hmh]
  · rw [e6]
    rcases hlock with ⟨h1, h2⟩ | ⟨h1, h2, h3⟩ | ⟨h1, h2, h3⟩
    · rw [h1]
      exact workerLock_set _ i wk wk1 _ _ hwk hwl (by rw [h2]; exact hlk) (fun j _ => Iff.rfl)
    · refine workerLock_set _ i wk wk1 _ _ hwk hwl (by simp [h2, h3]) ?_
      intro j hj
      simp only [h1, h2, reduceCtorEq, iff_false, Option.some.injEq, Tid.worker.injEq]
      exact fun hc => hj hc.symm
    · refine workerLock_set _ i wk wk1 _ _ hwk hwl (by simp [h2, h3]) ?_
      intro j hj
      simp only [h1, h2, reduceCtorEq, Option.some.injEq, Tid.worker.injEq, false_iff]
      exact fun hc => hj hc.symm
  · rw [e6]
    exact workersOk_set _ i wk1 hok hok1
  · intro ho
    rw [e2, hon] at ho
    cases ho
  · intro _
    rw [e4, e5]
    exact ⟨hmh, by simp [htr], fun hc => absurd hc hne⟩
  · have := countP_live_pos _ i wk hwk hlive
    rw [e6, countP_set_worker _ i wk wk1 hwk hlive]
    omega
  · intro hm
    rw [e4] at hm
    have := hret hm wk hmem
    simp [Worker.live, this] at hlive

theorem core_stepWorker (s : Sys) (i : Nat) (wk : Worker)
    (h : Core s) (hwk : s.workers[i]? = some wk) : Core (stepWorker s i wk) := by
  have hmem := mem_of_getElem?_some _ _ _ hwk
  have hokw : wk.ok := h.workersOk wk hmem
  have hlk := h.workerLock i
  rw [hwk] at hlk
  simp only [Option.some.injEq, exists_eq_left'] at hlk
  have hwg := h.wg
  unfold stepWorker
  obtain ⟨desc, l, pc⟩ := wk
  cases pc with
  | top =>
    simp only
    have hsz := readRecord_sized desc l s.log hokw.1
    rcases hrd : readRecord desc l s.log with ⟨l1, log1, f⟩
    rw [hrd] at hsz
    simp only at hsz
    cases f with
    | stop =>
      exact core_worker s _ i _ ⟨desc, l1, .finish⟩ [] h hwk (by simp [Worker.live])
        ⟨hsz, trivial⟩ rfl rfl (List.append_nil _).symm rfl (by simp [Worker.live])
        (Or.inl ⟨rfl, rfl⟩)
    | fault =>
      exact core_worker s _ i _ ⟨desc, l1, .top⟩ [] h hwk (by simp [Worker.live])
        ⟨hsz, trivial⟩ rfl rfl (List.append_nil _).symm rfl (by simp [Worker.live])
        (Or.inl ⟨rfl, rfl⟩)
    | record n =>
      have hsp := readRecord_spec desc l l1 s.log log1 n hokw.1 hrd
      exact core_worker s _ i _ ⟨desc, l1, .lock n⟩ [] h hwk (by simp [Worker.live])
        ⟨hsz, hsp.2.2.1, hsp.2.2.2.1⟩ rfl rfl (List.append_nil _).symm rfl
        (by simp [Worker.live]) (Or.inl ⟨rfl, rfl⟩)
  | lock n =>
    simp only
    split
    · rename_i hfree
      exact core_worker s _ i _ ⟨desc, l, .writeHeader n⟩ [] h hwk (by simp [Worker.live])
        ⟨hokw.1, hokw.2⟩ rfl rfl (List.append_nil _).symm rfl (by simp [Worker.live])
        (Or.inr (Or.inl ⟨hfree, rfl, rfl⟩))
    · exact h
  | writeHeader n =>
    simp only
    rcases hw : Write s.stdout l.header with ⟨out, k, e⟩
    exact core_worker s _ i _ ⟨desc, l, .writePacket n e⟩ _ h hwk (by simp [Worker.live])
      ⟨hokw.1, hokw.2⟩ rfl rfl rfl rfl (by simp [Worker.live]) (Or.inl ⟨rfl, rfl⟩)
  | writePacket n e1 =>
    simp only
    rcases hw : Write s.stdout (List.take n l.packetBuf) with ⟨out, k, e⟩
    exact core_worker s _ i _ ⟨desc, l, .unlock e1 e⟩ _ h hwk (by simp [Worker.live])
      ⟨hokw.1, trivial⟩ rfl rfl rfl rfl (by simp [Worker.live]) (Or.inl ⟨rfl, rfl⟩)
  | unlock e1 e2 =>
    exact core_worker s _ i _ ⟨desc, l, .check e1 e2⟩ [] h hwk (by simp [Worker.live])
      ⟨hokw.1, trivial⟩ rfl rfl (List.append_nil _).symm rfl (by simp [Worker.live])
      (Or.inr (Or.inr ⟨hlk.mpr rfl, rfl, rfl⟩))
  | check e1 e2 =>
    simp only
    rcases hcw : checkWrites desc e1 e2 s.log with ⟨log1, b⟩
    cases b with
    | true =>
      exact core_worker s _ i _ ⟨desc, l, .top⟩ [] h hwk (by simp [Worker.live])
        ⟨hokw.1, trivial⟩ rfl rfl (List.append_nil _).symm rfl (by simp [Worker.live])
        (Or.inl ⟨rfl, rfl⟩)
    | false =>
      exact core_worker s _ i _ ⟨desc, l, .finish⟩ [] h hwk (by simp [Worker.live])
        ⟨hokw.1, trivial⟩ rfl rfl (List.append_nil _).symm rfl (by simp [Worker.live])
        (Or.inl ⟨rfl, rfl⟩)
  | finish =>
    have hpos := countP_live_pos _ i _ hwk (by simp [Worker.live])
    exact core_worker s _ i _ ⟨desc, l, .closed⟩ [] h hwk (by simp [Worker.live])
      ⟨hokw.1, trivial⟩ rfl rfl (List.append_nil _).symm rfl
      (by simp only [Worker.live]; simp; omega) (Or.inl ⟨rfl, rfl⟩)
  | closed => exact h

theorem core_step (env : Spawner) (s : Sys) (t : Tid) (h : Core s) : Core (step env s t) := by
  unfold step
  split
  · exact h
  · cases t with
    | main => exact core_stepMain env s h
    | worker i =>
      simp only
      split
      · rename_i wk hwk
        exact core_stepWorker s i wk h hwk
      · exact h

theorem core_run (env : Spawner) (sched : List Tid) :
    ∀ s, Core s → Core (run env s sched) := by
  induction sched with
  | nil => intro s h; exact h
  | cons t ts ih => intro s h; exact ih _ (core_step env s t h)

/-! ## The progress of the main goroutine -/

theorem mainInv_init (env : Spawner) (osArgs : List String) (w : Writer) (jobs : List Job)
    (hj : mainJobs osArgs = .ok jobs) : MainInv env jobs (Sys.init osArgs w) := by
  refine ⟨hj, ⟨[], by simp [Sys.init, MainPc.todo], by simp [Sys.init]⟩, ?_, ?_, ?_, ?_, ?_, ?_⟩ <;>
    simp [Sys.init, MainPc.opened]

theorem wrapCommandOpen_fails (child : Child) (j : Job) (log : List String)
    (h : ¬ child.delivers) : ∃ log1 e, wrapCommandOpen child j log = (log1, .error e) := by
  unfold wrapCommandOpen
  cases hp : child.pipeErr with
  | some e => exact ⟨_, _, rfl⟩
  | none =>
    cases hs : child.startErr with
    | some e => exact ⟨_, _, rfl⟩
    | none =>
      have h24 : child.stdout.data.length < 24 := by
        by_contra hc
        exact h ⟨hp, hs, by omega⟩
      obtain ⟨r1, b1, e1, hrf⟩ := ReadFull_short_some child.stdout (List.replicate 24 0)
        (by simpa using h24)
      simp only [hrf]
      exact ⟨_, _, rfl⟩

theorem getElem?_append_cons_length (done todo : List Job) (j : Job) (n : Nat)
    (h : done.length = n) : (done ++ j :: todo)[n]? = some j := by
  subst h
  rw [List.getElem?_append_right (Nat.le_refl _)]
  simp

theorem mainInv_stepMain (env : Spawner) (jobs : List Job) (s : Sys)
    (h : Core s) (hm : MainInv env jobs s) (hh : s.halted = none) :
    MainInv env jobs (stepMain env s) := by
  obtain ⟨hargs, ⟨done, hdone, hdesc⟩, hcnt, hall, hhdr, hhead, hfin, hbeg⟩ := hm
  have hea := h.early
  have hla := h.late
  have hlen : done.length = s.workers.length := by
    have := congrArg List.length hdesc
    simpa using this
  obtain ⟨osArgs, stdout, log, once, outLock, wg, started, main, workers, halted, trace⟩ := s
  simp only at hargs hdone hdesc hcnt hall hhdr hhead hfin hbeg hh hea hla hlen
  subst hh
  simp only [forall_const] at hcnt
  unfold stepMain
  cases main with
  | start =>
    simp only [hargs]
    refine ⟨hargs, ⟨done, hdone, hdesc⟩, ?_, ?_, trivial, hhead, ?_, ?_⟩
    · simpa [MainPc.opened] using hcnt
    · simpa [MainPc.opened] using hall
    · simp
    · simpa [MainPc.opened] using hbeg
  | loop todo =>
    cases todo with
    | nil =>
      simp only
      split
      · refine ⟨hargs, ⟨done, by simpa [MainPc.todo] using hdone, hdesc⟩, ?_, ?_, trivial,
          hhead, ?_, ?_⟩
        · simp
        · simpa [MainPc.opened] using hall
        · simp
        · simpa [MainPc.opened] using hbeg
      · exact ⟨hargs, ⟨done, hdone, hdesc⟩, by simpa using hcnt, hall, hhdr, hhead, hfin, hbeg⟩
    | cons j todo =>
      simp only
      simp only [MainPc.opened, Bool.false_eq_true, if_false, Nat.add_zero] at hcnt hall
      simp only [MainPc.todo] at hdone
      subst hcnt
      rcases hopen : wrapCommandOpen (env workers.length j.command j.args) j log with ⟨log1, res⟩
      cases res with
      | error e =>
        refine ⟨hargs, ⟨done, hdone, hdesc⟩, by simp, ?_, trivial, hhead, by simp, hbeg⟩
        simpa [MainPc.opened] using hall
      | ok v =>
        obtain ⟨so, lh⟩ := v
        obtain ⟨h1, h2, h24, hlh, _, _⟩ := wrapCommandOpen_ok _ _ _ _ _ _ hopen
        refine ⟨hargs, ⟨done, hdone, hdesc⟩, by simp [MainPc.opened], ?_, hlh, hhead, by simp,
          by simp [MainPc.opened]⟩
        intro k jk hk hjk
        simp only [MainPc.opened, if_true] at hk
        by_cases hkl : k < workers.length
        · exact hall k jk hkl hjk
        · have hke : k = workers.length := by omega
          subst hke
          rw [hdone, getElem?_append_cons_length done todo j _ hlen] at hjk
          cases hjk
          exact ⟨h1, h2, h24⟩
  | once j so lh todo =>
    simp only
    cases once with
    | true =>
      refine ⟨hargs, ⟨done, hdone, hdesc⟩, by simpa [MainPc.opened] using hcnt,
        by simpa [MainPc.opened] using hall, trivial, hhead, by simp, by simp [MainPc.opened]⟩
    | false =>
      simp only [Bool.false_eq_true, if_false]
      split
      · exact ⟨hargs, ⟨done, hdone, hdesc⟩, by simpa [MainPc.opened] using hcnt,
          by simpa [MainPc.opened] using hall, hhdr, hhead, by simp, by simp⟩
      · exact ⟨hargs, ⟨done, hdone, hdesc⟩, by simpa using hcnt, hall, hhdr, hhead, hfin, hbeg⟩
  | onceWrite j so lh todo =>
    simp only
    rcases hw : Write stdout lh with ⟨out, n, err⟩
    simp only
    have hof : once = false := by
      cases once with
      | false => rfl
      | true => simpa [MainPc.holds] using (hla rfl).1
    subst hof
    obtain ⟨hw0, ht0⟩ := hea rfl
    simp only [EarlyTrace] at ht0
    subst hw0 ht0
    have hd0 : done = [] := List.length_eq_zero.mp (by simpa using hlen)
    subst hd0
    simp only [MainPc.todo, List.nil_append] at hdone
    refine ⟨hargs, ⟨[], by simpa [MainPc.todo] using hdone, hdesc⟩,
      by simpa [MainPc.opened] using hcnt, by simpa [MainPc.opened] using hall, trivial, ?_,
      by simp, by simp⟩
    right
    refine ⟨n, ?_⟩
    simp only [List.nil_append, List.head?_cons, hdone, firstHeader, hhdr, List.length_nil]
  | onceUnlock j so todo =>
    exact ⟨hargs, ⟨done, hdone, hdesc⟩, by simpa [MainPc.opened] using hcnt,
      by simpa [MainPc.opened] using hall, trivial, hhead, by simp, by simp [MainPc.opened]⟩
  | spawn j so todo =>
    simp only [MainPc.todo] at hdone
    refine ⟨hargs, ⟨done ++ [j], by simpa [MainPc.todo] using hdone, by simp [hdesc]⟩, ?_, ?_,
      trivial, hhead, by simp, by simp⟩
    · simpa [MainPc.opened] using hcnt
    · simpa [MainPc.opened] using hall
  | returned =>
    exact ⟨hargs, ⟨done, hdone, hdesc⟩, by simpa using hcnt, hall, hhdr, hhead, hfin, hbeg⟩

theorem map_desc_set (workers : List Worker) (i : Nat) (wk wk1 : Worker)
    (hwk : workers[i]? = some wk) (hd : wk1.desc = wk.desc) :
    (workers.set i wk1).map Worker.desc = workers.map Worker.desc := by
  apply List.ext_getElem?
  intro k
  rw [List.getElem?_map, List.getElem?_map, getElem?_set_worker workers i k wk wk1 hwk]
  by_cases hik : i = k
  · subst hik
    simp [hwk, hd]
  · simp [hik]

theorem trace_ne_nil_of_worker (out0 : List UInt8) (s : Sys) (i : Nat) (wk : Worker)
    (h : Inv out0 s) (hwk : s.workers[i]? = some wk) : s.trace ≠ [] := by
  have hph := h.phase
  cases ho : s.once with
  | false =>
    rw [ho] at hph
    simp only [Bool.false_eq_true, if_false] at hph
    rw [hph.1] at hwk
    simp at hwk
  | true =>
    rw [ho] at hph
    simp only [if_true] at hph
    obtain ⟨⟨gh, us, _, _, htr⟩, _⟩ := hph
    rw [htr]
    simp

theorem core_trace_ne_nil (s : Sys) (i : Nat) (wk : Worker)
    (h : Core s) (hwk : s.workers[i]? = some wk) : s.trace ≠ [] := by
  cases ho : s.once with
  | false =>
    rw [(h.early ho).1] at hwk
    simp at hwk
  | true => exact (h.late ho).2.1

/-- A step of a goroutine leaves the progress of the main goroutine as it is. -/
theorem mainInv_worker (env : Spawner) (jobs : List Job) (s t : Sys)
    (i : Nat) (wk wk1 : Worker) (extra : List (Tid × List UInt8))
    (h : Core s) (hm : MainInv env jobs s) (hh : s.halted = none)
    (hwk : s.workers[i]? = some wk)
    (e0 : t.osArgs = s.osArgs) (e1 : t.main = s.main) (e2 : t.started = s.started)
    (e3 : t.workers = s.workers.set i wk1) (e4 : wk1.desc = wk.desc)
    (e5 : t.halted = none ∨ t.halted = some .crashed) (e6 : t.trace = s.trace ++ extra) :
    MainInv env jobs t := by
  obtain ⟨hargs, ⟨done, hdone, hdesc⟩, hcnt, hall, hhdr, hhead, hfin, _⟩ := hm
  have hlen : t.workers.length = s.workers.length := by rw [e3, List.length_set]
  refine ⟨e0 ▸ hargs, ⟨done, by rw [e1]; exact hdone, ?_⟩, ?_, ?_, ?_, ?_, ?_, ?_⟩
  · rw [e3, map_desc_set _ i wk wk1 hwk e4]
    exact hdesc
  · intro _
    rw [e2, hlen, e1]
    exact hcnt hh
  · rw [hlen, e1]
    exact hall
  · rw [e1, hlen]
    exact hhdr
  · right
    have hne := core_trace_ne_nil s i wk h hwk
    rcases hhead with h0 | ⟨n, h0⟩
    · exact absurd h0 hne
    · refine ⟨n, ?_⟩
      rw [e6]
      cases hs : s.trace with
      | nil => exact absurd hs hne
      | cons x xs =>
        rw [hs] at h0
        simpa using h0
  · rw [e1, ← hfin, hh]
    rcases e5 with h5 | h5 <;> simp [h5]
  · intro _
    right
    intro hc
    have h0 : s.workers.length = 0 := by rw [← hlen, hc]; rfl
    have := (List.getElem?_eq_some.mp hwk).1
    omega

theorem mainInv_stepWorker (env : Spawner) (jobs : List Job) (s : Sys)
    (i : Nat) (wk : Worker) (h : Core s) (hm : MainInv env jobs s) (hh : s.halted = none)
    (hwk : s.workers[i]? = some wk) : MainInv env jobs (stepWorker s i wk) := by
  unfold stepWorker
  obtain ⟨desc, l, pc⟩ := wk
  cases pc with
  | top =>
    simp only
    rcases hrd : readRecord desc l s.log with ⟨l1, log1, f⟩
    cases f with
    | stop =>
      exact mainInv_worker env jobs s _ i _ ⟨desc, l1, .finish⟩ [] h hm hh hwk rfl rfl rfl
        rfl rfl (Or.inl hh) (List.append_nil _).symm
    | fault =>
      exact mainInv_worker env jobs s _ i _ ⟨desc, l1, .top⟩ [] h hm hh hwk rfl rfl rfl
        rfl rfl (Or.inr rfl) (List.append_nil _).symm
    | record n =>
      exact mainInv_worker env jobs s _ i _ ⟨desc, l1, .lock n⟩ [] h hm hh hwk rfl rfl rfl
        rfl rfl (Or.inl hh) (List.append_nil _).symm
  | lock n =>
    simp only
    split
    · exact mainInv_worker env jobs s _ i _ ⟨desc, l, .writeHeader n⟩ [] h hm hh hwk
        rfl rfl rfl rfl rfl (Or.inl hh) (List.append_nil _).symm
    · exact hm
  | writeHeader n =>
    simp only
    rcases hw : Write s.stdout l.header with ⟨out, k, e⟩
    exact mainInv_worker env jobs s _ i _ ⟨desc, l, .writePacket n e⟩ _ h hm hh hwk
      rfl rfl rfl rfl rfl (Or.inl hh) rfl
  | writePacket n e1 =>
    simp only
    rcases hw : Write s.stdout (List.take n l.packetBuf) with ⟨out, k, e⟩
    exact mainInv_worker env jobs s _ i _ ⟨desc, l, .unlock e1 e⟩ _ h hm hh hwk
      rfl rfl rfl rfl rfl (Or.inl hh) rfl
  | unlock e1 e2 =>
    exact mainInv_worker env jobs s _ i _ ⟨desc, l, .check e1 e2⟩ [] h hm hh hwk
      rfl rfl rfl rfl rfl (Or.inl hh) (List.append_nil _).symm
  | check e1 e2 =>
    simp only
    rcases hcw : checkWrites desc e1 e2 s.log with ⟨log1, b⟩
    cases b with
    | true =>
      exact mainInv_worker env jobs s _ i _ ⟨desc, l, .top⟩ [] h hm hh hwk rfl rfl rfl
        rfl rfl (Or.inl hh) (List.append_nil _).symm
    | false =>
      exact mainInv_worker env jobs s _ i _ ⟨desc, l, .finish⟩ [] h hm hh hwk rfl rfl rfl
        rfl rfl (Or.inl hh) (List.append_nil _).symm
  | finish =>
    exact mainInv_worker env jobs s _ i _ ⟨desc, l, .closed⟩ [] h hm hh hwk rfl rfl rfl
      rfl rfl (Or.inl hh) (List.append_nil _).symm
  | closed => exact hm

theorem mains_step (env : Spawner) (jobs : List Job) (s : Sys) (t : Tid)
    (h : Core s ∧ MainInv env jobs s) :
    Core (step env s t) ∧ MainInv env jobs (step env s t) := by
  refine ⟨core_step env s t h.1, ?_⟩
  unfold step
  split
  · exact h.2
  · rename_i hh
    cases t with
    | main => exact mainInv_stepMain env jobs s h.1 h.2 hh
    | worker i =>
      simp only
      split
      · rename_i wk hwk
        exact mainInv_stepWorker env jobs s i wk h.1 h.2 hh hwk
      · exact h.2

theorem mains_run (env : Spawner) (jobs : List Job) (sched : List Tid) :
    ∀ s, Core s ∧ MainInv env jobs s →
      Core (run env s sched) ∧ MainInv env jobs (run env s sched) := by
  induction sched with
  | nil => intro s h; exact h
  | cons t ts ih => intro s h; exact ih _ (mains_step env jobs s t h)

theorem mains_reach (env : Spawner) (osArgs : List String) (w : Writer) (jobs : List Job)
    (sched : List Tid) (hj : mainJobs osArgs = .ok jobs) :
    Core (run env (Sys.init osArgs w) sched) ∧
    MainInv env jobs (run env (Sys.init osArgs w) sched) :=
  mains_run env jobs sched _ ⟨core_init osArgs w, mainInv_init env osArgs w jobs hj⟩

theorem invs_step (env : Spawner) (out0 : List UInt8) (jobs : List Job) (s : Sys) (t : Tid)
    (h : Inv out0 s ∧ Core s ∧ MainInv env jobs s) :
    Inv out0 (step env s t) ∧ Core (step env s t) ∧ MainInv env jobs (step env s t) :=
  ⟨inv_step env out0 s t h.1, mains_step env jobs s t h.2⟩

/-! ## The command line -/

theorem findSep_not_mem (l : List String) (i : Nat) (h : "--" ∉ l) : findSep l i = -1 := by
  induction l generalizing i with
  | nil => rfl
  | cons a rest ih =>
    have ha : a ≠ "--" := fun hc => h (by simp [hc])
    have hr : "--" ∉ rest := fun hc => h (by simp [hc])
    simp [findSep, ha, ih (i + 1) hr]

theorem findSep_first (hosts words : List String) (i : Nat) (h : "--" ∉ hosts) :
    findSep (hosts ++ "--" :: words) i = ((i + hosts.length : Nat) : Int) := by
  induction hosts generalizing i with
  | nil => simp [findSep]
  | cons a rest ih =>
    have ha : a ≠ "--" := fun hc => h (by simp [hc])
    have hr : "--" ∉ rest := fun hc => h (by simp [hc])
    rw [List.cons_append, findSep, if_neg ha, ih (i + 1) hr, List.length_cons]
    congr 1
    omega

theorem split_first (l : List String) (h : "--" ∈ l) :
    ∃ hosts words, "--" ∉ hosts ∧ l = hosts ++ "--" :: words := by
  induction l with
  | nil => simp at h
  | cons a rest ih =>
    by_cases ha : a = "--"
    · exact ⟨[], rest, by simp, by simp [ha]⟩
    · have hr : "--" ∈ rest := by
        rcases List.mem_cons.mp h with h1 | h1
        · exact absurd h1.symm ha
        · exact h1
      obtain ⟨hosts, words, h1, h2⟩ := ih hr
      refine ⟨a :: hosts, words, ?_, by simp [h2]⟩
      intro hc
      rcases List.mem_cons.mp hc with h3 | h3
      · exact ha h3.symm
      · exact h1 h3

theorem mainJobs_ssh_ok (prog : String) (hosts words : List String)
    (hh : "--" ∉ hosts) (hw : words ≠ []) :
    mainJobs (prog :: "ssh" :: (hosts ++ "--" :: words)) =
      .ok (hosts.map fun host =>
        { desc := host, command := "ssh", args := [host, " ".intercalate words] }) := by
  have hlen : ¬ (prog :: "ssh" :: (hosts ++ "--" :: words)).length < 3 := by
    simp only [List.length_cons, List.length_append]
    omega
  have hwl : 0 < words.length := List.length_pos.mpr hw
  unfold mainJobs
  simp only [hlen, if_false, List.getD_cons_succ, List.getD_cons_zero, if_true, List.drop_succ_cons,
    List.drop_zero, findSep_first hosts words 0 hh, Nat.zero_add]
  have h1 : ¬ (((hosts.length : Nat) : Int) = -1 ∨
      ((hosts.length : Nat) : Int) = ((hosts ++ "--" :: words).length : Int) - 1) := by
    rw [List.length_append, List.length_cons]
    omega
  simp only [h1, if_false, Int.toNat_ofNat, List.take_left]
  have h2 : List.drop (hosts.length + 1) (hosts ++ "--" :: words) = words := by
    rw [← List.drop_drop, List.drop_left]
    rfl
  rw [h2]

theorem mainJobs_ssh_error_iff (prog : String) (rest : List String) :
    (∃ lines, mainJobs (prog :: "ssh" :: rest) = .error lines) ↔
      ("--" ∉ rest ∨ ∃ hosts, "--" ∉ hosts ∧ rest = hosts ++ ["--"]) := by
  constructor
  · rintro ⟨lines, herr⟩
    by_cases hm : "--" ∈ rest
    · right
      obtain ⟨hosts, words, h1, h2⟩ := split_first rest hm
      cases words with
      | nil => exact ⟨hosts, h1, h2⟩
      | cons x xs =>
        rw [h2, mainJobs_ssh_ok prog hosts (x :: xs) h1 (by simp)] at herr
        cases herr
    · exact Or.inl hm
  · rintro (h | ⟨hosts, h1, h2⟩)
    · unfold mainJobs
      split
      · exact ⟨_, rfl⟩
      · simp only [List.getD_cons_succ, List.getD_cons_zero, if_true, List.drop_succ_cons,
          List.drop_zero, findSep_not_mem rest 0 h, true_or]
        exact ⟨_, rfl⟩
    · subst h2
      unfold mainJobs
      split
      · exact ⟨_, rfl⟩
      · simp only [List.getD_cons_succ, List.getD_cons_zero, if_true, List.drop_succ_cons,
          List.drop_zero, findSep_first hosts [] 0 h1, Nat.zero_add]
        have : ((hosts.length : Nat) : Int) = ((hosts ++ ["--"]).length : Int) - 1 := by
          rw [List.length_append, List.length_singleton]
          omega
        simp only [this, or_true, if_true]
        exact ⟨_, rfl⟩

/-! ## Who writes, and the first steps of the main goroutine -/

theorem step_once (env : Spawner) (s : Sys) (t : Tid) (h : s.once = true) :
    (step env s t).once = true := by
  unfold step
  split
  · exact h
  · cases t with
    | main =>
      simp only
      unfold stepMain
      repeat' split
      all_goals simp_all
    | worker i =>
      simp only
      split
      · unfold stepWorker
        repeat' split
        all_goals simp_all
      · exact h

theorem tagged_mono (n m : Nat) (x : Tid × List UInt8) (h : Tagged n x) (hnm : n ≤ m) :
    Tagged m x := by
  rcases h with h | ⟨i, h1, h2⟩
  · exact Or.inl h
  · exact Or.inr ⟨i, h1, by omega⟩

theorem tags_append (n : Nat) (tr : List (Tid × List UInt8)) (x : Tid × List UInt8)
    (h : ∀ y ∈ tr, Tagged n y) (hx : Tagged n x) : ∀ y ∈ tr ++ [x], Tagged n y := by
  intro y hy
  rcases List.mem_append.mp hy with h1 | h1
  · exact h y h1
  · simp only [List.mem_singleton] at h1
    exact h1 ▸ hx

theorem stepMain_tags (env : Spawner) (s : Sys) (h : ∀ x ∈ s.trace, Tagged s.workers.length x) :
    ∀ x ∈ (stepMain env s).trace, Tagged (stepMain env s).workers.length x := by
  unfold stepMain
  repeat' split
  all_goals first
    | exact h
    | exact tags_append _ _ _ h (Or.inl rfl)
    | (intro x hx
       exact tagged_mono _ _ x (h x hx) (by simp))

theorem stepWorker_tags (s : Sys) (i : Nat) (wk : Worker) (hwk : s.workers[i]? = some wk)
    (h : ∀ x ∈ s.trace, Tagged s.workers.length x) :
    ∀ x ∈ (stepWorker s i wk).trace, Tagged (stepWorker s i wk).workers.length x := by
  have hi := (List.getElem?_eq_some.mp hwk).1
  unfold stepWorker
  repeat' split
  all_goals first
    | exact h
    | (simp only [List.length_set]; exact h)
    | (simp only [List.length_set]; exact tags_append _ _ _ h (Or.inr ⟨i, rfl, hi⟩))

theorem step_tags (env : Spawner) (s : Sys) (t : Tid)
    (h : ∀ x ∈ s.trace, Tagged s.workers.length x) :
    ∀ x ∈ (step env s t).trace, Tagged (step env s t).workers.length x := by
  unfold step
  split
  · exact h
  · cases t with
    | main => exact stepMain_tags env s h
    | worker i =>
      simp only
      split
      · rename_i wk hwk
        exact stepWorker_tags s i wk hwk h
      · exact h

theorem run_tags (env : Spawner) (sched : List Tid) :
    ∀ s : Sys, (∀ x ∈ s.trace, Tagged s.workers.length x) →
      ∀ x ∈ (run env s sched).trace, Tagged (run env s sched).workers.length x := by
  induction sched with
  | nil => intro s h; exact h
  | cons t ts ih => intro s h; exact ih _ (step_tags env s t h)

theorem wrapCommandOpen_delivers (child : Child) (j : Job) (log : List String)
    (h : child.delivers) :
    wrapCommandOpen child j log =
      (logPrintf log ("[" ++ j.desc ++ "] start"),
       .ok (⟨child.stdout.data.drop 24, child.stdout.err⟩, child.stdout.data.take 24)) := by
  obtain ⟨h1, h2, h3⟩ := h
  unfold wrapCommandOpen
  simp only [h1, h2]
  rw [ReadFull_enough _ _ (by simpa using h3)]
  simp

theorem stage_le (s : Sys) : stage s ≤ 5 := by
  unfold stage
  repeat' split
  all_goals omega

theorem stage_once (s : Sys) (h : 5 ≤ stage s) : s.once = true := by
  unfold stage at h
  by_contra hc
  rw [if_neg hc] at h
  revert h
  repeat' split
  all_goals omega

theorem stage_step (env : Spawner) (out0 : List UInt8) (j : Job) (todo : List Job)
    (s : Sys) (t : Tid) (h : Inv out0 s) (hm : MainInv env (j :: todo) s)
    (hd : (env 0 j.command j.args).delivers) (hl : s.once = false → s.halted = none) :
    ((step env s t).once = false → (step env s t).halted = none) ∧
    min 5 (stage s + (if t = .main then 1 else 0)) ≤ stage (step env s t) := by
  by_cases ho : s.once = true
  · have h1 := step_once env s t ho
    refine ⟨fun hc => absurd (h1.symm.trans hc) (by simp), ?_⟩
    have : stage (step env s t) = 5 := by
      unfold stage
      rw [if_pos h1]
    omega
  · have hof : s.once = false := by simpa using ho
    have hh := hl hof
    have hph := h.phase
    rw [hof] at hph
    simp only [Bool.false_eq_true, if_false] at hph
    obtain ⟨hw0, hp1⟩ := hph
    cases t with
    | worker i =>
      have : step env s (.worker i) = s := by
        unfold step
        simp [hh, hw0]
      rw [this]
      refine ⟨hl, ?_⟩
      simp only [reduceCtorEq, if_false, Nat.add_zero]
      exact Nat.min_le_right _ _
    | main =>
      have hstep : step env s .main = stepMain env s := by
        unfold step
        simp [hh]
      rw [hstep]
      simp only [if_true]
      obtain ⟨hargs, ⟨done, hdone, hdesc⟩, hcnt, hall, hhdr, hhead, hfin, hbeg⟩ := hm
      have hmo := h.mainOk
      have hml := h.mainLock
      have hwl := h.workerLock
      have hd0 : done = [] := by
        have := congrArg List.length hdesc
        rw [hw0] at this
        exact List.length_eq_zero.mp (by simpa using this)
      subst hd0
      have hcnt0 := hcnt hh
      obtain ⟨osArgs, stdout, log, once, outLock, wg, started, main, workers, halted, trace⟩ := s
      simp only at hargs hdone hcnt0 hfin hof hh hw0 hmo hml hwl
      subst hof hh hw0
      unfold stepMain stage
      cases main with
      | start => simp [hargs]
      | loop td =>
        simp only [MainPc.todo, List.nil_append] at hdone
        subst hdone
        simp only [MainPc.opened, Bool.false_eq_true, if_false, List.length_nil,
          Nat.add_zero] at hcnt0
        subst hcnt0
        simp [wrapCommandOpen_delivers _ j log hd]
      | once j1 so lh td =>
        have hfree : outLock = none := by
          cases hlk : outLock with
          | none => rfl
          | some t0 =>
            cases t0 with
            | main =>
              rw [hlk] at hml
              simp [MainPc.holds] at hml
            | worker i =>
              have := (hwl i).mp hlk
              simp at this
        simp [hfree]
      | onceWrite j1 so lh td => simp
      | onceUnlock j1 so td => simp
      | spawn j1 so td => simp [MainPc.ok] at hmo
      | returned => simp at hfin

theorem stage_run (env : Spawner) (out0 : List UInt8) (j : Job) (todo : List Job)
    (hd : (env 0 j.command j.args).delivers) (sched : List Tid) :
    ∀ s : Sys, Inv out0 s → Core s → MainInv env (j :: todo) s →
      (s.once = false → s.halted = none) →
      min 5 (stage s + sched.count .main) ≤ stage (run env s sched) := by
  induction sched with
  | nil =>
    intro s _ _ _ _
    simp only [List.count_nil, Nat.add_zero, run, List.foldl_nil]
    exact Nat.min_le_right _ _
  | cons t ts ih =>
    intro s h hc hm hl
    obtain ⟨h1, h2⟩ := stage_step env out0 j todo s t h hm hd hl
    obtain ⟨h3, hc3, h4⟩ := invs_step env out0 (j :: todo) s t ⟨h, hc, hm⟩
    have := ih (step env s t) h3 hc3 h4 h1
    have hle := stage_le (step env s t)
    simp only [run, List.foldl_cons] at this ⊢
    rw [List.count_cons]
    by_cases ht : t = .main
    · subst ht
      simp only [if_true, beq_self_eq_true] at h2 ⊢
      omega
    · have hb : (t == Tid.main) = false := by simpa using ht
      simp only [ht, if_false, Nat.add_zero, hb, Bool.false_eq_true] at h2 ⊢
      omega

/-! ## Where the bytes on the output come from -/

theorem prov_init (env : Spawner) (jobs : List Job) (osArgs : List String) (w : Writer) :
    Prov env jobs (Sys.init osArgs w) := by
  refine ⟨trivial, ?_, ?_, ?_⟩ <;> simp [Sys.init]

theorem written_append (k : Nat) (a b : List (Tid × List UInt8)) :
    written k (a ++ b) = written k a ++ written k b := by
  simp [written, List.filter_append, traceBytes_append]

theorem written_self (i : Nat) (b : List UInt8) : written i [(.worker i, b)] = b := by
  simp [written, traceBytes]

theorem written_main (k : Nat) (b : List UInt8) : written k [(.main, b)] = [] := by
  simp [written, traceBytes]

theorem written_fresh (n k : Nat) (tr : List (Tid × List UInt8))
    (h : ∀ x ∈ tr, Tagged n x) (hk : n ≤ k) : written k tr = [] := by
  have : tr.filter (fun x => decide (x.1 = .worker k)) = [] := by
    rw [List.filter_eq_nil_iff]
    intro x hx
    rcases h x hx with h1 | ⟨i, h1, h2⟩
    · simp [h1]
    · have : ¬ i = k := by omega
      simp [h1, this]
  simp [written, this, traceBytes]

theorem tags_mono (n m : Nat) (tr : List (Tid × List UInt8))
    (h : ∀ x ∈ tr, Tagged n x) (hnm : n ≤ m) : ∀ x ∈ tr, Tagged m x :=
  fun x hx => tagged_mono n m x (h x hx) hnm

theorem prov_stepMain (env : Spawner) (out0 : List UInt8) (jobs : List Job) (s : Sys)
    (h : Inv out0 s) (hm : MainInv env jobs s) (hp : Prov env jobs s) (hh : s.halted = none) :
    Prov env jobs (stepMain env s) := by
  obtain ⟨hsrc, hpre, heq, htags⟩ := hp
  have hcnt := hm.cnt hh
  obtain ⟨done, hdone, hdesc⟩ := hm.prog
  have hlen : done.length = s.workers.length := by
    have := congrArg List.length hdesc
    simpa using this
  have hrel := h.reliable
  obtain ⟨osArgs, stdout, log, once, outLock, wg, started, main, workers, halted, trace⟩ := s
  simp only at hsrc hpre heq htags hcnt hdone hlen hh hrel
  subst hh
  simp only [forall_const] at heq
  unfold stepMain
  cases main with
  | start =>
    simp only
    split
    · exact ⟨trivial, hpre, by simp, htags⟩
    · exact ⟨trivial, hpre, fun _ => heq, htags⟩
  | loop todo =>
    cases todo with
    | nil =>
      simp only
      split
      · exact ⟨trivial, hpre, by simp, htags⟩
      · exact ⟨trivial, hpre, fun _ => heq, htags⟩
    | cons j todo =>
      simp only
      simp only [MainPc.opened, Bool.false_eq_true, if_false, Nat.add_zero] at hcnt
      subst hcnt
      rcases hopen : wrapCommandOpen (env workers.length j.command j.args) j log with ⟨log1, res⟩
      cases res with
      | error e => exact ⟨trivial, hpre, by simp, htags⟩
      | ok v =>
        obtain ⟨so, lh⟩ := v
        obtain ⟨_, _, _, _, hso, _⟩ := wrapCommandOpen_ok _ _ _ _ _ _ hopen
        refine ⟨?_, hpre, fun _ => heq, htags⟩
        simp only [hso, sourceRecords]
  | once j so lh todo =>
    simp only
    split
    · exact ⟨hsrc, hpre, fun _ => heq, htags⟩
    · split
      · exact ⟨hsrc, hpre, fun _ => heq, htags⟩
      · exact ⟨hsrc, hpre, fun _ => heq, htags⟩
  | onceWrite j so lh todo =>
    simp only
    rw [Write_reliable _ _ hrel]
    simp only [List.take_length]
    refine ⟨hsrc, ?_, fun _ => ?_, tags_append _ _ _ htags (Or.inl rfl)⟩
    · intro k wk j1 h1 h2
      rw [written_append, written_main, List.append_nil]
      exact hpre k wk j1 h1 h2
    · intro k wk j1 h1 h2 h3
      rw [written_append, written_main, List.append_nil]
      exact heq k wk j1 h1 h2 h3
  | onceUnlock j so todo => exact ⟨hsrc, hpre, fun _ => heq, htags⟩
  | spawn j so todo =>
    simp only [MainPc.todo] at hdone
    have hjob : jobs[workers.length]? = some j := by
      rw [hdone]
      exact getElem?_append_cons_length done todo j _ hlen
    have hnew : ∀ k wk, (workers ++ [({ desc := j.desc, l := Locals.init so, pc := .top } : Worker)])[k]?
        = some wk → workers[k]? = some wk ∨
          (k = workers.length ∧ wk = { desc := j.desc, l := Locals.init so, pc := .top }) := by
      intro k wk hk
      by_cases hkl : k < workers.length
      · rw [List.getElem?_append_left hkl] at hk
        exact Or.inl hk
      · rw [List.getElem?_append_right (by omega)] at hk
        cases hd : k - workers.length with
        | zero =>
          rw [hd] at hk
          simp only [List.getElem?_cons_zero, Option.some.injEq] at hk
          exact Or.inr ⟨by omega, hk.symm⟩
        | succ m =>
          rw [hd] at hk
          simp at hk
    refine ⟨trivial, ?_, fun _ => ?_, tags_mono _ _ _ htags (by simp)⟩
    · intro k wk j1 h1 h2
      rcases hnew k wk h1 with h3 | ⟨h3, _⟩
      · exact hpre k wk j1 h3 h2
      · rw [written_fresh _ k _ htags (by omega)]
        exact List.nil_prefix
    · intro k wk j1 h1 h2 h3
      rcases hnew k wk h1 with h4 | ⟨h4, h5⟩
      · exact heq k wk j1 h4 h2 h3
      · rw [written_fresh _ k _ htags (by omega)]
        subst h4 h5
        rw [hjob] at h2
        cases h2
        simpa [inflight, Locals.init] using hsrc
  | returned => exact ⟨trivial, hpre, fun _ => heq, htags⟩

theorem written_extra_other (k i : Nat) (extra : List (Tid × List UInt8))
    (hx : ∀ x ∈ extra, x.1 = .worker i) (h : k ≠ i) : written k extra = [] := by
  have : extra.filter (fun x => decide (x.1 = .worker k)) = [] := by
    rw [List.filter_eq_nil_iff]
    intro x hx1
    have : ¬ i = k := fun hc => h hc.symm
    simp [hx x hx1, this]
  simp [written, this, traceBytes]

theorem prefix_of_parts (a b c d : List UInt8) (h : a ++ b ++ c = d) : a <+: d :=
  ⟨b ++ c, by rw [← h, List.append_assoc]⟩

/-- A step of the goroutine `i` keeps the account of where the bytes come
from, given that it does so for the goroutine `i` itself. -/
theorem prov_worker (env : Spawner) (jobs : List Job) (s t : Sys) (i : Nat)
    (wk wk1 : Worker) (extra : List (Tid × List UInt8))
    (hp : Prov env jobs s) (hwk : s.workers[i]? = some wk)
    (e1 : t.main = s.main) (e3 : t.workers = s.workers.set i wk1)
    (e5 : t.halted = none → s.halted = none) (e6 : t.trace = s.trace ++ extra)
    (hx : ∀ x ∈ extra, x.1 = .worker i)
    (hi_pre : ∀ j, jobs[i]? = some j → written i (s.trace ++ extra) <+: sourceRecords env i j)
    (hi_eq : t.halted = none → ∀ j, jobs[i]? = some j → wk1.pc.active = true →
      written i (s.trace ++ extra) ++ inflight wk1 ++ wk1.l.stream.data
        = sourceRecords env i j) :
    Prov env jobs t := by
  obtain ⟨hsrc, hpre, heq, htags⟩ := hp
  have hlen : t.workers.length = s.workers.length := by rw [e3, List.length_set]
  have hi := (List.getElem?_eq_some.mp hwk).1
  refine ⟨?_, ?_, ?_, ?_⟩
  · rw [e1, hlen]
    exact hsrc
  · intro k wk2 j h1 h2
    rw [e3, getElem?_set_worker _ i k wk wk1 hwk] at h1
    rw [e6]
    by_cases hik : i = k
    · subst hik
      exact hi_pre j h2
    · simp only [hik, if_false] at h1
      rw [written_append, written_extra_other k i extra hx (fun hc => hik hc.symm),
        List.append_nil]
      exact hpre k wk2 j h1 h2
  · intro hh k wk2 j h1 h2 h3
    rw [e3, getElem?_set_worker _ i k wk wk1 hwk] at h1
    rw [e6]
    by_cases hik : i = k
    · subst hik
      simp only [if_true, Option.some.injEq] at h1
      subst h1
      exact hi_eq hh j h2 h3
    · simp only [hik, if_false] at h1
      rw [written_append, written_extra_other k i extra hx (fun hc => hik hc.symm),
        List.append_nil]
      exact heq (e5 hh) k wk2 j h1 h2 h3
  · rw [e6, hlen]
    intro x hx1
    rcases List.mem_append.mp hx1 with h1 | h1
    · exact htags x h1
    · exact Or.inr ⟨i, hx x h1, hi⟩

theorem prov_stepWorker (env : Spawner) (out0 : List UInt8) (jobs : List Job) (s : Sys)
    (i : Nat) (wk : Worker) (h : Inv out0 s) (hp : Prov env jobs s) (hh : s.halted = none)
    (hwk : s.workers[i]? = some wk) : Prov env jobs (stepWorker s i wk) := by
  have hokw : wk.ok := h.workersOk wk (mem_of_getElem?_some _ _ _ hwk)
  have hpre := hp.pre i wk
  have heq := hp.eq hh i wk
  unfold stepWorker
  obtain ⟨desc, l, pc⟩ := wk
  cases pc with
  | top =>
    simp only
    rcases hrd : readRecord desc l s.log with ⟨l1, log1, f⟩
    cases f with
    | stop =>
      exact prov_worker env jobs s _ i _ ⟨desc, l1, .finish⟩ [] hp hwk rfl rfl (fun _ => hh)
        (List.append_nil _).symm (by simp)
        (fun j hj => by rw [List.append_nil]; exact hpre j hwk hj)
        (fun _ j hj ha => by simp [WorkerPc.active] at ha)
    | fault =>
      exact prov_worker env jobs s _ i _ ⟨desc, l1, .top⟩ [] hp hwk rfl rfl (fun _ => hh)
        (List.append_nil _).symm (by simp)
        (fun j hj => by rw [List.append_nil]; exact hpre j hwk hj)
        (fun hc => by simp at hc)
    | record n =>
      have hsp := readRecord_spec desc l l1 s.log log1 n hokw.1 hrd
      have hnew : ∀ j, jobs[i]? = some j →
          written i (s.trace ++ []) ++ (l1.header ++ l1.packetBuf.take n) ++ l1.stream.data
            = sourceRecords env i j := by
        intro j hj
        have := heq j hwk hj rfl
        simp only [inflight, List.append_nil] at this
        rw [List.append_nil, ← this, hsp.2.2.2.2.1]
        simp only [List.append_assoc]
      exact prov_worker env jobs s _ i _ ⟨desc, l1, .lock n⟩ [] hp hwk rfl rfl (fun _ => hh)
        (List.append_nil _).symm (by simp)
        (fun j hj => prefix_of_parts _ _ _ _ (hnew j hj))
        (fun _ j hj _ => hnew j hj)
  | lock n =>
    simp only
    split
    · have hnew : ∀ j, jobs[i]? = some j →
          written i (s.trace ++ []) ++ (l.header ++ l.packetBuf.take n) ++ l.stream.data
            = sourceRecords env i j := by
        intro j hj
        have := heq j hwk hj rfl
        simpa only [inflight, List.append_nil] using this
      exact prov_worker env jobs s _ i _ ⟨desc, l, .writeHeader n⟩ [] hp hwk rfl rfl
        (fun _ => hh) (List.append_nil _).symm (by simp)
        (fun j hj => prefix_of_parts _ _ _ _ (hnew j hj))
        (fun _ j hj _ => hnew j hj)
    · exact hp
  | writeHeader n =>
    simp only
    rw [Write_reliable _ _ h.reliable]
    simp only [List.take_length]
    have hnew : ∀ j, jobs[i]? = some j →
        written i (s.trace ++ [(.worker i, l.header)]) ++ l.packetBuf.take n ++ l.stream.data
          = sourceRecords env i j := by
      intro j hj
      have := heq j hwk hj rfl
      simp only [inflight] at this
      rw [written_append, written_self, ← this]
      simp only [List.append_assoc]
    exact prov_worker env jobs s _ i _ ⟨desc, l, .writePacket n none⟩ _ hp hwk rfl rfl
      (fun _ => hh) rfl (by simp)
      (fun j hj => prefix_of_parts _ _ _ _ (hnew j hj))
      (fun _ j hj _ => hnew j hj)
  | writePacket n e1 =>
    simp only
    rw [Write_reliable _ _ h.reliable]
    simp only [List.take_length]
    have hnew : ∀ j, jobs[i]? = some j →
        written i (s.trace ++ [(.worker i, l.packetBuf.take n)]) ++ [] ++ l.stream.data
          = sourceRecords env i j := by
      intro j hj
      have := heq j hwk hj rfl
      simp only [inflight] at this
      rw [written_append, written_self, ← this]
      simp only [List.append_assoc, List.append_nil]
    exact prov_worker env jobs s _ i _ ⟨desc, l, .unlock e1 none⟩ _ hp hwk rfl rfl
      (fun _ => hh) rfl (by simp)
      (fun j hj => prefix_of_parts _ _ _ _ (hnew j hj))
      (fun _ j hj _ => hnew j hj)
  | unlock e1 e2 =>
    have hnew : ∀ j, jobs[i]? = some j →
        written i (s.trace ++ []) ++ [] ++ l.stream.data = sourceRecords env i j := by
      intro j hj
      have := heq j hwk hj rfl
      simpa only [inflight, List.append_nil] using this
    exact prov_worker env jobs s _ i _ ⟨desc, l, .check e1 e2⟩ [] hp hwk rfl rfl
      (fun _ => hh) (List.append_nil _).symm (by simp)
      (fun j hj => prefix_of_parts _ _ _ _ (hnew j hj))
      (fun _ j hj _ => hnew j hj)
  | check e1 e2 =>
    simp only
    have hnew : ∀ j, jobs[i]? = some j →
        written i (s.trace ++ []) ++ [] ++ l.stream.data = sourceRecords env i j := by
      intro j hj
      have := heq j hwk hj rfl
      simpa only [inflight, List.append_nil] using this
    rcases hcw : checkWrites desc e1 e2 s.log with ⟨log1, b⟩
    cases b with
    | true =>
      exact prov_worker env jobs s _ i _ ⟨desc, l, .top⟩ [] hp hwk rfl rfl
        (fun _ => hh) (List.append_nil _).symm (by simp)
        (fun j hj => prefix_of_parts _ _ _ _ (hnew j hj))
        (fun _ j hj _ => hnew j hj)
    | false =>
      exact prov_worker env jobs s _ i _ ⟨desc, l, .finish⟩ [] hp hwk rfl rfl
        (fun _ => hh) (List.append_nil _).symm (by simp)
        (fun j hj => prefix_of_parts _ _ _ _ (hnew j hj))
        (fun _ j hj ha => by simp [WorkerPc.active] at ha)
  | finish =>
    exact prov_worker env jobs s _ i _ ⟨desc, l, .closed⟩ [] hp hwk rfl rfl
      (fun _ => hh) (List.append_nil _).symm (by simp)
      (fun j hj => by rw [List.append_nil]; exact hpre j hwk hj)
      (fun _ j hj ha => by simp [WorkerPc.active] at ha)
  | closed => exact hp

theorem allInvs_step (env : Spawner) (out0 : List UInt8) (jobs : List Job) (s : Sys) (t : Tid)
    (h : Inv out0 s ∧ Core s ∧ MainInv env jobs s ∧ Prov env jobs s) :
    Inv out0 (step env s t) ∧ Core (step env s t) ∧ MainInv env jobs (step env s t) ∧
      Prov env jobs (step env s t) := by
  obtain ⟨h1, hc, h2, h3⟩ := h
  obtain ⟨h4, hc4, h5⟩ := invs_step env out0 jobs s t ⟨h1, hc, h2⟩
  refine ⟨h4, hc4, h5, ?_⟩
  unfold step
  split
  · exact h3
  · rename_i hh
    cases t with
    | main => exact prov_stepMain env out0 jobs s h1 h2 h3 hh
    | worker i =>
      simp only
      split
      · rename_i wk hwk
        exact prov_stepWorker env out0 jobs s i wk h1 h3 hh hwk
      · exact h3

theorem allInvs_run (env : Spawner) (out0 : List UInt8) (jobs : List Job) (sched : List Tid) :
    ∀ s, Inv out0 s ∧ Core s ∧ MainInv env jobs s ∧ Prov env jobs s →
      Inv out0 (run env s sched) ∧ Core (run env s sched) ∧ MainInv env jobs (run env s sched) ∧
        Prov env jobs (run env s sched) := by
  induction sched with
  | nil => intro s h; exact h
  | cons t ts ih => intro s h; exact ih _ (allInvs_step env out0 jobs s t h)

/-! ## A goroutine alone is `wrapStream` -/

theorem step_worker_eq (env : Spawner) (s : Sys) (i : Nat) (wk : Worker)
    (hh : s.halted = none) (hwk : s.workers[i]? = some wk) :
    step env s (.worker i) = stepWorker s i wk := by
  unfold step
  simp [hh, hwk]

theorem run_append (env : Spawner) (s : Sys) (a b : List Tid) :
    run env s (a ++ b) = run env (run env s a) b := by
  simp [run, List.foldl_append]

theorem run_nil (env : Spawner) (s : Sys) : run env s [] = s := rfl

theorem run_cons (env : Spawner) (s : Sys) (t : Tid) (ts : List Tid) :
    run env s (t :: ts) = run env (step env s t) ts := rfl

theorem run_halted (env : Spawner) (sched : List Tid) :
    ∀ s : Sys, s.halted ≠ none → run env s sched = s := by
  induction sched with
  | nil => intro s _; rfl
  | cons t ts ih =>
    intro s h
    have : step env s t = s := by
      unfold step
      cases hh : s.halted with
      | none => exact absurd hh h
      | some x => rfl
    rw [run_cons, this]
    exact ih s h

theorem run_closed (env : Spawner) (i : Nat) (n : Nat) :
    ∀ (s : Sys) (wk : Worker), s.workers[i]? = some wk → wk.pc = .closed →
      run env s (List.replicate n (.worker i)) = s := by
  induction n with
  | zero => intro s wk _ _; rfl
  | succ n ih =>
    intro s wk hwk hpc
    have : step env s (.worker i) = s := by
      unfold step
      cases hh : s.halted with
      | some x => rfl
      | none =>
        simp only [hwk]
        unfold stepWorker
        rw [hpc]
    rw [List.replicate_succ, run_cons, this]
    exact ih s wk hwk hpc

theorem set_get_self (workers : List Worker) (i : Nat) (wk x : Worker)
    (hwk : workers[i]? = some wk) : (workers.set i x)[i]? = some x := by
  rw [getElem?_set_worker workers i i wk x hwk]
  simp

theorem replicate_split (m n : Nat) (t : Tid) (h : n ≤ m) :
    List.replicate m t = List.replicate n t ++ List.replicate (m - n) t := by
  rw [← List.replicate_add]
  congr 1
  omega

/-- One iteration of the loop of `wrapStream`, taken alone by the goroutine `i`
of the process (nobody holds `outLock`), does what `wrapStreamIter` does: when
the loop goes on, six steps bring the goroutine back to the top of the loop;
when the loop ends, seven steps or more end the goroutine; when the slice
faults, one step or more ends the process. -/
theorem worker_iteration (env : Spawner) (s : Sys) (i : Nat) (desc : String)
    (l l1 : Locals) (w1 : World) (fl : Flow)
    (hh : s.halted = none) (hlk : s.outLock = none)
    (hwk : s.workers[i]? = some ⟨desc, l, .top⟩)
    (hit : wrapStreamIter desc l ⟨s.stdout, s.log⟩ = (l1, w1, fl)) :
    (fl = .again →
      (run env s (List.replicate 6 (.worker i))).stdout = w1.stdout ∧
      (run env s (List.replicate 6 (.worker i))).log = w1.log ∧
      (run env s (List.replicate 6 (.worker i))).halted = none ∧
      (run env s (List.replicate 6 (.worker i))).outLock = none ∧
      (run env s (List.replicate 6 (.worker i))).workers[i]? = some ⟨desc, l1, .top⟩) ∧
    (fl = .done → ∀ m, 7 ≤ m →
      (run env s (List.replicate m (.worker i))).stdout = w1.stdout ∧
      (run env s (List.replicate m (.worker i))).log = w1.log ∧
      (run env s (List.replicate m (.worker i))).halted = none ∧
      (run env s (List.replicate m (.worker i))).workers[i]? = some ⟨desc, l1, .closed⟩) ∧
    (fl = .panicked → ∀ m, 1 ≤ m →
      (run env s (List.replicate m (.worker i))).stdout = w1.stdout ∧
      (run env s (List.replicate m (.worker i))).log = w1.log ∧
      (run env s (List.replicate m (.worker i))).halted = some .crashed) := by
  obtain ⟨osArgs, stdout, log, once, outLock, wg, started, main, workers, halted, trace⟩ := s
  simp only at hh hlk hwk hit
  subst hh hlk
  unfold wrapStreamIter at hit
  simp only at hit
  rcases hrd : readRecord desc l log with ⟨l2, log2, f⟩
  rw [hrd] at hit
  cases f with
  | stop =>
    simp only [Prod.mk.injEq] at hit
    obtain ⟨h1, h2, h3⟩ := hit
    subst h1 h2 h3
    refine ⟨by simp, ?_, by simp⟩
    intro _ m hm
    have hs1 : step env
        { osArgs := osArgs, stdout := stdout, log := log, once := once, outLock := none,
          wg := wg, started := started, main := main, workers := workers, halted := none,
          trace := trace } (.worker i) =
        { osArgs := osArgs, stdout := stdout, log := log2, once := once, outLock := none,
          wg := wg, started := started, main := main,
          workers := workers.set i ⟨desc, l2, .finish⟩, halted := none, trace := trace } := by
      rw [step_worker_eq env _ i _ rfl hwk]
      simp only [stepWorker, hrd]
    have hs2 : step env
        { osArgs := osArgs, stdout := stdout, log := log2, once := once, outLock := none,
          wg := wg, started := started, main := main,
          workers := workers.set i ⟨desc, l2, .finish⟩, halted := none, trace := trace }
          (.worker i) =
        { osArgs := osArgs, stdout := stdout, log := log2, once := once, outLock := none,
          wg := wg - 1, started := started, main := main,
          workers := workers.set i ⟨desc, l2, .closed⟩, halted := none, trace := trace } := by
      rw [step_worker_eq env _ i _ rfl (set_get_self _ i _ _ hwk)]
      simp only [stepWorker, List.set_set]
    rw [replicate_split m 2 _ (by omega), run_append]
    simp only [List.replicate, run_cons, run_nil, hs1, hs2]
    rw [run_closed env i (m - 2) _ ⟨desc, l2, .closed⟩ (set_get_self _ i _ _ hwk) rfl]
    exact ⟨rfl, rfl, rfl, set_get_self _ i _ _ hwk⟩
  | fault =>
    simp only [Prod.mk.injEq] at hit
    obtain ⟨h1, h2, h3⟩ := hit
    subst h1 h2 h3
    refine ⟨by simp, by simp, ?_⟩
    intro _ m hm
    have hs1 : step env
        { osArgs := osArgs, stdout := stdout, log := log, once := once, outLock := none,
          wg := wg, started := started, main := main, workers := workers, halted := none,
          trace := trace } (.worker i) =
        { osArgs := osArgs, stdout := stdout, log := log2, once := once, outLock := none,
          wg := wg, started := started, main := main,
          workers := workers.set i ⟨desc, l2, .top⟩, halted := some .crashed,
          trace := trace } := by
      rw [step_worker_eq env _ i _ rfl hwk]
      simp only [stepWorker, hrd]
    rw [replicate_split m 1 _ hm, run_append]
    simp only [List.replicate, run_cons, run_nil, hs1]
    rw [run_halted env _ _ (by simp)]
    exact ⟨rfl, rfl, rfl⟩
  | record n =>
    simp only at hit
    rcases hw1 : Write stdout l2.header with ⟨out1, k1, err1⟩
    rw [hw1] at hit
    simp only at hit
    rcases hw2 : Write out1 (List.take n l2.packetBuf) with ⟨out2, k2, err2⟩
    rw [hw2] at hit
    simp only at hit
    rcases hcw : checkWrites desc err1 err2 log2 with ⟨log3, b⟩
    rw [hcw] at hit
    have hs1 : step env
        { osArgs := osArgs, stdout := stdout, log := log, once := once, outLock := none,
          wg := wg, started := started, main := main, workers := workers, halted := none,
          trace := trace } (.worker i) =
        { osArgs := osArgs, stdout := stdout, log := log2, once := once, outLock := none,
          wg := wg, started := started, main := main,
          workers := workers.set i ⟨desc, l2, .lock n⟩, halted := none, trace := trace } := by
      rw [step_worker_eq env _ i _ rfl hwk]
      simp only [stepWorker, hrd]
    have hs2 : step env
        { osArgs := osArgs, stdout := stdout, log := log2, once := once, outLock := none,
          wg := wg, started := started, main := main,
          workers := workers.set i ⟨desc, l2, .lock n⟩, halted := none, trace := trace }
          (.worker i) =
        { osArgs := osArgs, stdout := stdout, log := log2, once := once,
          outLock := some (.worker i), wg := wg, started := started, main := main,
          workers := workers.set i ⟨desc, l2, .writeHeader n⟩, halted := none,
          trace := trace } := by
      rw [step_worker_eq env _ i _ rfl (set_get_self _ i _ _ hwk)]
      simp only [stepWorker, if_true, List.set_set]
    have hs3 : step env
        { osArgs := osArgs, stdout := stdout, log := log2, once := once,
          outLock := some (.worker i), wg := wg, started := started, main := main,
          workers := workers.set i ⟨desc, l2, .writeHeader n⟩, halted := none,
          trace := trace } (.worker i) =
        { osArgs := osArgs, stdout := out1, log := log2, once := once,
          outLock := some (.worker i), wg := wg, started := started, main := main,
          workers := workers.set i ⟨desc, l2, .writePacket n err1⟩, halted := none,
          trace := trace ++ [(.worker i, l2.header.take k1)] } := by
      rw [step_worker_eq env _ i _ rfl (set_get_self _ i _ _ hwk)]
      simp only [stepWorker, hw1, List.set_set]
    have hs4 : step env
        { osArgs := osArgs, stdout := out1, log := log2, once := once,
          outLock := some (.worker i), wg := wg, started := started, main := main,
          workers := workers.set i ⟨desc, l2, .writePacket n err1⟩, halted := none,
          trace := trace ++ [(.worker i, l2.header.take k1)] } (.worker i) =
        { osArgs := osArgs, stdout := out2, log := log2, once := once,
          outLock := some (.worker i), wg := wg, started := started, main := main,
          workers := workers.set i ⟨desc, l2, .unlock err1 err2⟩, halted := none,
          trace := trace ++ [(.worker i, l2.header.take k1)] ++
            [(.worker i, (l2.packetBuf.take n).take k2)] } := by
      rw [step_worker_eq env _ i _ rfl (set_get_self _ i _ _ hwk)]
      simp only [stepWorker, hw2, List.set_set]
    have hs5 : step env
        { osArgs := osArgs, stdout := out2, log := log2, once := once,
          outLock := some (.worker i), wg := wg, started := started, main := main,
          workers := workers.set i ⟨desc, l2, .unlock err1 err2⟩, halted := none,
          trace := trace ++ [(.worker i, l2.header.take k1)] ++
            [(.worker i, (l2.packetBuf.take n).take k2)] } (.worker i) =
        { osArgs := osArgs, stdout := out2, log := log2, once := once,
          outLock := none, wg := wg, started := started, main := main,
          workers := workers.set i ⟨desc, l2, .check err1 err2⟩, halted := none,
          trace := trace ++ [(.worker i, l2.header.take k1)] ++
            [(.worker i, (l2.packetBuf.take n).take k2)] } := by
      rw [step_worker_eq env _ i _ rfl (set_get_self _ i _ _ hwk)]
      simp only [stepWorker, List.set_set]
    cases b with
    | true =>
      simp only [Prod.mk.injEq] at hit
      obtain ⟨h1, h2, h3⟩ := hit
      subst h1 h2 h3
      refine ⟨?_, by simp, by simp⟩
      intro _
      have hs6 : step env
          { osArgs := osArgs, stdout := out2, log := log2, once := once,
            outLock := none, wg := wg, started := started, main := main,
            workers := workers.set i ⟨desc, l2, .check err1 err2⟩, halted := none,
            trace := trace ++ [(.worker i, l2.header.take k1)] ++
              [(.worker i, (l2.packetBuf.take n).take k2)] } (.worker i) =
          { osArgs := osArgs, stdout := out2, log := log3, once := once,
            outLock := none, wg := wg, started := started, main := main,
            workers := workers.set i ⟨desc, l2, .top⟩, halted := none,
            trace := trace ++ [(.worker i, l2.header.take k1)] ++
              [(.worker i, (l2.packetBuf.take n).take k2)] } := by
        rw [step_worker_eq env _ i _ rfl (set_get_self _ i _ _ hwk)]
        simp only [stepWorker, hcw, List.set_set]
      simp only [List.replicate, run_cons, run_nil, hs1, hs2, hs3, hs4, hs5, hs6]
      exact ⟨trivial, trivial, trivial, trivial, set_get_self _ i _ _ hwk⟩
    | false =>
      simp only [Prod.mk.injEq] at hit
      obtain ⟨h1, h2, h3⟩ := hit
      subst h1 h2 h3
      refine ⟨by simp, ?_, by simp⟩
      intro _ m hm
      have hs6 : step env
          { osArgs := osArgs, stdout := out2, log := log2, once := once,
            outLock := none, wg := wg, started := started, main := main,
            workers := workers.set i ⟨desc, l2, .check err1 err2⟩, halted := none,
            trace := trace ++ [(.worker i, l2.header.take k1)] ++
              [(.worker i, (l2.packetBuf.take n).take k2)] } (.worker i) =
          { osArgs := osArgs, stdout := out2, log := log3, once := once,
            outLock := none, wg := wg, started := started, main := main,
            workers := workers.set i ⟨desc, l2, .finish⟩, halted := none,
            trace := trace ++ [(.worker i, l2.header.take k1)] ++
              [(.worker i, (l2.packetBuf.take n).take k2)] } := by
        rw [step_worker_eq env _ i _ rfl (set_get_self _ i _ _ hwk)]
        simp only [stepWorker, hcw, List.set_set]
      have hs7 : step env
          { osArgs := osArgs, stdout := out2, log := log3, once := once,
            outLock := none, wg := wg, started := started, main := main,
            workers := workers.set i ⟨desc, l2, .finish⟩, halted := none,
            trace := trace ++ [(.worker i, l2.header.take k1)] ++
              [(.worker i, (l2.packetBuf.take n).take k2)] } (.worker i) =
          { osArgs := osArgs, stdout := out2, log := log3, once := once,
            outLock := none, wg := wg - 1, started := started, main := main,
            workers := workers.set i ⟨desc, l2, .closed⟩, halted := none,
            trace := trace ++ [(.worker i, l2.header.take k1)] ++
              [(.worker i, (l2.packetBuf.take n).take k2)] } := by
        rw [step_worker_eq env _ i _ rfl (set_get_self _ i _ _ hwk)]
        simp only [stepWorker, List.set_set]
      rw [replicate_split m 7 _ hm, run_append]
      simp only [List.replicate, run_cons, run_nil, hs1, hs2, hs3, hs4, hs5, hs6, hs7]
      rw [run_closed env i (m - 7) _ ⟨desc, l2, .closed⟩ (set_get_self _ i _ _ hwk) rfl]
      exact ⟨rfl, rfl, rfl, set_get_self _ i _ _ hwk⟩

/-- The goroutine `i` of the process, left alone at the top of its loop with
nobody holding `outLock`, does what `wrapStream` does: once it has been given
enough steps, the output and the log are those of `wrapStream`, and the process
has crashed if `wrapStream` panics, or else still runs with the goroutine
ended. -/
theorem worker_alone (env : Spawner) (i : Nat) (desc : String) :
    ∀ (fuel : Nat) (s : Sys) (l : Locals) (f : Finished),
      s.halted = none → s.outLock = none → s.workers[i]? = some ⟨desc, l, .top⟩ →
      wrapStreamLoop desc fuel l ⟨s.stdout, s.log⟩ = some f →
      ∃ n, ∀ m, n ≤ m →
        (run env s (List.replicate m (.worker i))).stdout = f.world.stdout ∧
        (run env s (List.replicate m (.worker i))).log = f.world.log ∧
        (run env s (List.replicate m (.worker i))).halted =
          (if f.panicked = true then some .crashed else none) ∧
        (f.panicked = false →
          ∃ l1, (run env s (List.replicate m (.worker i))).workers[i]?
            = some ⟨desc, l1, .closed⟩) := by
  intro fuel
  induction fuel with
  | zero => intro s l f _ _ _ h; simp [wrapStreamLoop] at h
  | succ k ih =>
    intro s l f hh hlk hwk hloop
    unfold wrapStreamLoop at hloop
    rcases hit : wrapStreamIter desc l ⟨s.stdout, s.log⟩ with ⟨l1, w1, fl⟩
    rw [hit] at hloop
    obtain ⟨hagain, hdone, hpan⟩ := worker_iteration env s i desc l l1 w1 fl hh hlk hwk hit
    cases fl with
    | done =>
      simp only [Option.some.injEq] at hloop
      subst hloop
      refine ⟨7, fun m hm => ?_⟩
      obtain ⟨a, b, c, d⟩ := hdone rfl m hm
      exact ⟨a, b, by simpa using c, fun _ => ⟨l1, d⟩⟩
    | panicked =>
      simp only [Option.some.injEq] at hloop
      subst hloop
      refine ⟨1, fun m hm => ?_⟩
      obtain ⟨a, b, c⟩ := hpan rfl m hm
      exact ⟨a, b, by simpa using c, fun hc => by simp at hc⟩
    | again =>
      simp only [Option.map_eq_some'] at hloop
      obtain ⟨g, hg, hgf⟩ := hloop
      subst hgf
      obtain ⟨a, b, c, d, e⟩ := hagain rfl
      have hg2 : wrapStreamLoop desc k l1
          ⟨(run env s (List.replicate 6 (.worker i))).stdout,
           (run env s (List.replicate 6 (.worker i))).log⟩ = some g := by
        rw [a, b]
        exact hg
      obtain ⟨n, hn⟩ := ih _ l1 g c d e hg2
      refine ⟨6 + n, fun m hm => ?_⟩
      rw [replicate_split m 6 _ (by omega), run_append]
      exact hn (m - 6) (by omega)

/-! ## The scenario of two sources -/

/-- The scenario of two sources, run to its end: the output is the global
header of the first source, then the two records whole, here the record of the
second source first; the global header of the second source is not written;
`main` returns. -/
theorem two_sources_end_to_end :
    twoSourcesDone.halted = some (.exit 0) ∧
    twoSourcesDone.stdout.out =
      List.replicate 24 0xaa ++
        [1, 2, 3, 4, 5, 6, 7, 8, 2, 0, 0, 0, 2, 0, 0, 0, 0xca, 0xfe] ++
        [1, 2, 3, 4, 5, 6, 7, 8, 4, 0, 0, 0, 4, 0, 0, 0, 0xde, 0xad, 0xbe, 0xef] ∧
    twoSourcesDone.trace.map Prod.fst =
      [.main, .worker 1, .worker 1, .worker 0, .worker 0] ∧
    twoSourcesDone.log = ["[a] start", "[b] start", "[pcapmux exiting]"] := by
  decide

/-! ## The steps of the main goroutine -/

theorem stepWorker_frame (s : Sys) (i : Nat) (wk : Worker) :
    (stepWorker s i wk).main = s.main ∧
    (stepWorker s i wk).workers.length = s.workers.length ∧
    (stepWorker s i wk).started = s.started ∧
    (stepWorker s i wk).once = s.once ∧
    (stepWorker s i wk).osArgs = s.osArgs ∧
    ((stepWorker s i wk).halted = s.halted ∨ (stepWorker s i wk).halted = some .crashed) := by
  unfold stepWorker
  repeat' split
  all_goals simp

theorem wrapCommandOpen_error (child : Child) (j : Job) (log log1 : List String) (e : GoError)
    (h : wrapCommandOpen child j log = (log1, .error e)) : ¬ child.delivers := by
  intro hd
  rw [wrapCommandOpen_delivers child j log hd] at h
  simp at h

theorem mainSrc_init (env : Spawner) (osArgs : List String) (w : Writer) :
    MainSrc env (Sys.init osArgs w) := by
  simp [MainSrc, Sys.init]

theorem mainSrc_stepMain (env : Spawner) (jobs : List Job) (s : Sys)
    (hm : MainInv env jobs s) (hp : MainSrc env s) (hh : s.halted = none) :
    MainSrc env (stepMain env s) := by
  have hcnt := hm.cnt hh
  obtain ⟨osArgs, stdout, log, once, outLock, wg, started, main, workers, halted, trace⟩ := s
  simp only at hp hcnt hh
  unfold stepMain
  cases main with
  | start =>
    simp only
    split <;> exact trivial
  | loop todo =>
    cases todo with
    | nil =>
      simp only
      split <;> exact trivial
    | cons j todo =>
      simp only
      simp only [MainPc.opened, Bool.false_eq_true, if_false, Nat.add_zero] at hcnt
      subst hcnt
      rcases hopen : wrapCommandOpen (env workers.length j.command j.args) j log with ⟨log1, res⟩
      cases res with
      | error e => exact trivial
      | ok v =>
        obtain ⟨so, lh⟩ := v
        obtain ⟨_, _, _, _, hso, _⟩ := wrapCommandOpen_ok _ _ _ _ _ _ hopen
        simp only [MainSrc, hso, sourceRecords]
  | once j so lh todo =>
    simp only
    split
    · exact hp
    · split
      · exact hp
      · exact hp
  | onceWrite j so lh todo =>
    simp only
    rcases Write stdout lh with ⟨out, n, err⟩
    exact hp
  | onceUnlock j so todo => exact hp
  | spawn j so todo => exact trivial
  | returned => exact trivial

theorem mainSrc_step (env : Spawner) (jobs : List Job) (s : Sys) (t : Tid)
    (hm : MainInv env jobs s) (hp : MainSrc env s) : MainSrc env (step env s t) := by
  unfold step
  split
  · exact hp
  · rename_i hh
    cases t with
    | main => exact mainSrc_stepMain env jobs s hm hp hh
    | worker i =>
      simp only
      split
      · rename_i wk hwk
        obtain ⟨h1, h2, _⟩ := stepWorker_frame s i wk
        unfold MainSrc
        rw [h1, h2]
        exact hp
      · exact hp

theorem exitInv_init (env : Spawner) (jobs : List Job) (osArgs : List String) (w : Writer) :
    ExitInv env jobs (Sys.init osArgs w) := by
  refine ⟨?_, ?_, ?_⟩ <;> simp [Sys.init]

theorem exitInv_stepMain (env : Spawner) (jobs : List Job) (s : Sys)
    (hm : MainInv env jobs s) (he : ExitInv env jobs s) (hh : s.halted = none) :
    ExitInv env jobs (stepMain env s) := by
  have hcnt := hm.cnt hh
  have hargs := hm.args
  obtain ⟨done, hdone, hdesc⟩ := hm.prog
  have hlen : done.length = s.workers.length := by
    have := congrArg List.length hdesc
    simpa using this
  obtain ⟨hcalls, _, _⟩ := he
  obtain ⟨osArgs, stdout, log, once, outLock, wg, started, main, workers, halted, trace⟩ := s
  simp only at hcnt hargs hdone hlen hh hcalls
  subst hh
  unfold stepMain
  cases main with
  | start =>
    simp only [hargs]
    exact ⟨hcalls, by simp, by simp⟩
  | loop todo =>
    cases todo with
    | nil =>
      simp only
      split
      · exact ⟨hcalls, by simp, by simp⟩
      · exact ⟨hcalls, by simp, by simp⟩
    | cons j todo =>
      simp only
      simp only [MainPc.opened, Bool.false_eq_true, if_false, Nat.add_zero] at hcnt
      simp only [MainPc.todo] at hdone
      subst hcnt
      have hjob : jobs[workers.length]? = some j := by
        rw [hdone]
        exact getElem?_append_cons_length done todo j _ hlen
      rcases hopen : wrapCommandOpen (env workers.length j.command j.args) j log with ⟨log1, res⟩
      cases res with
      | error e =>
        refine ⟨by simp, by simp, fun _ => ⟨j, hjob, ?_, rfl⟩⟩
        exact wrapCommandOpen_error _ _ _ _ _ hopen
      | ok v => exact ⟨by simp, by simp, by simp⟩
  | once j so lh todo =>
    simp only
    split
    · exact ⟨hcalls, by simp, by simp⟩
    · split
      · exact ⟨hcalls, by simp, by simp⟩
      · exact ⟨hcalls, by simp, by simp⟩
  | onceWrite j so lh todo =>
    simp only
    rcases Write stdout lh with ⟨out, n, err⟩
    exact ⟨hcalls, by simp, by simp⟩
  | onceUnlock j so todo => exact ⟨hcalls, by simp, by simp⟩
  | spawn j so todo =>
    refine ⟨?_, by simp, by simp⟩
    simp only [List.length_append, List.length_singleton]
    omega
  | returned => exact ⟨hcalls, by simp, by simp⟩

theorem exitInv_step (env : Spawner) (jobs : List Job) (s : Sys) (t : Tid)
    (hm : MainInv env jobs s) (he : ExitInv env jobs s) : ExitInv env jobs (step env s t) := by
  unfold step
  split
  · exact he
  · rename_i hh
    cases t with
    | main => exact exitInv_stepMain env jobs s hm he hh
    | worker i =>
      simp only
      split
      · rename_i wk hwk
        obtain ⟨_, h2, h3, _, _, h6⟩ := stepWorker_frame s i wk
        refine ⟨by rw [h2, h3]; exact he.calls, ?_, ?_⟩
        · intro c hc
          rcases h6 with h | h
          · rw [h, hh] at hc; cases hc
          · rw [h] at hc; cases hc
        · intro hc
          rcases h6 with h | h
          · rw [h, hh] at hc; cases hc
          · rw [h] at hc; cases hc
      · exact he

theorem ticks_bound (s : Sys) :
    ticks s ≤ 3 * s.workers.length + (if s.main.opened = true then 5 else 3) := by
  unfold ticks
  cases s.main with
  | start => simp
  | loop todo =>
    simp only [MainPc.opened, Bool.false_eq_true, if_false]
    split <;> omega
  | once j so lh todo =>
    simp only [MainPc.opened, if_true]
    split <;> omega
  | onceWrite j so lh todo =>
    simp only [MainPc.opened, if_true]
    omega
  | onceUnlock j so todo =>
    simp only [MainPc.opened, if_true]
    omega
  | spawn j so todo =>
    simp only [MainPc.opened, if_true]
    omega
  | returned => simp

theorem moving_init (osArgs : List String) (w : Writer) : Moving 0 (Sys.init osArgs w) := by
  right; right
  simp [ticks, Sys.init]

theorem step_halted (env : Spawner) (s : Sys) (t : Tid) (h : s.halted ≠ none) :
    step env s t = s := by
  unfold step
  cases hh : s.halted with
  | none => exact absurd hh h
  | some x => rfl

theorem step_main_eq (env : Spawner) (s : Sys) (hh : s.halted = none) :
    step env s .main = stepMain env s := by
  unfold step
  simp [hh]

theorem step_worker_none (env : Spawner) (s : Sys) (i : Nat) (hwk : s.workers[i]? = none) :
    step env s (.worker i) = s := by
  unfold step
  cases hh : s.halted with
  | none => simp [hwk]
  | some x => rfl

theorem moving_stepMain (env : Spawner) (s : Sys) (n : Nat) (h : Core s)
    (hh : s.halted = none) (hq : Moving n s) : Moving (n + 1) (stepMain env s) := by
  rcases hq with hq | hq | ⟨hq, hst, hnr⟩
  · exact absurd hh hq
  · unfold stepMain
    rw [hq]
    simp only
    split
    · left; simp
    · right; left; exact hq
  · obtain ⟨hml, hwl, hok, hmo, hea, hla, hwg, hret⟩ := h
    obtain ⟨osArgs, stdout, log, once, outLock, wg, started, main, workers, halted, trace⟩ := s
    simp only at hml hwl hok hmo hea hla hwg hret hq hst hnr hh
    subst hh
    unfold stepMain
    cases main with
    | start =>
      simp only
      have hw0 := hst rfl
      subst hw0
      cases hj : mainJobs osArgs with
      | error lines => left; simp
      | ok jobs =>
        right; right
        simp only [ticks] at hq ⊢
        subst hq
        simp
    | loop todo =>
      cases todo with
      | nil =>
        simp only
        split
        · left; simp
        · right; left; rfl
      | cons j todo =>
        simp only
        rcases hopen : wrapCommandOpen (env started j.command j.args) j log with ⟨log1, res⟩
        cases res with
        | error e => left; simp
        | ok v =>
          right; right
          simp only [ticks] at hq ⊢
          subst hq
          refine ⟨?_, by simp, by simp⟩
          split <;> simp
    | once j so lh todo =>
      simp only
      cases once with
      | true =>
        simp only [if_true]
        right; right
        have hne : workers.length ≠ 0 := by
          intro hc
          obtain ⟨_, _, _, hx⟩ := (hla rfl).2.2 (List.length_eq_zero.mp hc)
          cases hx
        simp only [ticks, hne, if_false] at hq ⊢
        subst hq
        exact ⟨by omega, by simp, by simp⟩
      | false =>
        simp only [Bool.false_eq_true, if_false]
        have hw0 := (hea rfl).1
        subst hw0
        have hfree : outLock = none := by
          cases hlk : outLock with
          | none => rfl
          | some t0 =>
            cases t0 with
            | main =>
              rw [hlk] at hml
              simp [MainPc.holds] at hml
            | worker i =>
              have := (hwl i).mp hlk
              simp at this
        simp only [hfree, if_true]
        right; right
        simp only [ticks] at hq ⊢
        subst hq
        simp
    | onceWrite j so lh todo =>
      simp only
      rcases Write stdout lh with ⟨out, k, err⟩
      right; right
      simp only [ticks] at hq ⊢
      subst hq
      simp
    | onceUnlock j so todo =>
      have hof : once = false := by
        cases once with
        | false => rfl
        | true => simpa [MainPc.holds] using (hla rfl).1
      subst hof
      have hw0 := (hea rfl).1
      subst hw0
      right; right
      simp only [ticks] at hq ⊢
      subst hq
      simp
    | spawn j so todo =>
      right; right
      simp only [ticks] at hq ⊢
      subst hq
      refine ⟨?_, by simp, by simp⟩
      simp only [List.length_append, List.length_singleton]
      split <;> omega
    | returned => exact absurd rfl hnr

theorem moving_stepWorker (s : Sys) (i : Nat) (wk : Worker) (n : Nat)
    (hwk : s.workers[i]? = some wk) (hq : Moving n s) : Moving n (stepWorker s i wk) := by
  obtain ⟨h1, h2, _, _, _, h6⟩ := stepWorker_frame s i wk
  rcases h6 with h6 | h6
  · rcases hq with hq | hq | ⟨hq, hst, hnr⟩
    · left; rw [h6]; exact hq
    · right; left; rw [h1]; exact hq
    · right; right
      refine ⟨?_, ?_, by rw [h1]; exact hnr⟩
      · unfold ticks at hq ⊢
        rw [h1, h2]
        exact hq
      · intro hs
        rw [h1] at hs
        rw [hst hs] at hwk
        simp at hwk
  · left
    rw [h6]
    simp

theorem moving_step (env : Spawner) (s : Sys) (t : Tid) (n : Nat) (h : Core s)
    (hq : Moving n s) : Moving (n + (if t = .main then 1 else 0)) (step env s t) := by
  by_cases hh : s.halted = none
  · cases t with
    | main =>
      rw [step_main_eq env s hh]
      simp only [if_true]
      exact moving_stepMain env s n h hh hq
    | worker i =>
      simp only [reduceCtorEq, if_false, Nat.add_zero]
      cases hwk : s.workers[i]? with
      | none =>
        rw [step_worker_none env s i hwk]
        exact hq
      | some wk =>
        rw [step_worker_eq env s i wk hh hwk]
        exact moving_stepWorker s i wk n hwk hq
  · rw [step_halted env s t hh]
    exact Or.inl hh

theorem moving_run (env : Spawner) (sched : List Tid) :
    ∀ (s : Sys) (n : Nat), Core s → Moving n s →
      Moving (n + sched.count .main) (run env s sched) := by
  induction sched with
  | nil => intro s n _ hq; simpa [run] using hq
  | cons t ts ih =>
    intro s n h hq
    have h1 := moving_step env s t n h hq
    have h2 := ih (step env s t) _ (core_step env s t h) h1
    rw [run_cons, List.count_cons]
    by_cases ht : t = .main
    · subst ht
      simp only [if_true, beq_self_eq_true] at h2 ⊢
      rw [Nat.add_assoc, Nat.add_comm 1] at h2
      exact h2
    · have hb : (t == Tid.main) = false := by simpa using ht
      simp only [ht, if_false, Nat.add_zero, hb, Bool.false_eq_true] at h2 ⊢
      exact h2

/-! ## Sources that deliver well-formed records -/

theorem solid_step (env : Spawner) (jobs : List Job) (s : Sys) (t : Tid)
    (h : Core s ∧ MainInv env jobs s ∧ MainSrc env s ∧ ExitInv env jobs s) :
    Core (step env s t) ∧ MainInv env jobs (step env s t) ∧ MainSrc env (step env s t) ∧
      ExitInv env jobs (step env s t) := by
  obtain ⟨h1, h2, h3, h4⟩ := h
  obtain ⟨h5, h6⟩ := mains_step env jobs s t ⟨h1, h2⟩
  exact ⟨h5, h6, mainSrc_step env jobs s t h2 h3, exitInv_step env jobs s t h2 h4⟩

theorem solid_run (env : Spawner) (jobs : List Job) (sched : List Tid) :
    ∀ s, Core s ∧ MainInv env jobs s ∧ MainSrc env s ∧ ExitInv env jobs s →
      Core (run env s sched) ∧ MainInv env jobs (run env s sched) ∧
        MainSrc env (run env s sched) ∧ ExitInv env jobs (run env s sched) := by
  induction sched with
  | nil => intro s h; exact h
  | cons t ts ih => intro s h; exact ih _ (solid_step env jobs s t h)

theorem solid_init (env : Spawner) (osArgs : List String) (w : Writer) (jobs : List Job)
    (hj : mainJobs osArgs = .ok jobs) :
    Core (Sys.init osArgs w) ∧ MainInv env jobs (Sys.init osArgs w) ∧
      MainSrc env (Sys.init osArgs w) ∧ ExitInv env jobs (Sys.init osArgs w) :=
  ⟨core_init osArgs w, mainInv_init env osArgs w jobs hj, mainSrc_init env osArgs w,
    exitInv_init env jobs osArgs w⟩

theorem solid_reach (env : Spawner) (osArgs : List String) (w : Writer) (jobs : List Job)
    (sched : List Tid) (hj : mainJobs osArgs = .ok jobs) :
    Core (run env (Sys.init osArgs w) sched) ∧
    MainInv env jobs (run env (Sys.init osArgs w) sched) ∧
    MainSrc env (run env (Sys.init osArgs w) sched) ∧
    ExitInv env jobs (run env (Sys.init osArgs w) sched) :=
  solid_run env jobs sched _ (solid_init env osArgs w jobs hj)

theorem wellFed_init (osArgs : List String) (w : Writer) : WellFed (Sys.init osArgs w) := by
  refine ⟨by simp [Sys.init], ?_⟩
  intro k wk h
  simp [Sys.init] at h

theorem wellFed_stepMain (env : Spawner) (jobs : List Job) (s : Sys)
    (hsrc : ∀ k jk, jobs[k]? = some jk →
      (∀ i ji, i ≤ k → jobs[i]? = some ji → (env i ji.command ji.args).delivers) →
      (env k jk.command jk.args).recordsOK)
    (hm : MainInv env jobs s) (hp : MainSrc env s) (hw : WellFed s)
    (hh : s.halted = none) : WellFed (stepMain env s) := by
  obtain ⟨_, hfed⟩ := hw
  have hall := hm.all
  obtain ⟨done, hdone, hdesc⟩ := hm.prog
  have hlen : done.length = s.workers.length := by
    have := congrArg List.length hdesc
    simpa using this
  obtain ⟨osArgs, stdout, log, once, outLock, wg, started, main, workers, halted, trace⟩ := s
  simp only at hfed hall hp hdone hlen hh
  subst hh
  unfold stepMain
  cases main with
  | start =>
    simp only
    split
    · exact ⟨by simp, hfed⟩
    · exact ⟨by simp, hfed⟩
  | loop todo =>
    cases todo with
    | nil =>
      simp only
      split
      · exact ⟨by simp, hfed⟩
      · exact ⟨by simp, hfed⟩
    | cons j todo =>
      simp only
      rcases wrapCommandOpen (env started j.command j.args) j log with ⟨log1, res⟩
      cases res with
      | error e => exact ⟨by simp, hfed⟩
      | ok v => exact ⟨by simp, hfed⟩
  | once j so lh todo =>
    simp only
    split
    · exact ⟨by simp, hfed⟩
    · split
      · exact ⟨by simp, hfed⟩
      · exact ⟨by simp, hfed⟩
  | onceWrite j so lh todo =>
    simp only
    rcases Write stdout lh with ⟨out, n, err⟩
    exact ⟨by simp, hfed⟩
  | onceUnlock j so todo => exact ⟨by simp, hfed⟩
  | spawn j so todo =>
    simp only [MainPc.todo] at hdone
    have hjob : jobs[workers.length]? = some j := by
      rw [hdone]
      exact getElem?_append_cons_length done todo j _ hlen
    have hdel : ∀ i ji, i ≤ workers.length → jobs[i]? = some ji →
        (env i ji.command ji.args).delivers := by
      intro i ji hi hji
      exact hall i ji (by simp only [MainPc.opened, if_true]; omega) hji
    refine ⟨by simp, ?_⟩
    intro k wk h1 h2
    simp only at h1
    by_cases hkl : k < workers.length
    · rw [List.getElem?_append_left hkl] at h1
      exact hfed k wk h1 h2
    · rw [List.getElem?_append_right (by omega)] at h1
      cases hd : k - workers.length with
      | zero =>
        rw [hd] at h1
        simp only [List.getElem?_cons_zero, Option.some.injEq] at h1
        subst h1
        obtain ⟨rs, hrs, hdata⟩ := hsrc _ j hjob hdel
        refine ⟨rs, hrs, ?_⟩
        simp only [Locals.init]
        simp only [MainSrc] at hp
        rw [hp]
        exact hdata
      | succ m =>
        rw [hd] at h1
        simp at h1
  | returned => exact ⟨by simp, hfed⟩

/-- A step of the goroutine `i` that neither ends the process nor touches its
stream. -/
theorem wellFed_worker (s t : Sys) (i : Nat) (wk wk1 : Worker)
    (hw : WellFed s) (hwk : s.workers[i]? = some wk)
    (e3 : t.workers = s.workers.set i wk1) (e5 : t.halted = s.halted)
    (hfed1 : wk1.pc.active = true →
      ∃ rs : List Record, (∀ r ∈ rs, r.wf) ∧ wk1.l.stream.data = encode rs) :
    WellFed t := by
  obtain ⟨halive, hfed⟩ := hw
  refine ⟨e5 ▸ halive, ?_⟩
  intro k wk2 h1 h2
  rw [e3, getElem?_set_worker _ i k wk wk1 hwk] at h1
  by_cases hik : i = k
  · simp only [hik, if_true, Option.some.injEq] at h1
    subst h1
    exact hfed1 h2
  · simp only [hik, if_false] at h1
    exact hfed k wk2 h1 h2

theorem wellFed_stepWorker (s : Sys) (i : Nat) (wk : Worker)
    (h : Core s) (hw : WellFed s) (hwk : s.workers[i]? = some wk) :
    WellFed (stepWorker s i wk) := by
  have hokw : wk.ok := h.workersOk wk (mem_of_getElem?_some _ _ _ hwk)
  have hfed := hw.fed i wk hwk
  unfold stepWorker
  obtain ⟨desc, l, pc⟩ := wk
  cases pc with
  | top =>
    simp only
    obtain ⟨rs, hrs, hdata⟩ := hfed rfl
    simp only at hdata
    cases rs with
    | nil =>
      have hstop := readRecord_short_header desc l s.log hokw.1.1 (by simp [hdata, encode])
      rcases hrd : readRecord desc l s.log with ⟨l1, log1, f⟩
      rw [hrd] at hstop
      simp only at hstop
      rw [hstop.1]
      exact wellFed_worker s _ i _ ⟨desc, l1, .finish⟩ hw hwk rfl rfl
        (fun ha => by simp [WorkerPc.active] at ha)
    | cons r rs1 =>
      have hr := hrs r (by simp)
      have hst : l.stream = ⟨r.bytes ++ encode rs1, l.stream.err⟩ := by
        cases hs : l.stream with
        | mk d e =>
          rw [hs] at hdata
          simp only at hdata
          simp [hdata, encode]
      rw [readRecord_record desc l s.log r (encode rs1) l.stream.err hokw.1 hst hr]
      exact wellFed_worker s _ i _ ⟨desc, _, .lock (capLen r.header)⟩ hw hwk rfl rfl
        (fun _ => ⟨rs1, fun x hx => hrs x (by simp [hx]), rfl⟩)
  | lock n =>
    simp only
    split
    · exact wellFed_worker s _ i _ ⟨desc, l, .writeHeader n⟩ hw hwk rfl rfl (fun _ => hfed rfl)
    · exact hw
  | writeHeader n =>
    simp only
    rcases Write s.stdout l.header with ⟨out, k, e⟩
    exact wellFed_worker s _ i _ ⟨desc, l, .writePacket n e⟩ hw hwk rfl rfl (fun _ => hfed rfl)
  | writePacket n e1 =>
    simp only
    rcases Write s.stdout (List.take n l.packetBuf) with ⟨out, k, e⟩
    exact wellFed_worker s _ i _ ⟨desc, l, .unlock e1 e⟩ hw hwk rfl rfl (fun _ => hfed rfl)
  | unlock e1 e2 =>
    exact wellFed_worker s _ i _ ⟨desc, l, .check e1 e2⟩ hw hwk rfl rfl (fun _ => hfed rfl)
  | check e1 e2 =>
    simp only
    rcases checkWrites desc e1 e2 s.log with ⟨log1, b⟩
    cases b with
    | true =>
      exact wellFed_worker s _ i _ ⟨desc, l, .top⟩ hw hwk rfl rfl (fun _ => hfed rfl)
    | false =>
      exact wellFed_worker s _ i _ ⟨desc, l, .finish⟩ hw hwk rfl rfl
        (fun ha => by simp [WorkerPc.active] at ha)
  | finish =>
    exact wellFed_worker s _ i _ ⟨desc, l, .closed⟩ hw hwk rfl rfl
      (fun ha => by simp [WorkerPc.active] at ha)
  | closed => exact hw

theorem wellFed_run (env : Spawner) (jobs : List Job)
    (hsrc : ∀ k jk, jobs[k]? = some jk →
      (∀ i ji, i ≤ k → jobs[i]? = some ji → (env i ji.command ji.args).delivers) →
      (env k jk.command jk.args).recordsOK)
    (sched : List Tid) :
    ∀ s, Core s ∧ MainInv env jobs s ∧ MainSrc env s ∧ ExitInv env jobs s → WellFed s →
      WellFed (run env s sched) := by
  induction sched with
  | nil => intro s _ hw; exact hw
  | cons t ts ih =>
    intro s hi hw
    refine ih _ (solid_step env jobs s t hi) ?_
    unfold step
    split
    · exact hw
    · rename_i hh
      cases t with
      | main => exact wellFed_stepMain env jobs s hsrc hi.2.1 hi.2.2.1 hw hh
      | worker i =>
        simp only
        split
        · rename_i wk hwk
          exact wellFed_stepWorker s i wk hi.1 hw hwk
        · exact hw

/-- Sources that all deliver their global header: the process never ends by
`os.Exit(1)`. -/
theorem no_exit_one (env : Spawner) (jobs : List Job) (s : Sys)
    (hsrc : ∀ k jk, jobs[k]? = some jk → (env k jk.command jk.args).delivers)
    (he : ExitInv env jobs s) : s.halted ≠ some (.exit 1) := by
  intro hc
  obtain ⟨jk, h1, h2, _⟩ := he.failed hc
  exact h2 (hsrc _ jk h1)

/-! ## The writes, whatever `Write` returns -/

theorem Write_out (w : Writer) (p : List UInt8) :
    (Write w p).1.out = w.out ++ p.take (Write w p).2.1 := by
  unfold Write
  split
  · simp
  · simp
  · simp [List.take_take]

theorem Write_out_eq (w out : Writer) (p : List UInt8) (n : Nat) (e : Option GoError)
    (h : Write w p = (out, n, e)) : out.out = w.out ++ p.take n := by
  have := Write_out w p
  rw [h] at this
  exact this

theorem openHeader_congr (s t : Sys) (pend : List (Tid × List UInt8))
    (h1 : t.outLock = s.outLock)
    (h2 : ∀ i, s.outLock = some (.worker i) → t.workers[i]? = s.workers[i]?)
    (h : OpenHeader s pend) : OpenHeader t pend := by
  unfold OpenHeader at h ⊢
  rw [h1]
  cases hl : s.outLock with
  | none => rw [hl] at h; exact h
  | some t0 =>
    cases t0 with
    | main => rw [hl] at h; exact h
    | worker i =>
      rw [hl] at h
      simp only [h2 i hl]
      exact h

theorem shape_init (osArgs : List String) (w : Writer) : Shape w.out (Sys.init osArgs w) := by
  refine ⟨?_, ?_, ?_⟩ <;> simp [Sys.init, traceBytes]

/-- A step that leaves the output and the trace as they are, and the lock and
its holder too once `once.Do` has run. -/
theorem shape_frame (out0 : List UInt8) (s t : Sys) (h : Shape out0 s)
    (e1 : t.stdout = s.stdout) (e2 : t.trace = s.trace) (e3 : t.once = s.once)
    (e4 : s.once = true → t.outLock = s.outLock)
    (e5 : s.once = true → ∀ i, s.outLock = some (.worker i) → t.workers[i]? = s.workers[i]?) :
    Shape out0 t := by
  obtain ⟨hout, hfirst, hunits⟩ := h
  refine ⟨by rw [e1, e2]; exact hout, by rw [e2, e3]; exact hfirst, ?_⟩
  intro ho
  rw [e3] at ho
  obtain ⟨g, us, pend, h1, h2, h3, h4⟩ := hunits ho
  exact ⟨g, us, pend, h1, h2, openHeader_congr s t pend (e4 ho) (e5 ho) h3, by rw [e2]; exact h4⟩

theorem shape_stepMain (env : Spawner) (out0 : List UInt8) (s : Sys) (hc : Core s)
    (h : Shape out0 s) : Shape out0 (stepMain env s) := by
  obtain ⟨hml, hwl, hok, hmo, hea, hla, hwg, hret⟩ := hc
  obtain ⟨osArgs, stdout, log, once, outLock, wg, started, main, workers, halted, trace⟩ := s
  simp only at hml hwl hok hmo hea hla hwg hret
  unfold stepMain
  cases main with
  | start =>
    simp only
    split
    · exact shape_frame out0 _ _ h rfl rfl rfl (fun _ => rfl) (fun _ _ _ => rfl)
    · exact shape_frame out0 _ _ h rfl rfl rfl (fun _ => rfl) (fun _ _ _ => rfl)
  | loop todo =>
    cases todo with
    | nil =>
      simp only
      split
      · exact shape_frame out0 _ _ h rfl rfl rfl (fun _ => rfl) (fun _ _ _ => rfl)
      · exact h
    | cons j todo =>
      simp only
      rcases wrapCommandOpen (env started j.command j.args) j log with ⟨log1, res⟩
      cases res with
      | error e => exact shape_frame out0 _ _ h rfl rfl rfl (fun _ => rfl) (fun _ _ _ => rfl)
      | ok v => exact shape_frame out0 _ _ h rfl rfl rfl (fun _ => rfl) (fun _ _ _ => rfl)
  | once j so lh todo =>
    simp only
    cases once with
    | true =>
      simp only [if_true]
      exact shape_frame out0 _ _ h rfl rfl rfl (fun _ => rfl) (fun _ _ _ => rfl)
    | false =>
      simp only [Bool.false_eq_true, if_false]
      split
      · exact shape_frame out0 _ _ h rfl rfl rfl (fun hx => by simp at hx)
          (fun hx => by simp at hx)
      · exact h
  | onceWrite j so lh todo =>
    simp only
    rcases hw : Write stdout lh with ⟨out, n, err⟩
    simp only
    have hof : once = false := by
      cases once with
      | false => rfl
      | true => simpa [MainPc.holds] using (hla rfl).1
    subst hof
    obtain ⟨hw0, ht0⟩ := hea rfl
    simp only [EarlyTrace] at ht0
    subst hw0 ht0
    have hlen : lh.length = 24 := by simpa [MainPc.ok] using hmo
    refine ⟨?_, ?_, by simp⟩
    · have ho := h.out
      simp only [traceBytes, List.append_nil] at ho
      simp only [Write_out_eq _ _ _ _ _ hw, ho, traceBytes, List.nil_append, List.append_nil]
    · intro _ x hx
      simp only [List.nil_append, List.mem_singleton] at hx
      subst hx
      simp only [List.length_take]
      omega
  | onceUnlock j so todo =>
    simp only
    have hof : once = false := by
      cases once with
      | false => rfl
      | true => simpa [MainPc.holds] using (hla rfl).1
    subst hof
    obtain ⟨hw0, g, ht0⟩ := hea rfl
    subst hw0 ht0
    refine ⟨h.out, by simp, fun _ => ⟨g, [], [], ?_, ?_, ?_, ?_⟩⟩
    · exact h.first rfl (.main, g) (by simp)
    · intro u hu
      simp at hu
    · simp [OpenHeader]
    · simp [unitsWrites]
  | spawn j so todo =>
    refine shape_frame out0 _ _ h rfl rfl rfl (fun _ => rfl) ?_
    intro _ i hi
    obtain ⟨wk, hwk, _⟩ := (hwl i).mp hi
    exact List.getElem?_append_left (List.getElem?_eq_some.mp hwk).1
  | returned => exact h

theorem shape_stepWorker (out0 : List UInt8) (s : Sys) (i : Nat) (wk : Worker)
    (hc : Core s) (h : Shape out0 s) (hwk : s.workers[i]? = some wk) :
    Shape out0 (stepWorker s i wk) := by
  have hmem := mem_of_getElem?_some _ _ _ hwk
  have hokw : wk.ok := hc.workersOk wk hmem
  have hlk := hc.workerLock i
  rw [hwk] at hlk
  simp only [Option.some.injEq, exists_eq_left'] at hlk
  have hon : s.once = true := by
    cases ho : s.once with
    | true => rfl
    | false =>
      rw [(hc.early ho).1] at hwk
      simp at hwk
  have hlocal : ∀ (t : Sys) (wk1 : Worker), wk.pc.holds = false → t.stdout = s.stdout →
      t.trace = s.trace → t.once = s.once → t.outLock = s.outLock →
      t.workers = s.workers.set i wk1 → Shape out0 t := by
    intro t wk1 hh e1 e2 e3 e4 e6
    refine shape_frame out0 s t h e1 e2 e3 (fun _ => e4) ?_
    intro _ j hj
    rw [e6, getElem?_set_worker _ i j wk wk1 hwk]
    have : i ≠ j := by
      intro hij
      subst hij
      have := hlk.mp hj
      rw [hh] at this
      cases this
    simp [this]
  obtain ⟨g, us, pend, hg, hus, hop, htr⟩ := h.units hon
  unfold stepWorker
  obtain ⟨desc, l, pc⟩ := wk
  cases pc with
  | top =>
    simp only
    rcases readRecord desc l s.log with ⟨l1, log1, f⟩
    cases f with
    | stop => exact hlocal _ ⟨desc, l1, .finish⟩ rfl rfl rfl rfl rfl rfl
    | fault => exact hlocal _ ⟨desc, l1, .top⟩ rfl rfl rfl rfl rfl rfl
    | record n => exact hlocal _ ⟨desc, l1, .lock n⟩ rfl rfl rfl rfl rfl rfl
  | check e1 e2 =>
    simp only
    rcases checkWrites desc e1 e2 s.log with ⟨log1, b⟩
    cases b with
    | true => exact hlocal _ ⟨desc, l, .top⟩ rfl rfl rfl rfl rfl rfl
    | false => exact hlocal _ ⟨desc, l, .finish⟩ rfl rfl rfl rfl rfl rfl
  | finish => exact hlocal _ ⟨desc, l, .closed⟩ rfl rfl rfl rfl rfl rfl
  | closed => exact h
  | lock n =>
    simp only
    split
    · rename_i hfree
      have hp0 : pend = [] := by simpa [OpenHeader, hfree] using hop
      subst hp0
      refine ⟨h.out, fun ho => by simp [hon] at ho, fun _ => ⟨g, us, [], hg, hus, ?_, htr⟩⟩
      simp only [OpenHeader, getElem?_set_worker _ i i _ _ hwk, if_true]
    · exact h
  | writeHeader n =>
    have hl : s.outLock = some (.worker i) := hlk.mpr rfl
    have hp0 : pend = [] := by simpa [OpenHeader, hl, hwk] using hop
    subst hp0
    simp only
    rcases hw : Write s.stdout l.header with ⟨out, k, e⟩
    simp only
    refine ⟨?_, fun ho => by simp [hon] at ho,
      fun _ => ⟨g, us, [(.worker i, l.header.take k)], hg, hus, ?_, ?_⟩⟩
    · simp only [Write_out_eq _ _ _ _ _ hw, h.out, traceBytes_append, traceBytes,
        List.append_nil, List.append_assoc]
    · simp only [OpenHeader, hl, getElem?_set_worker _ i i _ _ hwk, if_true]
      exact ⟨_, List.take_prefix _ _, rfl⟩
    · simp only [htr, List.append_nil, List.cons_append]
  | writePacket n e1 =>
    have hl : s.outLock = some (.worker i) := hlk.mpr rfl
    obtain ⟨hd, hhd, hp0⟩ : ∃ hd, hd <+: l.header ∧ pend = [(.worker i, hd)] := by
      simpa [OpenHeader, hl, hwk] using hop
    subst hp0
    simp only
    rcases hw : Write s.stdout (List.take n l.packetBuf) with ⟨out, k, e⟩
    simp only
    refine ⟨?_, fun ho => by simp [hon] at ho,
      fun _ => ⟨g, us ++ [(i, ⟨hd, (l.packetBuf.take n).take k⟩)], [], hg, ?_, ?_, ?_⟩⟩
    · simp only [Write_out_eq _ _ _ _ _ hw, h.out, traceBytes_append, traceBytes,
        List.append_nil, List.append_assoc]
    · intro u hu
      rcases List.mem_append.mp hu with h1 | h1
      · exact hus u h1
      · simp only [List.mem_singleton] at h1
        subst h1
        have h2 := hokw.2
        simp only at h2
        refine ⟨⟨l.header, l.packetBuf.take n⟩, hokw.1.1, ?_, hhd, List.take_prefix _ _⟩
        simp only [List.length_take, hokw.1.2]
        omega
    · simp only [OpenHeader, hl, getElem?_set_worker _ i i _ _ hwk, if_true]
    · simp only [htr, unitsWrites_append, unitsWrites, unitWrites, List.append_nil,
        List.cons_append, List.append_assoc, List.nil_append]
  | unlock e1 e2 =>
    have hl : s.outLock = some (.worker i) := hlk.mpr rfl
    have hp0 : pend = [] := by simpa [OpenHeader, hl, hwk] using hop
    subst hp0
    refine ⟨h.out, fun ho => by simp [hon] at ho, fun _ => ⟨g, us, [], hg, hus, ?_, htr⟩⟩
    simp [OpenHeader]

theorem shape_step (env : Spawner) (out0 : List UInt8) (s : Sys) (t : Tid) (hc : Core s)
    (h : Shape out0 s) : Shape out0 (step env s t) := by
  unfold step
  split
  · exact h
  · cases t with
    | main => exact shape_stepMain env out0 s hc h
    | worker i =>
      simp only
      split
      · rename_i wk hwk
        exact shape_stepWorker out0 s i wk hc h hwk
      · exact h

theorem shape_run (env : Spawner) (out0 : List UInt8) (sched : List Tid) :
    ∀ s, Core s → Shape out0 s → Shape out0 (run env s sched) := by
  induction sched with
  | nil => intro s _ h; exact h
  | cons t ts ih => intro s hc h; exact ih _ (core_step env s t hc) (shape_step env out0 s t hc h)

/-! ## A source that does not deliver its global header -/

theorem workers_of_returned (env : Spawner) (jobs : List Job) (s : Sys)
    (hm : MainInv env jobs s) (hr : s.main = .returned ∨ s.main = .loop []) :
    s.workers.map Worker.desc = jobs.map Job.desc := by
  obtain ⟨done, hdone, hdesc⟩ := hm.prog
  rcases hr with hr | hr
  · rw [hr] at hdone
    simp only [MainPc.todo, List.append_nil] at hdone
    rw [← hdesc, ← hdone]
  · rw [hr] at hdone
    simp only [MainPc.todo, List.append_nil] at hdone
    rw [← hdesc, ← hdone]

theorem workers_le_jobs (env : Spawner) (jobs : List Job) (s : Sys)
    (hm : MainInv env jobs s) :
    s.workers.length ≤ jobs.length ∧
    (s.workers.length = jobs.length → s.workers.map Worker.desc = jobs.map Job.desc) := by
  obtain ⟨done, hdone, hdesc⟩ := hm.prog
  have hlen : done.length = s.workers.length := by
    have := congrArg List.length hdesc
    simpa using this
  have hl := congrArg List.length hdone
  rw [List.length_append] at hl
  refine ⟨by omega, fun h => ?_⟩
  have h0 : (s.main.todo jobs) = [] := List.length_eq_zero.mp (by omega)
  rw [h0, List.append_nil] at hdone
  rw [← hdesc, ← hdone]

/-- When every source delivers its global header, the process never ends by
`os.Exit(1)`, and once the main goroutine has taken three steps per source and
three more, a goroutine has been started for every source, unless a goroutine
has panicked by then. -/
theorem all_started (env : Spawner) (osArgs : List String) (w : Writer) (jobs : List Job)
    (sched : List Tid) (s : Sys) (hjobs : mainJobs osArgs = .ok jobs)
    (hs : s = run env (Sys.init osArgs w) sched)
    (hall : ∀ k jk, jobs[k]? = some jk → (env k jk.command jk.args).delivers) :
    s.halted ≠ some (.exit 1) ∧
    (3 * jobs.length + 3 ≤ sched.count .main →
      s.halted = some .crashed ∨ s.workers.map Worker.desc = jobs.map Job.desc) := by
  obtain ⟨hc, hm, _, he⟩ := solid_reach env osArgs w jobs sched hjobs
  have hmv := moving_run env sched (Sys.init osArgs w) 0 (core_init osArgs w)
    (moving_init osArgs w)
  rw [← hs] at hc hm he hmv
  have hne := no_exit_one env jobs s hall he
  refine ⟨hne, fun hcount => ?_⟩
  rcases hmv with hh | hl | ⟨ht, _, _⟩
  · cases hx : s.halted with
    | none => exact absurd hx hh
    | some x =>
      cases x with
      | crashed => exact Or.inl rfl
      | exit c =>
        rcases he.code c hx with h0 | h1
        · subst h0
          exact Or.inr (workers_of_returned env jobs s hm (Or.inl (hm.fin.mp hx)))
        · subst h1
          exact absurd hx hne
  · exact Or.inr (workers_of_returned env jobs s hm (Or.inr hl))
  · obtain ⟨hle, heq⟩ := workers_le_jobs env jobs s hm
    have hb := ticks_bound s
    by_cases hwl : s.workers.length = jobs.length
    · exact Or.inr (heq hwl)
    · exfalso
      have : (if s.main.opened = true then 5 else 3) ≤ 5 := by split <;> omega
      omega

/-- When the source at position `k` does not deliver its global header. -/
theorem dead_source (env : Spawner) (osArgs : List String) (w : Writer) (jobs : List Job)
    (k : Nat) (bad : Job) (sched : List Tid) (s : Sys)
    (hjobs : mainJobs osArgs = .ok jobs) (hk : jobs[k]? = some bad)
    (hbad : ¬ (env k bad.command bad.args).delivers)
    (hs : s = run env (Sys.init osArgs w) sched) :
    s.workers.length ≤ k ∧
    s.started ≤ k + 1 ∧
    s.halted ≠ some (.exit 0) ∧
    s.main ≠ .returned ∧
    (∀ x ∈ s.trace, Tagged k x) ∧
    (k = 0 → s.trace = [] ∧ s.stdout.out = w.out) ∧
    (s.halted = none → ∀ j todo, s.main = .loop (j :: todo) → s.workers.length = k →
      (step env s .main).halted = some (.exit 1)) ∧
    (3 * k + 4 ≤ sched.count .main →
      s.halted = some (.exit 1) ∨ s.halted = some .crashed) ∧
    ((∀ i ji, i < k → jobs[i]? = some ji → (env i ji.command ji.args).delivers) →
      s.halted = some (.exit 1) → s.workers.length = k ∧ s.started = k + 1) ∧
    ((∀ i ji, i < k → jobs[i]? = some ji → (env i ji.command ji.args).wellFormed) →
      s.halted ≠ some .crashed) := by
  obtain ⟨hc, hm, hsrc, he⟩ := solid_reach env osArgs w jobs sched hjobs
  have hmv := moving_run env sched (Sys.init osArgs w) 0 (core_init osArgs w)
    (moving_init osArgs w)
  have hshape := shape_run env w.out sched (Sys.init osArgs w) (core_init osArgs w)
    (shape_init osArgs w)
  have htags := run_tags env sched (Sys.init osArgs w) (by intro x hx; simp [Sys.init] at hx)
  rw [← hs] at hc hm he hmv hshape htags
  have hklt : k < jobs.length := (List.getElem?_eq_some.mp hk).1
  have ha : s.workers.length ≤ k := by
    by_contra hx
    exact hbad (hm.all k bad (by omega) hk)
  have hop : s.workers.length = k → s.main.opened = false := by
    intro hwl
    cases ho : s.main.opened with
    | false => rfl
    | true => exact absurd (hm.all k bad (by simp [ho, hwl]) hk) hbad
  have hx0 : s.halted ≠ some (.exit 0) := by
    intro hx
    have := congrArg List.length (workers_of_returned env jobs s hm (Or.inl (hm.fin.mp hx)))
    simp only [List.length_map] at this
    omega
  have hstep : s.halted = none → ∀ j todo, s.main = .loop (j :: todo) → s.workers.length = k →
      (step env s .main).halted = some (.exit 1) := by
    intro hh j todo hmn hwl
    obtain ⟨done, hdone, hdesc⟩ := hm.prog
    rw [hmn] at hdone
    simp only [MainPc.todo] at hdone
    have hlen : done.length = k := by
      have := congrArg List.length hdesc
      simp only [List.length_map] at this
      omega
    have hj : j = bad := by
      have := getElem?_append_cons_length done todo j k hlen
      rw [← hdone, hk] at this
      exact (Option.some.inj this).symm
    subst hj
    have hcnt := hm.cnt hh
    rw [hmn] at hcnt
    simp only [MainPc.opened, Bool.false_eq_true, if_false, Nat.add_zero] at hcnt
    obtain ⟨log1, e, hopen⟩ := wrapCommandOpen_fails (env k j.command j.args) j s.log hbad
    rw [step_main_eq env s hh]
    unfold stepMain
    rw [hmn]
    simp only [hcnt, hwl, hopen]
  refine ⟨ha, ?_, hx0, ?_, ?_, ?_, hstep, ?_, ?_, ?_⟩
  · have := he.calls
    omega
  · intro hr
    exact hx0 (hm.fin.mpr hr)
  · intro x hx
    exact tagged_mono _ _ x (htags x hx) ha
  · intro hk0
    subst hk0
    have hw0 : s.workers = [] := List.length_eq_zero.mp (by omega)
    have hopf := hop (by rw [hw0]; rfl)
    have hon : s.once = false := by
      cases ho : s.once with
      | false => rfl
      | true =>
        rcases hm.began ho with h1 | h1
        · rw [hopf] at h1
          cases h1
        · exact absurd hw0 h1
    have htr : s.trace = [] := by
      have hp1 := (hc.early hon).2
      unfold EarlyTrace at hp1
      split at hp1
      · rename_i hmn
        rw [hmn] at hopf
        simp [MainPc.opened] at hopf
      · exact hp1
    refine ⟨htr, ?_⟩
    have := hshape.out
    rw [htr] at this
    simpa [traceBytes] using this
  · intro hcount
    rcases hmv with hh | hl | ⟨ht, _, _⟩
    · cases hx : s.halted with
      | none => exact absurd hx hh
      | some x =>
        cases x with
        | crashed => exact Or.inr rfl
        | exit c =>
          rcases he.code c hx with h0 | h1
          · subst h0
            exact absurd hx hx0
          · subst h1
            exact Or.inl rfl
    · exfalso
      have := congrArg List.length (workers_of_returned env jobs s hm (Or.inr hl))
      simp only [List.length_map] at this
      omega
    · exfalso
      have hb := ticks_bound s
      by_cases hwl : s.workers.length = k
      · rw [hop hwl] at hb
        simp only [Bool.false_eq_true, if_false] at hb
        omega
      · have : (if s.main.opened = true then 5 else 3) ≤ 5 := by split <;> omega
        omega
  · intro hdel hx
    obtain ⟨jk, h1, h2, h3⟩ := he.failed hx
    have hwl : s.workers.length = k := by
      by_contra hne
      exact h2 (hdel _ jk (by omega) h1)
    exact ⟨hwl, by omega⟩
  · intro hwf
    have hfed := wellFed_run env jobs ?_ sched (Sys.init osArgs w)
      (solid_init env osArgs w jobs hjobs) (wellFed_init osArgs w)
    · rw [← hs] at hfed
      exact hfed.alive
    · intro i ji hi hpre
      by_cases hik : i < k
      · exact (hwf i ji hik hi).2
      · exact absurd (hpre k bad (by omega) hk) hbad

/-! ## The claims on the process -/

theorem allInvs_reach (env : Spawner) (osArgs : List String) (w : Writer) (jobs : List Job)
    (sched : List Tid) (hw : w.reliable) (hj : mainJobs osArgs = .ok jobs) :
    Inv w.out (run env (Sys.init osArgs w) sched) ∧
    Core (run env (Sys.init osArgs w) sched) ∧
    MainInv env jobs (run env (Sys.init osArgs w) sched) ∧
    Prov env jobs (run env (Sys.init osArgs w) sched) :=
  allInvs_run env w.out jobs sched _
    ⟨inv_init osArgs w hw, core_init osArgs w, mainInv_init env osArgs w jobs hj,
      prov_init env jobs osArgs w⟩

theorem unitsWrites_tags (us : List (Nat × Record)) :
    ∀ x ∈ unitsWrites us, x.1 ≠ Tid.main := by
  induction us with
  | nil => intro x hx; simp [unitsWrites] at hx
  | cons u us ih =>
    intro x hx
    simp only [unitsWrites, unitWrites, List.cons_append, List.nil_append, List.mem_cons] at hx
    rcases hx with h | h | h
    · rw [h]; simp
    · rw [h]; simp
    · exact ih x h

theorem pendingWrites_cases (out0 : List UInt8) (s : Sys) (h : Inv out0 s) :
    pendingWrites s = [] ∨
      ∃ i hd, pendingWrites s = [(.worker i, hd)] ∧ hd.length = 16 ∧
        s.outLock = some (.worker i) := by
  unfold pendingWrites
  cases hl : s.outLock with
  | none => exact Or.inl rfl
  | some t =>
    cases t with
    | main => exact Or.inl rfl
    | worker i =>
      simp only
      cases hw : s.workers[i]? with
      | none => exact Or.inl rfl
      | some wk =>
        simp only
        have hok := h.workersOk wk (mem_of_getElem?_some _ _ _ hw)
        split
        · exact Or.inr ⟨i, wk.l.header, rfl, hok.1.1, rfl⟩
        · exact Or.inl rfl

theorem pendingWrites_returned (out0 : List UInt8) (s : Sys) (h : Inv out0 s)
    (hr : s.main = .returned) : pendingWrites s = [] := by
  unfold pendingWrites
  cases hl : s.outLock with
  | none => rfl
  | some t =>
    cases t with
    | main => rfl
    | worker i =>
      simp only
      cases hw : s.workers[i]? with
      | none => rfl
      | some wk =>
        simp only
        have := h.returned hr wk (mem_of_getElem?_some _ _ _ hw)
        rw [this]

theorem inv_trace (out0 : List UInt8) (s : Sys) (h : Inv out0 s) :
    s.trace = [] ∨ ∃ gh us, gh.length = 24 ∧ unitsOK us ∧
      s.trace = (.main, gh) :: (unitsWrites us ++ pendingWrites s) := by
  have hph := h.phase
  cases ho : s.once with
  | true =>
    rw [ho] at hph
    exact Or.inr hph.1
  | false =>
    rw [ho] at hph
    simp only [Bool.false_eq_true, if_false] at hph
    obtain ⟨hw0, hp1⟩ := hph
    have hp : pendingWrites s = [] := by
      unfold pendingWrites
      cases hl : s.outLock with
      | none => rfl
      | some t =>
        cases t with
        | main => rfl
        | worker i => simp [hw0]
    unfold P1Trace at hp1
    split at hp1
    · obtain ⟨gh, hgh, htr⟩ := hp1
      exact Or.inr ⟨gh, [], hgh, by simp [unitsOK], by simp [htr, unitsWrites, hp]⟩
    · exact Or.inl hp1

/-- C2: for a command line that asks for the sources `j :: todo`, each of which
starts and delivers a complete 24-byte global header, and with the writes
succeeding, under every schedule: the writes on the output are none yet, or
first the 24-byte global header of the first source, written by the main
goroutine, and then writes by the `wrapStream` goroutines only; the header is
written by the time the main goroutine has taken five steps, before any
goroutine exists, and so before `main` returns; and what the goroutine of a
source writes is a prefix of the stream of that source after its own global
header, so that the header bytes of the other sources never reach the output. -/
theorem single_global_header (env : Spawner) (osArgs : List String) (w : Writer)
    (j : Job) (todo : List Job) (sched : List Tid) (s : Sys)
    (hw : w.reliable) (hjobs : mainJobs osArgs = .ok (j :: todo))
    (hsrc : ∀ k jk, (j :: todo)[k]? = some jk → (env k jk.command jk.args).delivers)
    (hs : s = run env (Sys.init osArgs w) sched) :
    (s.trace = [] ∨
      ∃ body, s.trace = (.main, (env 0 j.command j.args).stdout.data.take 24) :: body ∧
        ∀ x ∈ body, x.1 ≠ .main) ∧
    (5 ≤ sched.count .main → s.trace ≠ []) ∧
    (s.workers ≠ [] → s.trace ≠ []) ∧
    (s.main = .returned → s.trace ≠ []) ∧
    s.stdout.out = w.out ++ traceBytes s.trace ∧
    ((env 0 j.command j.args).stdout.data.take 24).length = 24 ∧
    (∀ k wk jk, s.workers[k]? = some wk → (j :: todo)[k]? = some jk →
      written k s.trace <+: sourceRecords env k jk) := by
  obtain ⟨h, hc, hm, hp⟩ := allInvs_reach env osArgs w (j :: todo) sched hw hjobs
  rw [← hs] at h hc hm hp
  have hwt : s.workers ≠ [] → s.trace ≠ [] := by
    intro hne
    cases hws : s.workers with
    | nil => exact absurd hws hne
    | cons wk rest =>
      exact trace_ne_nil_of_worker w.out s 0 wk h (by simp [hws])
  have honce : s.once = true → s.trace ≠ [] := by
    intro ho
    have hph := h.phase
    rw [ho] at hph
    obtain ⟨⟨gh, us, _, _, htr⟩, _⟩ := hph
    rw [htr]
    simp
  have h24 : ((env 0 j.command j.args).stdout.data.take 24).length = 24 := by
    have := (hsrc 0 j (by simp)).2.2
    rw [List.length_take]
    omega
  refine ⟨?_, ?_, hwt, ?_, h.out, h24, hp.pre⟩
  · rcases inv_trace w.out s h with h0 | ⟨gh, us, hgh, hus, htr⟩
    · exact Or.inl h0
    · right
      refine ⟨unitsWrites us ++ pendingWrites s, ?_, ?_⟩
      · rcases hm.head with h1 | ⟨n, h1⟩
        · rw [htr] at h1
          simp at h1
        · rw [htr] at h1
          simp only [List.head?_cons, Option.some.injEq, Prod.mk.injEq, true_and] at h1
          have hn : 24 ≤ n := by
            have := congrArg List.length h1
            rw [hgh, List.length_take] at this
            omega
          rw [htr, h1, List.take_of_length_le (by simp only [firstHeader]; omega)]
          rfl
      · intro x hx
        rcases List.mem_append.mp hx with h1 | h1
        · exact unitsWrites_tags us x h1
        · rcases pendingWrites_cases w.out s h with h2 | ⟨i, hd, h2, _, _⟩
          · rw [h2] at h1
            simp at h1
          · rw [h2] at h1
            simp only [List.mem_singleton] at h1
            rw [h1]
            simp
  · intro h5
    apply honce
    apply stage_once
    have := stage_run env w.out j todo (hsrc 0 j (by simp)) sched (Sys.init osArgs w)
      (inv_init osArgs w hw) (core_init osArgs w)
      (mainInv_init env osArgs w (j :: todo) hjobs) (fun _ => rfl)
    rw [← hs] at this
    have h0 : stage (Sys.init osArgs w) = 0 := rfl
    omega
  · intro hr
    apply hwt
    intro hc
    have := workers_of_returned env (j :: todo) s hm (Or.inl hr)
    rw [hc] at this
    simp at this

theorem twoSources_deliver (k : Nat) (c : String) (a : List String) :
    (twoSources k c a).delivers := by
  cases k with
  | zero => simp [twoSources, Child.delivers]
  | succ n => simp [twoSources, Child.delivers]

theorem single_global_header_witness :
    (twoSourcesRun.trace = [] ∨
      ∃ body, twoSourcesRun.trace =
          (.main, (twoSources 0 (Job.mk "a" "sh" ["-c", "a"]).command
            (Job.mk "a" "sh" ["-c", "a"]).args).stdout.data.take 24) :: body ∧
        ∀ x ∈ body, x.1 ≠ .main) ∧
    (5 ≤ (List.replicate 9 Tid.main ++
        [Tid.worker 0, Tid.worker 1, Tid.worker 1, Tid.worker 0, Tid.worker 1]).count Tid.main →
      twoSourcesRun.trace ≠ []) ∧
    (twoSourcesRun.workers ≠ [] → twoSourcesRun.trace ≠ []) ∧
    (twoSourcesRun.main = .returned → twoSourcesRun.trace ≠ []) ∧
    twoSourcesRun.stdout.out = (Writer.mk [] []).out ++ traceBytes twoSourcesRun.trace ∧
    ((twoSources 0 (Job.mk "a" "sh" ["-c", "a"]).command
      (Job.mk "a" "sh" ["-c", "a"]).args).stdout.data.take 24).length = 24 ∧
    (∀ k wk jk, twoSourcesRun.workers[k]? = some wk →
      ([⟨"a", "sh", ["-c", "a"]⟩, ⟨"b", "sh", ["-c", "b"]⟩] : List Job)[k]? = some jk →
      written k twoSourcesRun.trace <+: sourceRecords twoSources k jk) :=
  single_global_header twoSources ["pcapmux", "run", "a", "b"] ⟨[], []⟩
    ⟨"a", "sh", ["-c", "a"]⟩ [⟨"b", "sh", ["-c", "b"]⟩]
    (List.replicate 9 .main ++ [.worker 0, .worker 1, .worker 1, .worker 0, .worker 1])
    twoSourcesRun (by decide) rfl (fun k jk _ => twoSources_deliver k jk.command jk.args)
    (by unfold twoSourcesRun; rfl)

/-- C4 (evaluation at the failing input): a record header that declares
`captured_length = 65537` makes `packetBuf[:inclLen]` fault: `wrapStream` does
not close the worker, it panics, and the panic ends the process: the other
source, whose goroutine is started and whose record is well-formed, never gets
its record written, and `main` does not return. -/
theorem wrapStream_oversize_panics :
    capLen [1, 2, 3, 4, 5, 6, 7, 8, 1, 0, 1, 0, 1, 0, 1, 0] = 65537 ∧
    wrapStream "en0" ⟨[1, 2, 3, 4, 5, 6, 7, 8, 1, 0, 1, 0, 1, 0, 1, 0] ++ [0xde, 0xad], .EOF⟩
        ⟨⟨[], []⟩, []⟩ =
      some { world := ⟨⟨[], []⟩, []⟩, panicked := true, iterations := 1 } ∧
    oversizeFirstRun.halted = some .crashed ∧
    oversizeFirstRun.workers.map Worker.pc = [.top, .top] ∧
    oversizeFirstRun.stdout.out = List.replicate 24 0xaa := by
  decide

/-- C5 (counterexample): `pcapmux run a b` where the output of `a` ends before
any byte and `b` delivers a global header and a record: the process ends with
`os.Exit(1)` as soon as the header of `a` cannot be read; no goroutine is
started for `b`, and nothing is written. -/
theorem dead_source_stops_the_rest :
    ¬ (deadFirstSource 0 "sh" ["-c", "a"]).delivers ∧
    (deadFirstSource 1 "sh" ["-c", "b"]).delivers ∧
    deadFirstRun.halted = some (.exit 1) ∧
    deadFirstRun.workers = [] ∧
    deadFirstRun.stdout.out = [] ∧
    deadFirstRun.log = ["[a] start"] := by
  decide

theorem openHeader_cases (s : Sys) (pend : List (Tid × List UInt8)) (hc : Core s)
    (h : OpenHeader s pend) :
    (pend = [] ∨ ∃ i hd, pend = [(.worker i, hd)] ∧ hd.length ≤ 16 ∧
      s.outLock = some (.worker i)) ∧
    (s.outLock = none → pend = []) ∧
    (s.main = .returned → pend = []) := by
  unfold OpenHeader at h
  cases hl : s.outLock with
  | none =>
    rw [hl] at h
    exact ⟨Or.inl h, fun _ => h, fun _ => h⟩
  | some t =>
    cases t with
    | main =>
      rw [hl] at h
      exact ⟨Or.inl h, fun _ => h, fun _ => h⟩
    | worker i =>
      rw [hl] at h
      simp only at h
      cases hw : s.workers[i]? with
      | none =>
        rw [hw] at h
        exact ⟨Or.inl h, fun _ => h, fun _ => h⟩
      | some wk =>
        rw [hw] at h
        simp only at h
        have hmem := mem_of_getElem?_some _ _ _ hw
        have hok := hc.workersOk wk hmem
        obtain ⟨desc, l, pc⟩ := wk
        cases pc with
        | writePacket n e =>
          simp only at h
          obtain ⟨hd, hpre, hp⟩ := h
          refine ⟨Or.inr ⟨i, hd, hp, ?_, rfl⟩, fun hx => by simp at hx, fun hr => ?_⟩
          · have := hpre.length_le
            have h16 := hok.1.1
            simp only at h16
            omega
          · have := hc.returned hr _ hmem
            simp at this
        | top => exact ⟨Or.inl h, fun _ => h, fun _ => h⟩
        | lock n => exact ⟨Or.inl h, fun _ => h, fun _ => h⟩
        | writeHeader n => exact ⟨Or.inl h, fun _ => h, fun _ => h⟩
        | unlock e1 e2 => exact ⟨Or.inl h, fun _ => h, fun _ => h⟩
        | check e1 e2 => exact ⟨Or.inl h, fun _ => h, fun _ => h⟩
        | finish => exact ⟨Or.inl h, fun _ => h, fun _ => h⟩
        | closed => exact ⟨Or.inl h, fun _ => h, fun _ => h⟩

theorem shape_trace (out0 : List UInt8) (s : Sys) (hc : Core s) (h : Shape out0 s) :
    s.trace = [] ∨ ∃ g us pend, g.length ≤ 24 ∧ unitsPart us ∧
      s.trace = (.main, g) :: (unitsWrites us ++ pend) ∧ OpenHeader s pend := by
  cases ho : s.once with
  | true =>
    obtain ⟨g, us, pend, h1, h2, h3, h4⟩ := h.units ho
    exact Or.inr ⟨g, us, pend, h1, h2, h4, h3⟩
  | false =>
    obtain ⟨hw0, hp1⟩ := hc.early ho
    unfold EarlyTrace at hp1
    split at hp1
    · rename_i j so td hmn
      obtain ⟨g, htr⟩ := hp1
      right
      refine ⟨g, [], [], h.first ho (.main, g) (by simp [htr]), by intro u hu; simp at hu,
        by simp [htr, unitsWrites], ?_⟩
      have hl : s.outLock = some .main := hc.mainLock.mp (by rw [hmn]; rfl)
      simp [OpenHeader, hl]
    · exact Or.inl hp1

/-- C8 (counterexample): two well-formed sources, and a standard output that
takes one byte of the payload of the first record and fails: the output holds
the global header, the header of the first record with one byte of its four
payload bytes, and then the record of the other source; the first unit is not a
whole record.  With the `Write` of the first record header failing instead, the
four payload bytes follow the global header without their record header. -/
theorem failed_write_leaves_fragment :
    (twoSources 0 "sh" ["-c", "a"]).wellFormed ∧
    (twoSources 1 "sh" ["-c", "b"]).wellFormed ∧
    partialPayloadRun.halted = none ∧
    partialPayloadRun.trace =
      [(.main, List.replicate 24 0xaa),
       (.worker 0, [1, 2, 3, 4, 5, 6, 7, 8, 4, 0, 0, 0, 4, 0, 0, 0]), (.worker 0, [0xde]),
       (.worker 1, [1, 2, 3, 4, 5, 6, 7, 8, 2, 0, 0, 0, 2, 0, 0, 0]), (.worker 1, [0xca, 0xfe])] ∧
    partialPayloadRun.stdout.out =
      List.replicate 24 0xaa ++ [1, 2, 3, 4, 5, 6, 7, 8, 4, 0, 0, 0, 4, 0, 0, 0, 0xde] ++
        [1, 2, 3, 4, 5, 6, 7, 8, 2, 0, 0, 0, 2, 0, 0, 0, 0xca, 0xfe] ∧
    failedHeaderRun.halted = none ∧
    failedHeaderRun.trace =
      [(.main, List.replicate 24 0xaa),
       (.worker 0, []), (.worker 0, [0xde, 0xad, 0xbe, 0xef]),
       (.worker 1, [1, 2, 3, 4, 5, 6, 7, 8, 2, 0, 0, 0, 2, 0, 0, 0]), (.worker 1, [0xca, 0xfe])] ∧
    failedHeaderRun.stdout.out =
      List.replicate 24 0xaa ++ [0xde, 0xad, 0xbe, 0xef] ++
        [1, 2, 3, 4, 5, 6, 7, 8, 2, 0, 0, 0, 2, 0, 0, 0, 0xca, 0xfe] := by
  refine ⟨?_, ?_, by decide, by decide, by decide, by decide, by decide, by decide⟩
  · exact ⟨by decide,
      [⟨[1, 2, 3, 4, 5, 6, 7, 8, 4, 0, 0, 0, 4, 0, 0, 0], [0xde, 0xad, 0xbe, 0xef]⟩],
      by decide, by decide⟩
  · exact ⟨by decide, [⟨[1, 2, 3, 4, 5, 6, 7, 8, 2, 0, 0, 0, 2, 0, 0, 0], [0xca, 0xfe]⟩],
      by decide, by decide⟩

/-- C8 (amended): under every schedule of the goroutines and whatever the
`Write` calls return, the output is the bytes of the writes in order, and the
writes are: none yet, or one write by the main goroutine (at most 24 bytes, a
prefix of the global header of the first source), then for each record that was
written two writes next to each other by one and the same goroutine, a part of
a 16-byte record header and a part of the payload that this header declares,
and at the end at most the header write of the goroutine that holds `outLock`
and still has to write its payload; nothing is open when the lock is free or
`main` has returned.  With sources that deliver their global header and
well-formed records the process only ends by `main` returning.  When every
`Write` succeeds, the main goroutine's write is the whole 24-byte header, every
unit is a whole record (a 16-byte header and the payload it declares), and what
each goroutine has written is a prefix of the stream of its own source. -/
theorem record_writes_adjacent (env : Spawner) (osArgs : List String) (w : Writer)
    (sched : List Tid) (s : Sys) (hs : s = run env (Sys.init osArgs w) sched) :
    s.stdout.out = w.out ++ traceBytes s.trace ∧
    (s.trace = [] ∨ ∃ g us pend, g.length ≤ 24 ∧ unitsPart us ∧
      s.trace = (.main, g) :: (unitsWrites us ++ pend) ∧ OpenHeader s pend ∧
      (pend = [] ∨ ∃ i hd, pend = [(.worker i, hd)] ∧ hd.length ≤ 16 ∧
        s.outLock = some (.worker i)) ∧
      (s.outLock = none → pend = []) ∧
      (s.main = .returned → pend = [])) ∧
    (∀ jobs, mainJobs osArgs = .ok jobs →
      (∀ g rest, s.trace = (.main, g) :: rest → g <+: firstHeader env jobs) ∧
      ((∀ k jk, jobs[k]? = some jk → (env k jk.command jk.args).wellFormed) →
        s.halted = none ∨ (s.halted = some (.exit 0) ∧ s.main = .returned))) ∧
    (w.reliable →
      (s.trace = [] ∨ ∃ gh us, gh.length = 24 ∧ unitsOK us ∧
        s.trace = (.main, gh) :: (unitsWrites us ++ pendingWrites s)) ∧
      (pendingWrites s = [] ∨
        ∃ i hd, pendingWrites s = [(.worker i, hd)] ∧ hd.length = 16 ∧
          s.outLock = some (.worker i)) ∧
      (s.outLock = none → pendingWrites s = []) ∧
      (s.main = .returned → pendingWrites s = []) ∧
      (∀ jobs, mainJobs osArgs = .ok jobs →
        ∀ k wk j, s.workers[k]? = some wk → jobs[k]? = some j →
          written k s.trace <+: sourceRecords env k j)) := by
  have hc : Core s := hs ▸ core_run env sched _ (core_init osArgs w)
  have hsh : Shape w.out s :=
    hs ▸ shape_run env w.out sched _ (core_init osArgs w) (shape_init osArgs w)
  refine ⟨hsh.out, ?_, ?_, ?_⟩
  · rcases shape_trace w.out s hc hsh with h0 | ⟨g, us, pend, h1, h2, h3, h4⟩
    · exact Or.inl h0
    · obtain ⟨h5, h6, h7⟩ := openHeader_cases s pend hc h4
      exact Or.inr ⟨g, us, pend, h1, h2, h3, h4, h5, h6, h7⟩
  · intro jobs hj
    obtain ⟨_, hm, _, he⟩ := solid_reach env osArgs w jobs sched hj
    rw [← hs] at hm he
    refine ⟨?_, ?_⟩
    · intro g rest htr
      rcases hm.head with h0 | ⟨n, h0⟩
      · rw [htr] at h0
        cases h0
      · rw [htr] at h0
        simp only [List.head?_cons, Option.some.injEq, Prod.mk.injEq, true_and] at h0
        rw [h0]
        exact List.take_prefix _ _
    · intro hwf
      have hfed := wellFed_run env jobs (fun k jk hk _ => (hwf k jk hk).2) sched
        (Sys.init osArgs w) (solid_init env osArgs w jobs hj) (wellFed_init osArgs w)
      rw [← hs] at hfed
      have hne := no_exit_one env jobs s (fun k jk hk => (hwf k jk hk).1) he
      cases hx : s.halted with
      | none => exact Or.inl rfl
      | some x =>
        cases x with
        | crashed => exact absurd hx hfed.alive
        | exit c =>
          rcases he.code c hx with h0 | h1
          · subst h0
            exact Or.inr ⟨rfl, hm.fin.mp hx⟩
          · subst h1
            exact absurd hx hne
  · intro hw
    have h : Inv w.out s := hs ▸ inv_run env w.out sched _ (inv_init osArgs w hw)
    refine ⟨inv_trace w.out s h, pendingWrites_cases w.out s h, ?_,
      pendingWrites_returned w.out s h, ?_⟩
    · intro hl
      simp [pendingWrites, hl]
    · intro jobs hj
      have hp := (allInvs_reach env osArgs w jobs sched hw hj).2.2.2
      rw [← hs] at hp
      exact hp.pre

theorem record_writes_adjacent_witness :
    (partialPayloadRun.stdout.out =
        (Writer.mk [] [none, none, some (1, .other "resource temporarily unavailable")]).out ++
          traceBytes partialPayloadRun.trace ∧
      (partialPayloadRun.trace = [] ∨ ∃ g us pend, g.length ≤ 24 ∧ unitsPart us ∧
        partialPayloadRun.trace = (.main, g) :: (unitsWrites us ++ pend) ∧
        OpenHeader partialPayloadRun pend ∧
        (pend = [] ∨ ∃ i hd, pend = [(.worker i, hd)] ∧ hd.length ≤ 16 ∧
          partialPayloadRun.outLock = some (.worker i)) ∧
        (partialPayloadRun.outLock = none → pend = []) ∧
        (partialPayloadRun.main = .returned → pend = []))) ∧
    ((twoSourcesRun.trace = [] ∨ ∃ gh us, gh.length = 24 ∧ unitsOK us ∧
        twoSourcesRun.trace = (.main, gh) :: (unitsWrites us ++ pendingWrites twoSourcesRun)) ∧
      (pendingWrites twoSourcesRun = [] ∨
        ∃ i hd, pendingWrites twoSourcesRun = [(.worker i, hd)] ∧ hd.length = 16 ∧
          twoSourcesRun.outLock = some (.worker i)) ∧
      (twoSourcesRun.outLock = none → pendingWrites twoSourcesRun = []) ∧
      (twoSourcesRun.main = .returned → pendingWrites twoSourcesRun = []) ∧
      (∀ jobs, mainJobs ["pcapmux", "run", "a", "b"] = .ok jobs →
        ∀ k wk j, twoSourcesRun.workers[k]? = some wk → jobs[k]? = some j →
          written k twoSourcesRun.trace <+: sourceRecords twoSources k j)) :=
  have h1 := record_writes_adjacent twoSources ["pcapmux", "run", "a", "b"]
    ⟨[], [none, none, some (1, .other "resource temporarily unavailable")]⟩
    (List.replicate 9 .main ++ List.replicate 6 (.worker 0) ++ List.replicate 6 (.worker 1))
    partialPayloadRun (by unfold partialPayloadRun; rfl)
  have h2 := record_writes_adjacent twoSources ["pcapmux", "run", "a", "b"] ⟨[], []⟩
    (List.replicate 9 .main ++ [.worker 0, .worker 1, .worker 1, .worker 0, .worker 1])
    twoSourcesRun (by unfold twoSourcesRun; rfl)
  ⟨⟨h1.1, h1.2.1⟩, h2.2.2.2 (by decide)⟩

/-- C5 (amended): when the source at position `pre.length` of the command line
does not deliver a complete 24-byte global header (it does not start, or its
output ends or fails before 24 bytes), then under every schedule and whatever
the `Write` calls return: no goroutine is ever started for it or for a later
source, and no command of a later source is run; every write on the output is
by the main goroutine or by the goroutine of an earlier source (none at all if
there is no earlier source); `main` never returns; the step of the main
goroutine that reaches this source ends the process with `os.Exit(1)`, and by
the time the main goroutine has taken `3 * pre.length + 4` steps the process has
ended, with `os.Exit(1)` or with the panic of a goroutine; if the earlier
sources deliver their global headers, `os.Exit(1)` happens with exactly their
goroutines started, and if their records are well-formed too, there is no
panic; and once the process has ended no goroutine moves. -/
theorem failed_header_exits (env : Spawner) (osArgs : List String) (w : Writer)
    (pre : List Job) (bad : Job) (post : List Job) (sched : List Tid) (s : Sys)
    (hjobs : mainJobs osArgs = .ok (pre ++ bad :: post))
    (hbad : ¬ (env pre.length bad.command bad.args).delivers)
    (hs : s = run env (Sys.init osArgs w) sched) :
    s.workers.length ≤ pre.length ∧
    s.started ≤ pre.length + 1 ∧
    s.halted ≠ some (.exit 0) ∧
    s.main ≠ .returned ∧
    (∀ x ∈ s.trace, Tagged pre.length x) ∧
    (pre = [] → s.trace = [] ∧ s.stdout.out = w.out) ∧
    (s.halted = none → s.main = .loop (bad :: post) →
      (step env s .main).halted = some (.exit 1)) ∧
    (3 * pre.length + 4 ≤ sched.count .main →
      s.halted = some (.exit 1) ∨ s.halted = some .crashed) ∧
    ((∀ i ji, pre[i]? = some ji → (env i ji.command ji.args).delivers) →
      s.halted = some (.exit 1) →
        s.workers.map Worker.desc = pre.map Job.desc ∧ s.started = pre.length + 1) ∧
    ((∀ i ji, pre[i]? = some ji → (env i ji.command ji.args).wellFormed) →
      s.halted ≠ some .crashed) ∧
    (s.halted ≠ none → ∀ t, step env s t = s) := by
  have hbadAt : (pre ++ bad :: post)[pre.length]? = some bad :=
    getElem?_append_cons_length pre post bad _ rfl
  obtain ⟨h1, h2, h3, h4, h5, h6, h7, h8, h9, h10⟩ :=
    dead_source env osArgs w (pre ++ bad :: post) pre.length bad sched s hjobs hbadAt hbad hs
  obtain ⟨_, hm⟩ := mains_reach env osArgs w (pre ++ bad :: post) sched hjobs
  rw [← hs] at hm
  obtain ⟨done, hdone, hdesc⟩ := hm.prog
  have hlen : done.length = s.workers.length := by
    have := congrArg List.length hdesc
    simpa using this
  have hpre : ∀ i ji, i < pre.length → (pre ++ bad :: post)[i]? = some ji → pre[i]? = some ji := by
    intro i ji hi hji
    rw [List.getElem?_append_left hi] at hji
    exact hji
  refine ⟨h1, h2, h3, h4, h5, ?_, ?_, h8, ?_, ?_, fun hh t => step_halted env s t hh⟩
  · intro hp
    exact h6 (by rw [hp]; rfl)
  · intro hh hmn
    refine h7 hh bad post hmn ?_
    rw [hmn] at hdone
    simp only [MainPc.todo] at hdone
    have hdp : done = pre := (List.append_cancel_right hdone).symm
    rw [← hlen, hdp]
  · intro hdel hx
    obtain ⟨hwl, hst⟩ := h9 (fun i ji hi hji => hdel i ji (hpre i ji hi hji)) hx
    refine ⟨?_, hst⟩
    have hdp : done = pre := (List.append_inj_left hdone (by omega)).symm
    rw [← hdesc, hdp]
  · intro hwf
    exact h10 (fun i ji hi hji => hwf i ji (hpre i ji hi hji))

theorem failed_header_exits_witness :
    deadSecondRun.workers.length ≤ 1 ∧
    deadSecondRun.started ≤ 1 + 1 ∧
    deadSecondRun.halted ≠ some (.exit 0) ∧
    deadSecondRun.main ≠ .returned ∧
    (∀ x ∈ deadSecondRun.trace, Tagged 1 x) ∧
    (deadSecondRun.halted = some (.exit 1) ∨ deadSecondRun.halted = some .crashed) ∧
    (deadSecondRun.workers.map Worker.desc = ["a"] ∧ deadSecondRun.started = 1 + 1) ∧
    deadSecondRun.halted ≠ some .crashed ∧
    (∀ t, step deadSecondSource deadSecondRun t = deadSecondRun) ∧
    (step deadSecondSource deadSecondBefore .main).halted = some (.exit 1) :=
  have h := failed_header_exits deadSecondSource ["pcapmux", "run", "a", "b", "c"]
    ⟨[], [some (3, .other "resource temporarily unavailable")]⟩
    [⟨"a", "sh", ["-c", "a"]⟩] ⟨"b", "sh", ["-c", "b"]⟩ [⟨"c", "sh", ["-c", "c"]⟩]
    (List.replicate 6 .main ++ [.worker 0, .worker 0, .worker 0, .main]) deadSecondRun
    rfl (by decide) (by unfold deadSecondRun; rfl)
  have hb := failed_header_exits deadSecondSource ["pcapmux", "run", "a", "b", "c"]
    ⟨[], [some (3, .other "resource temporarily unavailable")]⟩
    [⟨"a", "sh", ["-c", "a"]⟩] ⟨"b", "sh", ["-c", "b"]⟩ [⟨"c", "sh", ["-c", "c"]⟩]
    (List.replicate 6 .main ++ [.worker 0, .worker 0, .worker 0]) deadSecondBefore
    rfl (by decide) (by unfold deadSecondBefore; rfl)
  ⟨h.1, h.2.1, h.2.2.1, h.2.2.2.1, h.2.2.2.2.1, h.2.2.2.2.2.2.2.1 (by decide),
    h.2.2.2.2.2.2.2.2.1 (by
      intro i ji hi
      cases i with
      | zero =>
        simp only [List.getElem?_cons_zero, Option.some.injEq] at hi
        subst hi
        decide
      | succ n => simp at hi) (by decide),
    h.2.2.2.2.2.2.2.2.2.1 (by
      intro i ji hi
      cases i with
      | zero =>
        simp only [List.getElem?_cons_zero, Option.some.injEq] at hi
        subst hi
        exact ⟨by decide,
          [⟨[1, 2, 3, 4, 5, 6, 7, 8, 4, 0, 0, 0, 4, 0, 0, 0], [0xde, 0xad, 0xbe, 0xef]⟩],
          by decide, by decide⟩
      | succ n => simp at hi),
    h.2.2.2.2.2.2.2.2.2.2 (by decide),
    hb.2.2.2.2.2.2.1 (by decide) (by decide)⟩

theorem sshJobs_get (hosts : List String) (command : String) (k : Nat) (jk : Job)
    (h : (hosts.map fun host =>
      ({ desc := host, command := "ssh", args := [host, command] } : Job))[k]? = some jk) :
    ∃ host, hosts[k]? = some host ∧
      jk = { desc := host, command := "ssh", args := [host, command] } := by
  rw [List.getElem?_map] at h
  cases hh : hosts[k]? with
  | none => rw [hh] at h; simp at h
  | some host =>
    rw [hh] at h
    simp only [Option.map_some', Option.some.injEq] at h
    exact ⟨host, rfl, h.symm⟩

/-- C10 (counterexample): `pcapmux ssh h1 h2 -- tcpdump -w -` where `h1` gives
no output and `h2` would deliver a global header: the command line is accepted
with the two hosts, `wrapCommand` is called for `h1` only, no source is
started, and the process ends with `os.Exit(1)`. -/
theorem ssh_dead_host_stops_the_rest :
    mainJobs ["pcapmux", "ssh", "h1", "h2", "--", "tcpdump", "-w", "-"] =
      .ok [⟨"h1", "ssh", ["h1", "tcpdump -w -"]⟩, ⟨"h2", "ssh", ["h2", "tcpdump -w -"]⟩] ∧
    ¬ (deadFirstSource 0 "ssh" ["h1", "tcpdump -w -"]).delivers ∧
    (deadFirstSource 1 "ssh" ["h2", "tcpdump -w -"]).delivers ∧
    sshDeadRun.halted = some (.exit 1) ∧
    sshDeadRun.workers = [] ∧
    sshDeadRun.started = 1 ∧
    sshDeadRun.log = ["[h1] start"] := by
  refine ⟨rfl, ?_⟩
  decide

/-- C10 (amended): in ssh mode the command line `prog ssh rest` is rejected
(logged and ended with `os.Exit(1)` by the first step of `main`, before any
command is run) exactly when `rest` has no `"--"` or nothing after its first
`"--"`; otherwise, with `hosts` the arguments before the first `"--"` and
`words` those after it, the calls of `wrapCommand` that `main` is to make are
one per host, in order, each as `ssh host command` with the same `command`, the
words joined by single spaces.  Under every schedule and whatever the `Write`
calls return, the goroutines started are those of the first hosts, in order,
and at most one more call has been made.  When every host delivers its
24-byte global header, the process never ends by `os.Exit(1)`, and once the main
goroutine has taken `3 * hosts.length + 3` steps one goroutine per host is
started, unless a goroutine has panicked, which does not happen when the records
of the hosts are well-formed.  When the host at position `k` does not deliver
its global header, no goroutine is started for it or for a later host, no
later host is called, `main` never returns, and by the time the main goroutine
has taken `3 * k + 4` steps the process has ended, by `os.Exit(1)` or by the
panic of a goroutine. -/
theorem ssh_arguments (prog : String) (rest : List String) :
    ((∃ lines, mainJobs (prog :: "ssh" :: rest) = .error lines) ↔
      ("--" ∉ rest ∨ ∃ hosts, "--" ∉ hosts ∧ rest = hosts ++ ["--"])) ∧
    (∀ lines, mainJobs (prog :: "ssh" :: rest) = .error lines →
      ∀ (env : Spawner) (w : Writer),
        (step env (Sys.init (prog :: "ssh" :: rest) w) .main).halted = some (.exit 1) ∧
        (step env (Sys.init (prog :: "ssh" :: rest) w) .main).workers = [] ∧
        (step env (Sys.init (prog :: "ssh" :: rest) w) .main).started = 0) ∧
    (∀ hosts words, "--" ∉ hosts → words ≠ [] → rest = hosts ++ "--" :: words →
      mainJobs (prog :: "ssh" :: rest) =
        .ok (hosts.map fun host =>
          { desc := host, command := "ssh", args := [host, " ".intercalate words] }) ∧
      ∀ (env : Spawner) (w : Writer) (sched : List Tid) (s : Sys),
        s = run env (Sys.init (prog :: "ssh" :: rest) w) sched →
        s.workers.map Worker.desc <+: hosts ∧
        s.started ≤ s.workers.length + 1 ∧
        ((∀ k h, hosts[k]? = some h → (env k "ssh" [h, " ".intercalate words]).delivers) →
          s.halted ≠ some (.exit 1) ∧
          (3 * hosts.length + 3 ≤ sched.count .main →
            s.halted = some .crashed ∨ s.workers.map Worker.desc = hosts) ∧
          ((∀ k h, hosts[k]? = some h →
              (env k "ssh" [h, " ".intercalate words]).recordsOK) →
            s.halted ≠ some .crashed)) ∧
        (∀ k h, hosts[k]? = some h → ¬ (env k "ssh" [h, " ".intercalate words]).delivers →
          s.workers.length ≤ k ∧ s.started ≤ k + 1 ∧ s.halted ≠ some (.exit 0) ∧
          s.main ≠ .returned ∧
          (3 * k + 4 ≤ sched.count .main →
            s.halted = some (.exit 1) ∨ s.halted = some .crashed))) := by
  refine ⟨mainJobs_ssh_error_iff prog rest, ?_, ?_⟩
  · intro lines herr env w
    unfold step stepMain
    simp [Sys.init, herr]
  · intro hosts words hh hw hrest
    subst hrest
    have hok := mainJobs_ssh_ok prog hosts words hh hw
    refine ⟨hok, ?_⟩
    intro env w sched s hs
    obtain ⟨_, hm, _, he⟩ := solid_reach env _ w _ sched hok
    rw [← hs] at hm he
    have hdescs : (hosts.map fun host =>
        ({ desc := host, command := "ssh", args := [host, " ".intercalate words] } : Job)).map
          Job.desc = hosts := by
      simp [List.map_map, Function.comp_def]
    have hlenj : (hosts.map fun host =>
        ({ desc := host, command := "ssh", args := [host, " ".intercalate words] } : Job)).length
          = hosts.length := List.length_map _ _
    refine ⟨?_, he.calls, ?_, ?_⟩
    · obtain ⟨done, hdone, hdesc⟩ := hm.prog
      have := congrArg (List.map Job.desc) hdone
      rw [hdescs, List.map_append, hdesc] at this
      exact ⟨_, this.symm⟩
    · intro hdel
      have hall : ∀ k jk, (hosts.map fun host =>
          ({ desc := host, command := "ssh", args := [host, " ".intercalate words] } : Job))[k]?
            = some jk → (env k jk.command jk.args).delivers := by
        intro k jk hk
        obtain ⟨host, h1, h2⟩ := sshJobs_get hosts _ k jk hk
        subst h2
        exact hdel k host h1
      obtain ⟨h1, h2⟩ := all_started env _ w _ sched s hok hs hall
      refine ⟨h1, ?_, ?_⟩
      · intro hcount
        rw [hlenj, hdescs] at h2
        exact h2 hcount
      · intro hrec
        have hfed := wellFed_run env _ ?_ sched
          (Sys.init (prog :: "ssh" :: (hosts ++ "--" :: words)) w)
          (solid_init env _ w _ hok) (wellFed_init _ w)
        · rw [← hs] at hfed
          exact hfed.alive
        · intro k jk hk _
          obtain ⟨host, h3, h4⟩ := sshJobs_get hosts _ k jk hk
          subst h4
          exact hrec k host h3
    · intro k h hk hbad
      have hjk : (hosts.map fun host =>
          ({ desc := host, command := "ssh", args := [host, " ".intercalate words] } : Job))[k]?
            = some { desc := h, command := "ssh", args := [h, " ".intercalate words] } := by
        rw [List.getElem?_map, hk]
        rfl
      obtain ⟨h1, h2, h3, h4, _, _, _, h8, _⟩ :=
        dead_source env _ w _ k _ sched s hok hjk hbad hs
      exact ⟨h1, h2, h3, h4, h8⟩

theorem twoSources_records (k : Nat) (c : String) (a : List String) :
    (twoSources k c a).recordsOK := by
  cases k with
  | zero =>
    exact ⟨[⟨[1, 2, 3, 4, 5, 6, 7, 8, 4, 0, 0, 0, 4, 0, 0, 0], [0xde, 0xad, 0xbe, 0xef]⟩],
      by decide, rfl⟩
  | succ n =>
    exact ⟨[⟨[1, 2, 3, 4, 5, 6, 7, 8, 2, 0, 0, 0, 2, 0, 0, 0], [0xca, 0xfe]⟩],
      by decide, rfl⟩

theorem ssh_arguments_witness :
    mainJobs ("pcapmux" :: "ssh" :: ["h1", "h2", "--", "tcpdump", "-w", "-", "--", "port"]) =
      .ok (["h1", "h2"].map fun host =>
        { desc := host, command := "ssh",
          args := [host, " ".intercalate ["tcpdump", "-w", "-", "--", "port"]] }) ∧
    (sshTwoRun.halted = some .crashed ∨ sshTwoRun.workers.map Worker.desc = ["h1", "h2"]) ∧
    sshTwoRun.halted ≠ some (.exit 1) ∧
    sshTwoRun.halted ≠ some .crashed ∧
    (sshDeadRun.workers.length ≤ 0 ∧ sshDeadRun.started ≤ 0 + 1 ∧
      sshDeadRun.halted ≠ some (.exit 0) ∧ sshDeadRun.main ≠ .returned ∧
      (sshDeadRun.halted = some (.exit 1) ∨ sshDeadRun.halted = some .crashed)) :=
  have h1 := (ssh_arguments "pcapmux" ["h1", "h2", "--", "tcpdump", "-w", "-", "--", "port"]).2.2
    ["h1", "h2"] ["tcpdump", "-w", "-", "--", "port"] (by decide) (by decide) rfl
  have h2 := ((ssh_arguments "pcapmux" ["h1", "h2", "--", "tcpdump", "-w", "-"]).2.2
    ["h1", "h2"] ["tcpdump", "-w", "-"] (by decide) (by decide) rfl).2 twoSources ⟨[], []⟩
    (List.replicate 9 .main ++ [.worker 0, .worker 1]) sshTwoRun (by unfold sshTwoRun; rfl)
  have h3 := ((ssh_arguments "pcapmux" ["h1", "h2", "--", "tcpdump", "-w", "-"]).2.2
    ["h1", "h2"] ["tcpdump", "-w", "-"] (by decide) (by decide) rfl).2 deadFirstSource ⟨[], []⟩
    (List.replicate 9 .main ++ [.worker 0, .worker 1]) sshDeadRun (by unfold sshDeadRun; rfl)
  have h4 := h2.2.2.1
    (fun k h _ => twoSources_deliver k "ssh" [h, " ".intercalate ["tcpdump", "-w", "-"]])
  have h5 := h3.2.2.2 0 "h1" rfl (by decide)
  ⟨h1.1, h4.2.1 (by decide), h4.1,
    h4.2.2 (fun k h _ => twoSources_records k "ssh" [h, " ".intercalate ["tcpdump", "-w", "-"]]),
    h5.1, h5.2.1, h5.2.2.1, h5.2.2.2.1, h5.2.2.2.2 (by decide)⟩

/-- The scenario of an ssh command line with `--` first: there is no host, the
command line is accepted, nothing is started, and `main` returns. -/
theorem ssh_without_hosts :
    mainJobs ["pcapmux", "ssh", "--", "tcpdump"] = .ok [] ∧
    (run twoSources (Sys.init ["pcapmux", "ssh", "--", "tcpdump"] ⟨[], []⟩)
      [.main, .main]).halted = some (.exit 0) ∧
    (run twoSources (Sys.init ["pcapmux", "ssh", "--", "tcpdump"] ⟨[], []⟩)
      [.main, .main]).started = 0 ∧
    (run twoSources (Sys.init ["pcapmux", "ssh", "--", "tcpdump"] ⟨[], []⟩)
      [.main, .main]).log = ["[pcapmux exiting]"] := by
  refine ⟨rfl, ?_⟩
  decide

/-- The scenario of a dead second source, evaluated: the main goroutine ends
the process with `os.Exit(1)` while the goroutine of the first source holds
`outLock` between the two writes of its record; the output keeps the three
bytes of the global header that were accepted and the record header, and the
command of the third source is never run. -/
theorem dead_second_source_run :
    deadSecondRun.halted = some (.exit 1) ∧
    deadSecondRun.started = 2 ∧
    deadSecondRun.workers.map Worker.desc = ["a"] ∧
    deadSecondRun.outLock = some (.worker 0) ∧
    deadSecondRun.stdout.out =
      [0xaa, 0xaa, 0xaa] ++ [1, 2, 3, 4, 5, 6, 7, 8, 4, 0, 0, 0, 4, 0, 0, 0] ∧
    deadSecondRun.log =
      ["[a] start", "[a] Error writing global header: resource temporarily unavailable",
       "[b] start"] := by
  decide

end Pcapmux
